import Mathlib

/-!
# Anima statistical samplers: a shallow embedding over the reals

Sources: `Anima/math-tools/statistical_distributions/animaDistributionSampling.hxx` and
the `mcm_utilities` functions of
`Anima/math-tools/multi_compartment_base/animaBaseCompartment.cxx`.

* `double` is read as `ℝ`, `std::sqrt`, `std::log`, `std::exp`, `std::cos`, ... as the
  real functions of the same name, `M_PI` as `Real.pi`.
* `std::mt19937 &generator` is read as the sequence of canonical values in `[0,1)` it hands
  to the distributions together with the number of values consumed so far.
  `Generator.Valid` and `Generator.Deliverable` say which sequences the engine can hand out.
* A `while` loop is run with a bound on the number of times its body may execute;
  `none` means that the bound was reached. A counted `for` loop needs no bound.
* `std::normal_distribution` and `itk::SymmetricEigenAnalysis` are parameters of the
  Gaussian sampler; vectors and matrices of run-time size are read as index functions.
* A `throw` ends the call with `Except.error`; the generator consumed so far is kept.
-/

noncomputable section

open Classical

namespace anima

/-! ## Data model -/

/-- A 3-vector (`VectorType` indexed by `[0]`, `[1]`, `[2]`). -/
abbrev Vec3 := Fin 3 → ℝ

/-- A 3x3 matrix (`vnl_matrix <double>` indexed by `(i,j)`). -/
abbrev Mat3 := Fin 3 → Fin 3 → ℝ

/-- The state of `std::mt19937 &generator` as the samplers see it: `stream n` is the
`n`-th canonical uniform value in `[0,1)` the engine produces, `pos` the number of
values already consumed. -/
structure Generator where
  stream : ℕ → ℝ
  pos : ℕ

/-- Every canonical value of the generator lies in `[0,1)`. -/
def Generator.Valid (g : Generator) : Prop :=
  ∀ n, 0 ≤ g.stream n ∧ g.stream n < 1

/-- Every canonical value is one the engine can deliver: `std::uniform_real_distribution
<double>` forms it from two 32-bit outputs `x1`, `x2` of `std::mt19937` as
`(x1 + 2^32 x2) / 2^64`, a multiple of `2^-64` below `1`. -/
def Generator.Deliverable (g : Generator) : Prop :=
  ∀ n, ∃ k : ℕ, k < 2 ^ 64 ∧ g.stream n = (k : ℝ) / 2 ^ 64

/-- The two exceptions thrown by the samplers. -/
inductive SampleError where
  | invalidInput
  | numericalConsistency
  deriving DecidableEq

/-- A `while (cond) body` loop on the state `σ` of the variables it reads and writes.
`fuel` bounds the number of executions of the body. -/
def whileLoop {σ : Type} (cond : σ → Prop) [DecidablePred cond] (body : σ → σ) :
    ℕ → σ → Option σ
  | 0, s => if cond s then none else some s
  | fuel + 1, s => if cond s then whileLoop cond body fuel (body s) else some s

/-- `std::uniform_real_distribution<T> uniDbl(a,b); return uniDbl(generator);`
one canonical value is consumed and mapped affinely onto `[a,b)`. -/
def SampleFromUniformDistribution (a b : ℝ) (generator : Generator) : ℝ × Generator :=
  (a + (b - a) * generator.stream generator.pos, ⟨generator.stream, generator.pos + 1⟩)

/-! ## Uniform sampling on the 2-sphere (lines 25-42) -/

/-- The variables of the rejection loop of `SampleFromUniformDistributionOn2Sphere`. -/
structure SphereState where
  resVec : Vec3
  sqSum : ℝ
  generator : Generator

/-- Body of `while (sqSum > 1)` (lines 32-35). -/
def sphereBody (st : SphereState) : SphereState :=
  let d0 := SampleFromUniformDistribution (-1) 1 st.generator
  let d1 := SampleFromUniformDistribution (-1) 1 d0.2
  let resVec : Vec3 := ![d0.1, d1.1, st.resVec 2]
  ⟨resVec, resVec 0 * resVec 0 + resVec 1 * resVec 1, d1.2⟩

/-- `SampleFromUniformDistributionOn2Sphere(generator, resVec)`; returns the final
`resVec` and generator. -/
def SampleFromUniformDistributionOn2Sphere (fuel : ℕ) (generator : Generator) (resVec : Vec3) :
    Option (Vec3 × Generator) :=
  match whileLoop (fun st : SphereState => st.sqSum > 1) sphereBody fuel ⟨resVec, 2, generator⟩ with
  | none => none
  | some st =>
    let factor := 2 * Real.sqrt (1 - st.sqSum)
    some (![st.resVec 0 * factor, st.resVec 1 * factor, 2 * st.sqSum - 1], st.generator)

/-- The `n`-th pair `(u, v)` drawn from `[-1,1)` by a call started on `g`. -/
def spherePair (g : Generator) (n : ℕ) : ℝ × ℝ :=
  (-1 + (1 - -1) * g.stream (g.pos + 2 * n), -1 + (1 - -1) * g.stream (g.pos + 2 * n + 1))

/-- The value `s = u^2 + v^2` of the `n`-th pair. -/
def sphereSq (g : Generator) (n : ℕ) : ℝ :=
  (spherePair g n).1 * (spherePair g n).1 + (spherePair g n).2 * (spherePair g n).2

/-! ## External collaborators (`animaVectorOperations.h`, `animaLogarithmFunctions.h`,
`animaMatrixOperations.h`, boost) -/

/-- Modelled from the spec: `anima::safe_log` (animaLogarithmFunctions.h is not among the
sources); the spec writes it `ln`. -/
def safe_log (x : ℝ) : ℝ := Real.log x

/-- Modelled from the spec: `anima::ComputeNorm` (animaVectorOperations.h is not among
the sources), the Euclidean norm of a 3-vector. -/
def ComputeNorm (v : Vec3) : ℝ :=
  Real.sqrt (v 0 * v 0 + v 1 * v 1 + v 2 * v 2)

/-- Modelled from the spec: `anima::Normalize` (animaVectorOperations.h is not among the
sources), the vector divided by its Euclidean norm. -/
def Normalize (v : Vec3) : Vec3 :=
  fun i => v i / ComputeNorm v

/-- Modelled from the spec: `anima::ComputeCrossProduct` (animaVectorOperations.h is not
among the sources), the vector cross product. -/
def ComputeCrossProduct (a b : Vec3) : Vec3 :=
  ![a 1 * b 2 - a 2 * b 1, a 2 * b 0 - a 0 * b 2, a 0 * b 1 - a 1 * b 0]

/-- Modelled from the spec: `anima::TransformCartesianToSphericalCoordinates`
(animaVectorOperations.h is not among the sources). The result holds the polar angle in
`[0]`, the azimuth in `[1]` and the radius, the Euclidean norm, in `[2]`. The samplers
read `[0]` and `[2]` only. -/
def TransformCartesianToSphericalCoordinates (v : Vec3) : Vec3 :=
  ![Real.arccos (v 2 / ComputeNorm v), Complex.arg ⟨v 0, v 1⟩, ComputeNorm v]

/-- The geometry routines whose code is not among the sources and which the spec only
names: `anima::GetRotationMatrixFromVectors(a, b).GetVnlMatrix()` and
`anima::RotateAroundAxis(v, angle, axis, res)`. -/
structure GeometryLib where
  GetRotationMatrixFromVectors : Vec3 → Vec3 → Mat3
  RotateAroundAxis : Vec3 → ℝ → Vec3 → Vec3

/-- `boost::math::quantile(boost::math::beta_distribution<double>(1.0, 1.0), p)`: the
distribution function of Beta(1,1) is the identity on `[0,1]`, and so is its quantile. -/
def betaQuantile11 (p : ℝ) : ℝ := p

/-- The canonical-axis point `(sqrt(1-W*W) cos(theta), sqrt(1-W*W) sin(theta), W)` written
to `tmpVec` (lines 133-135, 166-168, 271-273). -/
def canonicalPoint (W theta : ℝ) : Vec3 :=
  ![Real.sqrt (1 - W * W) * Real.cos theta, Real.sqrt (1 - W * W) * Real.sin theta, W]

/-- The double loop `resVec[i] += rotationMatrix(i,j) * tmpVec[j]` on a zeroed `resVec`
(lines 137-139, 170-172). -/
def applyRotation (rotationMatrix : Mat3) (tmpVec : Vec3) : Vec3 :=
  fun i => 0 + rotationMatrix i 0 * tmpVec 0 + rotationMatrix i 1 * tmpVec 1
    + rotationMatrix i 2 * tmpVec 2

/-- The matrix is orthogonal: its columns are orthonormal. -/
def IsOrthogonal (R : Mat3) : Prop :=
  ∀ j k : Fin 3, R 0 j * R 0 k + R 1 j * R 1 k + R 2 j * R 2 k = if j = k then 1 else 0

/-! ## Von Mises and Fisher sampler, reference variant (lines 92-140) -/

/-- `b` of line 113. -/
def vmfB (kappa : ℝ) : ℝ :=
  (-2 * kappa + 2 * Real.sqrt (kappa * kappa + 1)) / 2

/-- `a` of line 114. -/
def vmfA (kappa : ℝ) : ℝ :=
  (1 + kappa + Real.sqrt (kappa * kappa + 1)) / 2

/-- `d` of line 115. -/
def vmfD (kappa : ℝ) : ℝ :=
  4 * vmfA kappa * vmfB kappa / (1 + vmfB kappa) - 2 * safe_log 2

/-- The variables of the rejection loop of `SampleFromVMFDistribution`. -/
structure VMFState where
  T : ℝ
  U : ℝ
  W : ℝ
  generator : Generator

/-- Condition of the `while` of line 123. -/
def vmfCond (kappa : ℝ) (st : VMFState) : Prop :=
  2 * safe_log st.T - st.T + vmfD kappa < safe_log st.U

/-- Body of the `while` of line 123 (lines 125-129). -/
def vmfBody (kappa : ℝ) (st : VMFState) : VMFState :=
  let z := SampleFromUniformDistribution 0 1 st.generator
  let Z := betaQuantile11 z.1
  let u := SampleFromUniformDistribution 0 1 z.2
  let tmpVal := 1 - (1 - vmfB kappa) * Z
  ⟨2 * vmfA kappa * vmfB kappa / tmpVal, u.1, (1 - (1 + vmfB kappa) * Z) / tmpVal, u.2⟩

/-- Lines 112-130 of `SampleFromVMFDistribution`: the rejection loop, returning the
accepted `W` and the generator. -/
def vmfRejectionLoop (fuel : ℕ) (kappa : ℝ) (generator : Generator) : Option (ℝ × Generator) :=
  match whileLoop (vmfCond kappa) (vmfBody kappa) fuel
      ⟨1, Real.exp (vmfD kappa), 0, generator⟩ with
  | none => none
  | some st => some (st.W, st.generator)

/-- `SampleFromVMFDistribution(kappa, meanDirection, resVec, generator)`; returns the
final `resVec`, or the exception, and the generator. -/
def SampleFromVMFDistribution (lib : GeometryLib) (fuel : ℕ) (kappa : ℝ) (meanDirection : Vec3)
    (generator : Generator) : Option (Except SampleError Vec3 × Generator) :=
  let rotationMatrix := lib.GetRotationMatrixFromVectors ![0, 0, 1] meanDirection
  let tmpVec := TransformCartesianToSphericalCoordinates meanDirection
  if |tmpVec 2 - 1.0| > 1.0e-6 then
    some (Except.error SampleError.invalidInput, generator)
  else
    match vmfRejectionLoop fuel kappa generator with
    | none => none
    | some (W, g) =>
      let theta := SampleFromUniformDistribution 0 (2 * Real.pi) g
      some (Except.ok (applyRotation rotationMatrix (canonicalPoint W theta.1)), theta.2)

/-- The `n`-th value `Z` drawn by the rejection loop started on `g`. -/
def vmfZ (g : Generator) (n : ℕ) : ℝ :=
  betaQuantile11 (0 + (1 - 0) * g.stream (g.pos + 2 * n))

/-- The `n`-th value `U` drawn by the rejection loop started on `g`. -/
def vmfU (g : Generator) (n : ℕ) : ℝ :=
  0 + (1 - 0) * g.stream (g.pos + 2 * n + 1)

/-- The value `T` of the `n`-th trial. -/
def vmfT (kappa : ℝ) (g : Generator) (n : ℕ) : ℝ :=
  2 * vmfA kappa * vmfB kappa / (1 - (1 - vmfB kappa) * vmfZ g n)

/-- The value `W` of the `n`-th trial. -/
def vmfW (kappa : ℝ) (g : Generator) (n : ℕ) : ℝ :=
  (1 - (1 + vmfB kappa) * vmfZ g n) / (1 - (1 - vmfB kappa) * vmfZ g n)

/-! ## Von Mises and Fisher sampler, numerically stable variant (lines 142-173) -/

/-- `W` of line 163. -/
def vmfStableW (kappa xi : ℝ) : ℝ :=
  1 + (safe_log xi + safe_log (1 - (xi - 1) * Real.exp (-2 * kappa) / xi)) / kappa

/-- `SampleFromVMFDistributionNumericallyStable(kappa, meanDirection, resVec, generator)`;
returns the final `resVec`, or the exception, and the generator. -/
def SampleFromVMFDistributionNumericallyStable (lib : GeometryLib) (kappa : ℝ)
    (meanDirection : Vec3) (generator : Generator) : Except SampleError Vec3 × Generator :=
  let rotationMatrix := lib.GetRotationMatrixFromVectors ![0, 0, 1] meanDirection
  let tmpVec := TransformCartesianToSphericalCoordinates meanDirection
  if |tmpVec 2 - 1.0| > 1.0e-6 then
    (Except.error SampleError.invalidInput, generator)
  else
    let xi := SampleFromUniformDistribution 0 1 generator
    let W := vmfStableW kappa xi.1
    let theta := SampleFromUniformDistribution 0 (2 * Real.pi) xi.2
    (Except.ok (applyRotation rotationMatrix (canonicalPoint W theta.1)), theta.2)

/-! ## Watson sampler (lines 175-288) -/

/-- `S` of lines 228 and 237. -/
def bipolarS (kappa U : ℝ) : ℝ :=
  1 + Real.log (U + (1 - U) * Real.exp (-kappa)) / kappa

/-- The variables of the bipolar rejection loop; `broke` records that the `break` of
line 242 was taken. -/
structure BipolarState where
  U : ℝ
  S : ℝ
  V : ℝ
  broke : Bool
  generator : Generator

/-- Condition of the `while` of line 234, which is not evaluated after a `break`. -/
def bipolarCond (kappa : ℝ) (st : BipolarState) : Prop :=
  st.broke = false ∧ Real.log st.V > kappa * st.S * (st.S - 1)

/-- Body of the `while` of line 234 (lines 236-242). -/
def bipolarBody (kappa : ℝ) (st : BipolarState) : BipolarState :=
  let u := SampleFromUniformDistribution 0 1 st.generator
  let v := SampleFromUniformDistribution 0 1 u.2
  ⟨u.1, bipolarS kappa u.1, v.1, decide (v.1 < 1.0e-6), v.2⟩

/-- Lines 227-244: the bipolar branch, returning `S` and the generator. -/
def watsonBipolar (fuel : ℕ) (kappa : ℝ) (generator : Generator) : Option (ℝ × Generator) :=
  let u := SampleFromUniformDistribution 0 1 generator
  let S := bipolarS kappa u.1
  let v := SampleFromUniformDistribution 0 1 u.2
  if v.1 > 1.0e-6 then
    match whileLoop (bipolarCond kappa) (bipolarBody kappa) fuel ⟨u.1, S, v.1, false, v.2⟩ with
    | none => none
    | some st => some (st.S, st.generator)
  else
    some (S, v.2)

/-- `S` of lines 252 and 259, with `C1` and `C2` of lines 248-249. -/
def girdleS (kappa U : ℝ) : ℝ :=
  (1.0 / Real.sqrt |kappa|) * Real.tan (Real.arctan (Real.sqrt |kappa|) * U)

/-- The variables of the girdle rejection loop. -/
structure GirdleState where
  U : ℝ
  V : ℝ
  S : ℝ
  T : ℝ
  generator : Generator

/-- Condition of the `while` of line 255. -/
def girdleCond (st : GirdleState) : Prop :=
  st.V > (1 - st.T) * Real.exp st.T

/-- Lines 250-254 and 257-260: two draws, then `S` and `T`. -/
def girdleDraw (kappa : ℝ) (generator : Generator) : GirdleState :=
  let u := SampleFromUniformDistribution 0 1 generator
  let v := SampleFromUniformDistribution 0 1 u.2
  let S := girdleS kappa u.1
  ⟨u.1, v.1, S, kappa * S * S, v.2⟩

/-- Lines 248-261: the girdle branch, returning `S` and the generator. -/
def watsonGirdle (fuel : ℕ) (kappa : ℝ) (generator : Generator) : Option (ℝ × Generator) :=
  match whileLoop girdleCond (fun st => girdleDraw kappa st.generator) fuel
      (girdleDraw kappa generator) with
  | none => none
  | some st => some (st.S, st.generator)

/-- Line 266: the branch `|kappa| <= 1e-6`, returning `S` and the generator. -/
def watsonNearZero (generator : Generator) : ℝ × Generator :=
  let t := SampleFromUniformDistribution 0 Real.pi generator
  (Real.cos t.1, t.2)

/-- Lines 224-267: the regime dispatch, returning the polar cosine `S` and the
generator. -/
def watsonPolarCosine (fuel : ℕ) (kappa : ℝ) (generator : Generator) : Option (ℝ × Generator) :=
  if kappa > 1.0e-6 then watsonBipolar fuel kappa generator
  else if kappa < -1.0e-6 then watsonGirdle fuel kappa generator
  else some (watsonNearZero generator)

/-- `SampleFromWatsonDistribution(kappa, meanDirection, resVec, DataDimension, generator)`
with `DataDimension = 3`; returns the final `resVec`, or the exception, and the
generator. -/
def SampleFromWatsonDistribution (lib : GeometryLib) (fuel : ℕ) (kappa : ℝ) (meanDirection : Vec3)
    (generator : Generator) : Option (Except SampleError Vec3 × Generator) :=
  let rotationNormal := Normalize (ComputeCrossProduct ![0, 0, 1] meanDirection)
  let tmpVec := TransformCartesianToSphericalCoordinates meanDirection
  let rotationAngle := tmpVec 0
  if |tmpVec 2 - 1.0| > 1.0e-6 then
    some (Except.error SampleError.invalidInput, generator)
  else
    match watsonPolarCosine fuel kappa generator with
    | none => none
    | some (S, g) =>
      let phi := SampleFromUniformDistribution 0 (2 * Real.pi) g
      let resVec := lib.RotateAroundAxis (canonicalPoint S phi.1) rotationAngle rotationNormal
      let resNorm := ComputeNorm resVec
      if |resNorm - 1.0| > 1.0e-4 then
        some (Except.error SampleError.numericalConsistency, phi.2)
      else
        some (Except.ok (Normalize resVec), phi.2)

/-- The `n`-th value `U` drawn by a Watson rejection loop started on `g`. -/
def watsonU (g : Generator) (n : ℕ) : ℝ :=
  0 + (1 - 0) * g.stream (g.pos + 2 * n)

/-- The `n`-th value `V` drawn by a Watson rejection loop started on `g`. -/
def watsonV (g : Generator) (n : ℕ) : ℝ :=
  0 + (1 - 0) * g.stream (g.pos + 2 * n + 1)

/-! ## Generators used to evaluate the samplers on concrete streams -/

/-- The fresh generator whose canonical values are all `c`. -/
def Generator.const (c : ℝ) : Generator := ⟨fun _ => c, 0⟩

/-- The fresh generator whose first canonical values are those of `l`, and `c` after. -/
def Generator.ofList (l : List ℝ) (c : ℝ) : Generator := ⟨fun n => l.getD n c, 0⟩

/-- The bipolar loop stops on its `n`-th pair `(U, V)`: the guard of line 232 (first
pair) or of line 241 (later pairs) fires, or the condition of line 234 is false. -/
def bipolarStops (kappa : ℝ) (g : Generator) (n : ℕ) : Prop :=
  (if n = 0 then watsonV g n ≤ 1.0e-6 else watsonV g n < 1.0e-6) ∨
    Real.log (watsonV g n)
      ≤ kappa * bipolarS kappa (watsonU g n) * (bipolarS kappa (watsonU g n) - 1)

/-- The value `T` of the `n`-th trial of the girdle loop. -/
def girdleT (kappa : ℝ) (g : Generator) (n : ℕ) : ℝ :=
  kappa * girdleS kappa (watsonU g n) * girdleS kappa (watsonU g n)

/-- The geometry library restricted to the mean direction `(0,0,1)`: the rotation taking
`(0,0,1)` to itself is the identity, as a matrix and as a rotation about an axis. -/
def GeometryLib.pole : GeometryLib :=
  ⟨fun _ _ i j => if i = j then 1 else 0, fun v _ _ => v⟩

/-! ## Regimes of the Watson sampler -/

/-- The three branches of the `if` / `else if` / `else` of lines 225, 246 and 263. -/
inductive WatsonRegime where
  | bipolar
  | girdle
  | nearZero
  deriving DecidableEq

/-- The branch taken by lines 225, 246 and 263 for a given `kappa`. -/
def watsonRegime (kappa : ℝ) : WatsonRegime :=
  if kappa > 1.0e-6 then WatsonRegime.bipolar
  else if kappa < -1.0e-6 then WatsonRegime.girdle
  else WatsonRegime.nearZero

/-! ## Multivariate Gaussian sampler (lines 51-90) -/

/-- A vector of unspecified length indexed by `[i]` (`VectorType`, `vnl_diag_matrix`). -/
abbrev VecN := ℕ → ℝ

/-- A `vnl_matrix <ScalarType>`: its number of rows `rows()` and its entries `(i,j)`. -/
structure VnlMatrix where
  rows : ℕ
  entry : ℕ → ℕ → ℝ

/-- The routines of the standard library and of ITK used by the Gaussian sampler:
`standardNormal g` is the value a fresh `std::normal_distribution` of mean 0 and deviation
1 produces from the generator `g`, with the generator after;
`ComputeEigenValuesAndVectors mat` is the pair `(eVals, eVecs)` written by
`itk::SymmetricEigenAnalysis::ComputeEigenValuesAndVectors`. -/
structure NumericLib where
  standardNormal : Generator → ℝ × Generator
  ComputeEigenValuesAndVectors : VnlMatrix → VecN × (ℕ → ℕ → ℝ)

/-- A loop `for (unsigned int i = 0; i < n; ++i) body` on the state `σ` of the variables
it writes. -/
def forLoop {σ : Type} (body : ℕ → σ → σ) : ℕ → σ → σ
  | 0, s => s
  | n + 1, s => body n (forLoop body n s)

/-- `std::normal_distribution<T> normalDist(mean,std); return normalDist(generator);`
the standard normal value scaled by `std` and shifted by `mean`. -/
def SampleFromGaussianDistribution (lib : NumericLib) (mean std : ℝ) (generator : Generator) :
    ℝ × Generator :=
  ((lib.standardNormal generator).1 * std + mean, (lib.standardNormal generator).2)

/-- Modelled from the spec: `anima::RecomposeTensor(eVals, eVecs, outMat)`
(animaBaseTensorTools.h is not among the sources): the matrix recomposed from the
eigenvalues and from the eigenvectors, which are the rows of `eVecs` as
`itk::SymmetricEigenAnalysis` writes them. -/
def RecomposeTensor (n : ℕ) (eVals : VecN) (eVecs : ℕ → ℕ → ℝ) : ℕ → ℕ → ℝ :=
  fun i j => ∑ k ∈ Finset.range n, eVals k * eVecs k i * eVecs k j

/-- Lines 62-78: `stdMatrix`, the matrix applied to the normal draws. -/
def gaussianStdMatrix (lib : NumericLib) (mat : VnlMatrix) (isMatCovariance : Bool) :
    ℕ → ℕ → ℝ :=
  let vectorSize := mat.rows
  if isMatCovariance then
    let e := lib.ComputeEigenValuesAndVectors mat
    let eVals := forLoop (fun i (ev : VecN) => Function.update ev i (Real.sqrt (ev i)))
      vectorSize e.1
    RecomposeTensor vectorSize eVals e.2
  else
    mat.entry

/-- Lines 80-82: `tmpVec`, a copy of `resVec` filled with `vectorSize` normal draws. -/
def gaussianDraws (lib : NumericLib) (vectorSize : ℕ) (resVec : VecN) (generator : Generator) :
    VecN × Generator :=
  forLoop (fun i (st : VecN × Generator) =>
      let z := SampleFromGaussianDistribution lib 0.0 1.0 st.2
      (Function.update st.1 i z.1, z.2))
    vectorSize (resVec, generator)

/-- Lines 84-89: `resVec[i] = mean[i]` followed by the accumulation over `j`. -/
def gaussianCombine (vectorSize : ℕ) (mean : VecN) (stdMatrix : ℕ → ℕ → ℝ) (tmpVec resVec : VecN) :
    VecN :=
  forLoop (fun i (rv : VecN) =>
      forLoop (fun j (rv2 : VecN) => Function.update rv2 i (rv2 i + stdMatrix i j * tmpVec j))
        vectorSize (Function.update rv i (mean i)))
    vectorSize resVec

/-- `SampleFromMultivariateGaussianDistribution(mean, mat, resVec, generator,
isMatCovariance)`; returns the final `resVec` and generator. -/
def SampleFromMultivariateGaussianDistribution (lib : NumericLib) (mean : VecN) (mat : VnlMatrix)
    (resVec : VecN) (generator : Generator) (isMatCovariance : Bool) : VecN × Generator :=
  let vectorSize := mat.rows
  let stdMatrix := gaussianStdMatrix lib mat isMatCovariance
  let drawn := gaussianDraws lib vectorSize resVec generator
  (gaussianCombine vectorSize mean stdMatrix drawn.1 resVec, drawn.2)

/-- The generator after `j` normal draws. -/
def normalGenerator (lib : NumericLib) (g : Generator) (j : ℕ) : Generator :=
  (fun h => (lib.standardNormal h).2)^[j] g

/-- The `j`-th normal value `z_j` drawn from `g` with mean 0 and deviation 1. -/
def normalValue (lib : NumericLib) (g : Generator) (j : ℕ) : ℝ :=
  (SampleFromGaussianDistribution lib 0.0 1.0 (normalGenerator lib g j)).1

/-- A numeric library used to evaluate the Gaussian sampler: the normal value is the next
value of the stream, and the eigen-analysis returns unit eigenvalues with the identity
matrix of eigenvectors, an eigendecomposition of the identity matrix. -/
def NumericLib.unit : NumericLib :=
  ⟨fun g => (g.stream g.pos, ⟨g.stream, g.pos + 1⟩),
    fun _ => (fun _ => 1, fun i j => if i = j then 1 else 0)⟩

/-- The `n x n` identity matrix. -/
def identityMatrix (n : ℕ) : VnlMatrix := ⟨n, fun i j => if i = j then 1 else 0⟩

/-- The fresh generator whose values are all `1` (for `true`) or all `-1` (for `false`);
read by `NumericLib.unit` as normal values they have mean 0 and second moment 1 under
the uniform choice of the Boolean. -/
def signGenerator (b : Bool) : Generator := Generator.const (if b then 1 else -1)

/-! ## Runs from the same state of the generator -/

/-- The two generators hand out the same values from their current positions on: they
are in the same state, whatever they produced before. -/
def Generator.SameDraws (g1 g2 : Generator) : Prop :=
  ∀ k, g1.stream (g1.pos + k) = g2.stream (g2.pos + k)

/-- Both runs reach the bound on the trials, or both finish and their results are
related by `R`. -/
def optionRel {α β : Type} (R : α → β → Prop) (o1 : Option α) (o2 : Option β) : Prop :=
  match o1, o2 with
  | some a, some b => R a b
  | none, none => True
  | _, _ => False

/-- Two runs end alike: both reach the bound on the trials, or both finish with the same
output (a value or an exception) and leave the generator in the same state. -/
def SameOutcome {α : Type} (o1 o2 : Option (α × Generator)) : Prop :=
  optionRel (fun p q => p.1 = q.1 ∧ p.2.SameDraws q.2) o1 o2

/-! ## Bounded parameters of the compartments
(`Anima/math-tools/multi_compartment_base/animaBaseCompartment.cxx`, lines 9-44) -/

namespace mcm_utilities

/-- `UnboundValue(x, lowerBound, upperBound)` (lines 12-20). -/
def UnboundValue (x lowerBound upperBound : ℝ) : ℝ :=
  let x1 := if x < lowerBound then lowerBound else x
  let x2 := if x1 > upperBound then upperBound else x1
  Real.arcsin (2.0 * (x2 - lowerBound) / (upperBound - lowerBound) - 1.0)

/-- `ComputeBoundedValue(x, inputSign, lowerBound, upperBound)` (lines 22-32); returns the
value and the `inputSign` written through the reference, whose incoming value
`_inputSign` is not read. -/
def ComputeBoundedValue (x _inputSign lowerBound upperBound : ℝ) : ℝ × ℝ :=
  let sinVal := Real.sin x
  let inputSign : ℝ := if Real.cos x ≥ 0 then 1.0 else -1.0
  ((upperBound - lowerBound) * (sinVal + 1.0) / 2.0 + lowerBound, inputSign)

/-- `BoundedDerivativeAddOn(x, inputSign, lowerBound, upperBound)` (lines 34-42). -/
def BoundedDerivativeAddOn (x inputSign lowerBound upperBound : ℝ) : ℝ :=
  let x1 := if x < lowerBound then lowerBound else x
  let x2 := if x1 > upperBound then upperBound else x1
  inputSign * Real.sqrt ((x2 - lowerBound) * (upperBound - x2))

end mcm_utilities

/-! ## Generic facts on `whileLoop` -/

theorem whileLoop_eq_some_iff {σ : Type} (cond : σ → Prop) [DecidablePred cond]
    (body : σ → σ) :
    ∀ (fuel : ℕ) (s s' : σ), whileLoop cond body fuel s = some s' ↔
      ∃ n, n ≤ fuel ∧ (∀ i, i < n → cond (body^[i] s)) ∧ ¬ cond (body^[n] s) ∧ s' = body^[n] s := by
  intro fuel
  induction fuel with
  | zero =>
    intro s s'
    unfold whileLoop
    by_cases h : cond s
    · simp only [h, if_true]
      constructor
      · intro h0; cases h0
      · rintro ⟨n, hn, _, hc, _⟩
        have : n = 0 := by omega
        subst this
        exact absurd h hc
    · simp only [h, if_false]
      constructor
      · intro h0
        exact ⟨0, le_refl _, fun i hi => absurd hi (Nat.not_lt_zero i), h, (Option.some.inj h0).symm⟩
      · rintro ⟨n, hn, _, _, he⟩
        have : n = 0 := by omega
        subst this
        rw [he]; rfl
  | succ k ih =>
    intro s s'
    unfold whileLoop
    by_cases h : cond s
    · simp only [h, if_true]
      rw [ih]
      constructor
      · rintro ⟨n, hn, hlt, hc, he⟩
        refine ⟨n + 1, by omega, ?_, ?_, ?_⟩
        · intro i hi
          cases i with
          | zero => exact h
          | succ j => exact hlt j (by omega)
        · simpa [Function.iterate_succ_apply] using hc
        · simpa [Function.iterate_succ_apply] using he
      · rintro ⟨n, hn, hlt, hc, he⟩
        cases n with
        | zero => exact absurd h hc
        | succ m =>
          refine ⟨m, by omega, ?_, ?_, ?_⟩
          · intro i hi
            have := hlt (i + 1) (by omega)
            simpa [Function.iterate_succ_apply] using this
          · simpa [Function.iterate_succ_apply] using hc
          · simpa [Function.iterate_succ_apply] using he
    · simp only [h, if_false]
      constructor
      · intro h0
        exact ⟨0, Nat.zero_le _, fun i hi => absurd hi (Nat.not_lt_zero i), h, (Option.some.inj h0).symm⟩
      · rintro ⟨n, hn, hlt, _, he⟩
        cases n with
        | zero => rw [he]; rfl
        | succ m => exact absurd (hlt 0 (Nat.succ_pos m)) h

/-! ## Uniform sampling on the 2-sphere: the loop -/

theorem sphereBody_iterate (s : SphereState) (n : ℕ) :
    (sphereBody^[n] s).generator = ⟨s.generator.stream, s.generator.pos + 2 * n⟩ ∧
      (sphereBody^[n] s).resVec 2 = s.resVec 2 := by
  induction n with
  | zero => exact ⟨rfl, rfl⟩
  | succ k ih =>
    rw [Function.iterate_succ_apply']
    obtain ⟨hg, hr⟩ := ih
    refine ⟨?_, ?_⟩
    · simp only [sphereBody, SampleFromUniformDistribution, hg]
      congr 1
    · simp only [sphereBody, SampleFromUniformDistribution]
      simpa using hr

theorem sphereBody_iterate_succ (r : Vec3) (q : ℝ) (g : Generator) (n : ℕ) :
    sphereBody^[n + 1] ⟨r, q, g⟩ =
      ⟨![(spherePair g n).1, (spherePair g n).2, r 2], sphereSq g n,
        ⟨g.stream, g.pos + 2 * (n + 1)⟩⟩ := by
  rw [Function.iterate_succ_apply']
  obtain ⟨hg, hr⟩ := sphereBody_iterate ⟨r, q, g⟩ n
  simp only [sphereBody, SampleFromUniformDistribution, hg, hr, sphereSq, spherePair]
  simp [Matrix.cons_val_zero, Matrix.cons_val_one, Matrix.head_cons]
  ring

/-- The call returns exactly when a pair within the allowed trials has `s <= 1`; it
stops at the first such pair and returns the point of lines 38-41 for it. -/
theorem sphere_run_iff (fuel : ℕ) (g g' : Generator) (r v : Vec3) :
    SampleFromUniformDistributionOn2Sphere fuel g r = some (v, g') ↔
      ∃ n, n < fuel ∧ (∀ i, i < n → sphereSq g i > 1) ∧ sphereSq g n ≤ 1 ∧
        v = ![(spherePair g n).1 * (2 * Real.sqrt (1 - sphereSq g n)),
              (spherePair g n).2 * (2 * Real.sqrt (1 - sphereSq g n)),
              2 * sphereSq g n - 1] ∧
        g' = ⟨g.stream, g.pos + 2 * (n + 1)⟩ := by
  unfold SampleFromUniformDistributionOn2Sphere
  constructor
  · intro h
    cases hw : whileLoop (fun st : SphereState => st.sqSum > 1) sphereBody fuel ⟨r, 2, g⟩ with
    | none => rw [hw] at h; cases h
    | some st =>
      rw [hw] at h
      obtain ⟨m, hm, hlt, hc, he⟩ := (whileLoop_eq_some_iff _ _ fuel _ st).1 hw
      cases m with
      | zero =>
        exfalso
        apply hc
        show (2 : ℝ) > 1
        norm_num
      | succ n =>
        rw [sphereBody_iterate_succ] at hc he
        refine ⟨n, by omega, ?_, ?_, ?_, ?_⟩
        · intro i hi
          have := hlt (i + 1) (by omega)
          rw [sphereBody_iterate_succ] at this
          exact this
        · exact not_lt.1 hc
        · subst he
          have := (Prod.mk.inj (Option.some.inj h)).1
          rw [← this]
          simp
        · subst he
          exact ((Prod.mk.inj (Option.some.inj h)).2).symm
  · rintro ⟨n, hn, hlt, hacc, hv, hg⟩
    have hw : whileLoop (fun st : SphereState => st.sqSum > 1) sphereBody fuel ⟨r, 2, g⟩ =
        some (sphereBody^[n + 1] ⟨r, 2, g⟩) := by
      rw [whileLoop_eq_some_iff]
      refine ⟨n + 1, by omega, ?_, ?_, rfl⟩
      · intro i hi
        cases i with
        | zero => show (2 : ℝ) > 1; norm_num
        | succ j =>
          rw [sphereBody_iterate_succ]
          exact hlt j (by omega)
      · rw [sphereBody_iterate_succ]
        exact not_lt.2 hacc
    rw [hw, sphereBody_iterate_succ, hv, hg]
    simp

/-- Evaluation on the stream whose canonical values are all `1/2`: the first pair is
`(0, 0)`, it is accepted, and the point `(0, 0, -1)` is returned. -/
theorem sphere_run_const_half (r : Vec3) :
    SampleFromUniformDistributionOn2Sphere 1 (Generator.const (1 / 2)) r =
      some (![0, 0, -1], ⟨fun _ => 1 / 2, 2⟩) := by
  simp only [SampleFromUniformDistributionOn2Sphere, whileLoop, sphereBody,
    SampleFromUniformDistribution, Generator.const]
  norm_num

/-- C1 (as amended): when the pair number `n` is the first with `s = u^2 + v^2 <= 1`,
every call allowed more than `n` trials returns the point
`(2u sqrt(1-s), 2v sqrt(1-s), 2s - 1)`, whose third coordinate is `2s - 1`, having
consumed `2(n+1)` draws. -/
theorem C1_sphere_point (g : Generator) (r : Vec3) (n fuel : ℕ)
    (hrej : ∀ i, i < n → sphereSq g i > 1) (hacc : sphereSq g n ≤ 1) (hfuel : n < fuel) :
    SampleFromUniformDistributionOn2Sphere fuel g r =
      some (![2 * (spherePair g n).1 * Real.sqrt (1 - sphereSq g n),
              2 * (spherePair g n).2 * Real.sqrt (1 - sphereSq g n),
              2 * sphereSq g n - 1], ⟨g.stream, g.pos + 2 * (n + 1)⟩) := by
  rw [sphere_run_iff]
  refine ⟨n, hfuel, hrej, hacc, ?_, rfl⟩
  rw [show 2 * (spherePair g n).1 * Real.sqrt (1 - sphereSq g n) =
      (spherePair g n).1 * (2 * Real.sqrt (1 - sphereSq g n)) by ring,
    show 2 * (spherePair g n).2 * Real.sqrt (1 - sphereSq g n) =
      (spherePair g n).2 * (2 * Real.sqrt (1 - sphereSq g n)) by ring]

/-- C1 on the stream of canonical values `1/2`: the first pair `(0, 0)` is accepted. -/
theorem C1_sphere_point_witness :
    SampleFromUniformDistributionOn2Sphere 1 (Generator.const (1 / 2)) ![0, 0, 0] =
      some (![2 * (spherePair (Generator.const (1 / 2)) 0).1
                * Real.sqrt (1 - sphereSq (Generator.const (1 / 2)) 0),
              2 * (spherePair (Generator.const (1 / 2)) 0).2
                * Real.sqrt (1 - sphereSq (Generator.const (1 / 2)) 0),
              2 * sphereSq (Generator.const (1 / 2)) 0 - 1],
            ⟨(Generator.const (1 / 2)).stream, (Generator.const (1 / 2)).pos + 2 * (0 + 1)⟩) :=
  C1_sphere_point (Generator.const (1 / 2)) ![0, 0, 0] 0 1
    (fun i hi => absurd hi (Nat.not_lt_zero i))
    (by simp only [sphereSq, spherePair, Generator.const]; norm_num)
    (by decide)

/-- C1 (as stated) fails: on the stream whose canonical values are all `1/2` the
accepted pair is `(0, 0)`, `s = 0`, and the returned third coordinate is `-1`, not
`1 - 2s = 1`. -/
theorem C1_third_coordinate_counterexample :
    SampleFromUniformDistributionOn2Sphere 1 (Generator.const (1 / 2)) ![0, 0, 0] =
        some (![0, 0, -1], ⟨fun _ => 1 / 2, 2⟩) ∧
      spherePair (Generator.const (1 / 2)) 0 = (0, 0) ∧
      sphereSq (Generator.const (1 / 2)) 0 = 0 ∧
      (![0, 0, -1] : Vec3) 2 ≠ 1 - 2 * sphereSq (Generator.const (1 / 2)) 0 := by
  have hs : sphereSq (Generator.const (1 / 2)) 0 = 0 := by
    simp only [sphereSq, spherePair, Generator.const]; norm_num
  refine ⟨sphere_run_const_half _, ?_, hs, ?_⟩
  · simp only [spherePair, Generator.const]; norm_num
  · rw [hs]; norm_num

/-- C2: whenever the call returns, the returned vector `v` satisfies
`x^2 + y^2 + z^2 = 1`, its Euclidean norm is `1`, hence within `1e-9` of `1`. -/
theorem C2_sphere_unit_norm (fuel : ℕ) (g g' : Generator) (r v : Vec3)
    (h : SampleFromUniformDistributionOn2Sphere fuel g r = some (v, g')) :
    v 0 * v 0 + v 1 * v 1 + v 2 * v 2 = 1 ∧ ComputeNorm v = 1 ∧
      |ComputeNorm v - 1| ≤ 1.0e-9 := by
  obtain ⟨n, -, -, hacc, hv, -⟩ := (sphere_run_iff fuel g g' r v).1 h
  have hsq : v 0 * v 0 + v 1 * v 1 + v 2 * v 2 = 1 := by
    have h0 : (0 : ℝ) ≤ 1 - sphereSq g n := by linarith
    have hs := Real.mul_self_sqrt h0
    have hdef : sphereSq g n =
        (spherePair g n).1 * (spherePair g n).1 + (spherePair g n).2 * (spherePair g n).2 := rfl
    subst hv
    simp only [Matrix.cons_val_zero, Matrix.cons_val_one, Matrix.head_cons, Matrix.cons_val_two,
      Matrix.tail_cons]
    generalize Real.sqrt (1 - sphereSq g n) = q at hs
    generalize (spherePair g n).1 = a at hdef
    generalize (spherePair g n).2 = b at hdef
    generalize sphereSq g n = s at hdef hs
    have : q * q = 1 - s := hs
    linear_combination (4 * a * a + 4 * b * b) * this - (4 * (1 - s)) * hdef
  have hn : ComputeNorm v = 1 := by
    unfold ComputeNorm
    rw [hsq, Real.sqrt_one]
  refine ⟨hsq, hn, ?_⟩
  rw [hn]
  norm_num

/-- C2 on the stream of canonical values `1/2`, where the call returns `(0, 0, -1)`. -/
theorem C2_sphere_unit_norm_witness :
    (![0, 0, -1] : Vec3) 0 * (![0, 0, -1] : Vec3) 0 + (![0, 0, -1] : Vec3) 1 * (![0, 0, -1] : Vec3) 1
        + (![0, 0, -1] : Vec3) 2 * (![0, 0, -1] : Vec3) 2 = 1 ∧
      ComputeNorm ![0, 0, -1] = 1 ∧ |ComputeNorm ![0, 0, -1] - 1| ≤ 1.0e-9 :=
  C2_sphere_unit_norm 1 (Generator.const (1 / 2)) ⟨fun _ => 1 / 2, 2⟩ ![0, 0, 0] ![0, 0, -1]
    (sphere_run_const_half _)

/-! ## Rejection loops whose body redraws everything from the generator -/

/-- When the body of a loop computes its state from the generator alone and consumes two
values, the state after `n + 1` executions is the one computed from the generator
advanced by `2 n`. -/
theorem iterate_redraw {σ : Type} (gen : σ → Generator) (F : Generator → σ) (body : σ → σ)
    (hb : ∀ st, body st = F (gen st))
    (hF : ∀ g, gen (F g) = ⟨g.stream, g.pos + 2⟩) (s : σ) (n : ℕ) :
    body^[n + 1] s = F ⟨(gen s).stream, (gen s).pos + 2 * n⟩ := by
  induction n with
  | zero => simp [hb]
  | succ k ih =>
    rw [Function.iterate_succ_apply', ih, hb, hF]
    congr 1

/-! ## The rejection loop of the reference VMF sampler -/

theorem vmfBody_iterate (kappa : ℝ) (T U W : ℝ) (g : Generator) (n : ℕ) :
    (vmfBody kappa)^[n + 1] ⟨T, U, W, g⟩ =
      ⟨vmfT kappa g n, vmfU g n, vmfW kappa g n, ⟨g.stream, g.pos + 2 * (n + 1)⟩⟩ := by
  rw [iterate_redraw VMFState.generator (fun g => vmfBody kappa ⟨0, 0, 0, g⟩) (vmfBody kappa)
    (fun st => rfl) (fun g => rfl)]
  simp only [vmfBody, SampleFromUniformDistribution, vmfT, vmfU, vmfW, vmfZ]
  congr 1

/-- The loop is entered: with `T = 1` and `U = exp(d)` the condition of line 123 holds. -/
theorem vmfCond_initial (kappa : ℝ) (g : Generator) :
    vmfCond kappa ⟨1, Real.exp (vmfD kappa), 0, g⟩ := by
  simp only [vmfCond, safe_log, Real.log_one, Real.log_exp]
  linarith

/-- The rejection loop of the reference VMF sampler returns exactly when one of the
allowed trials is accepted; it stops at the first one. -/
theorem vmfRejectionLoop_iff (fuel : ℕ) (kappa : ℝ) (g g' : Generator) (W : ℝ) :
    vmfRejectionLoop fuel kappa g = some (W, g') ↔
      ∃ n, n < fuel ∧
        (∀ i, i < n → 2 * safe_log (vmfT kappa g i) - vmfT kappa g i + vmfD kappa
          < safe_log (vmfU g i)) ∧
        safe_log (vmfU g n) ≤ 2 * safe_log (vmfT kappa g n) - vmfT kappa g n + vmfD kappa ∧
        W = vmfW kappa g n ∧ g' = ⟨g.stream, g.pos + 2 * (n + 1)⟩ := by
  unfold vmfRejectionLoop
  constructor
  · intro h
    cases hw : whileLoop (vmfCond kappa) (vmfBody kappa) fuel
        ⟨1, Real.exp (vmfD kappa), 0, g⟩ with
    | none => rw [hw] at h; cases h
    | some st =>
      rw [hw] at h
      obtain ⟨m, hm, hlt, hc, he⟩ := (whileLoop_eq_some_iff _ _ fuel _ st).1 hw
      cases m with
      | zero => exact absurd (vmfCond_initial kappa g) hc
      | succ n =>
        rw [vmfBody_iterate] at hc he
        refine ⟨n, by omega, ?_, ?_, ?_, ?_⟩
        · intro i hi
          have := hlt (i + 1) (by omega)
          rw [vmfBody_iterate] at this
          exact this
        · exact not_lt.1 hc
        · subst he
          exact ((Prod.mk.inj (Option.some.inj h)).1).symm
        · subst he
          exact ((Prod.mk.inj (Option.some.inj h)).2).symm
  · rintro ⟨n, hn, hlt, hacc, hW, hg⟩
    have hw : whileLoop (vmfCond kappa) (vmfBody kappa) fuel
        ⟨1, Real.exp (vmfD kappa), 0, g⟩ =
        some ((vmfBody kappa)^[n + 1] ⟨1, Real.exp (vmfD kappa), 0, g⟩) := by
      rw [whileLoop_eq_some_iff]
      refine ⟨n + 1, by omega, ?_, ?_, rfl⟩
      · intro i hi
        cases i with
        | zero => exact vmfCond_initial kappa g
        | succ j =>
          rw [vmfBody_iterate]
          exact hlt j (by omega)
      · rw [vmfBody_iterate]
        exact not_lt.2 hacc
    rw [hw, vmfBody_iterate, hW, hg]

/-! ## The rejection loops of the Watson sampler -/

theorem girdleDraw_iterate (kappa : ℝ) (s : GirdleState) (g : Generator)
    (hs : s.generator = ⟨g.stream, g.pos + 2⟩) (n : ℕ) :
    (fun st : GirdleState => girdleDraw kappa st.generator)^[n + 1] s =
      ⟨watsonU g (n + 1), watsonV g (n + 1), girdleS kappa (watsonU g (n + 1)),
        girdleT kappa g (n + 1), ⟨g.stream, g.pos + 2 * (n + 2)⟩⟩ := by
  rw [iterate_redraw GirdleState.generator (girdleDraw kappa)
    (fun st : GirdleState => girdleDraw kappa st.generator) (fun st => rfl) (fun g => rfl), hs]
  simp only [girdleDraw, SampleFromUniformDistribution, watsonU, watsonV, girdleT]
  have e1 : g.pos + 2 + 2 * n = g.pos + 2 * (n + 1) := by ring
  have e2 : g.pos + 2 * (n + 1) + 1 + 1 = g.pos + 2 * (n + 2) := by ring
  rw [e1, e2]

theorem girdleDraw_first (kappa : ℝ) (g : Generator) :
    girdleDraw kappa g =
      ⟨watsonU g 0, watsonV g 0, girdleS kappa (watsonU g 0), girdleT kappa g 0,
        ⟨g.stream, g.pos + 2 * (0 + 1)⟩⟩ := by
  simp only [girdleDraw, SampleFromUniformDistribution, watsonU, watsonV, girdleT]
  rfl

theorem girdle_iterate (kappa : ℝ) (g : Generator) (n : ℕ) :
    (fun st : GirdleState => girdleDraw kappa st.generator)^[n] (girdleDraw kappa g) =
      ⟨watsonU g n, watsonV g n, girdleS kappa (watsonU g n), girdleT kappa g n,
        ⟨g.stream, g.pos + 2 * (n + 1)⟩⟩ := by
  cases n with
  | zero => exact girdleDraw_first kappa g
  | succ k => exact girdleDraw_iterate kappa _ g rfl k

/-- The girdle branch returns exactly when one of the allowed pairs is accepted; it stops
at the first one. -/
theorem watsonGirdle_iff (fuel : ℕ) (kappa : ℝ) (g g' : Generator) (S : ℝ) :
    watsonGirdle fuel kappa g = some (S, g') ↔
      ∃ n, n ≤ fuel ∧
        (∀ i, i < n → watsonV g i > (1 - girdleT kappa g i) * Real.exp (girdleT kappa g i)) ∧
        watsonV g n ≤ (1 - girdleT kappa g n) * Real.exp (girdleT kappa g n) ∧
        S = girdleS kappa (watsonU g n) ∧ g' = ⟨g.stream, g.pos + 2 * (n + 1)⟩ := by
  unfold watsonGirdle
  constructor
  · intro h
    cases hw : whileLoop girdleCond (fun st : GirdleState => girdleDraw kappa st.generator) fuel
        (girdleDraw kappa g) with
    | none => rw [hw] at h; cases h
    | some st =>
      rw [hw] at h
      obtain ⟨n, hn, hlt, hc, he⟩ := (whileLoop_eq_some_iff _ _ fuel _ st).1 hw
      rw [girdle_iterate] at hc he
      refine ⟨n, hn, ?_, ?_, ?_, ?_⟩
      · intro i hi
        have := hlt i hi
        rw [girdle_iterate] at this
        exact this
      · exact not_lt.1 hc
      · subst he
        exact ((Prod.mk.inj (Option.some.inj h)).1).symm
      · subst he
        exact ((Prod.mk.inj (Option.some.inj h)).2).symm
  · rintro ⟨n, hn, hlt, hacc, hS, hg⟩
    have hw : whileLoop girdleCond (fun st : GirdleState => girdleDraw kappa st.generator) fuel
        (girdleDraw kappa g) =
        some ((fun st : GirdleState => girdleDraw kappa st.generator)^[n] (girdleDraw kappa g)) := by
      rw [whileLoop_eq_some_iff]
      refine ⟨n, hn, ?_, ?_, rfl⟩
      · intro i hi
        rw [girdle_iterate]
        exact hlt i hi
      · rw [girdle_iterate]
        exact not_lt.2 hacc
    rw [hw, girdle_iterate, hS, hg]

theorem bipolarBody_iterate (kappa : ℝ) (s : BipolarState) (g : Generator)
    (hs : s.generator = ⟨g.stream, g.pos + 2⟩) (n : ℕ) :
    (bipolarBody kappa)^[n + 1] s =
      ⟨watsonU g (n + 1), bipolarS kappa (watsonU g (n + 1)), watsonV g (n + 1),
        decide (watsonV g (n + 1) < 1.0e-6), ⟨g.stream, g.pos + 2 * (n + 2)⟩⟩ := by
  rw [iterate_redraw BipolarState.generator (fun g => bipolarBody kappa ⟨0, 0, 0, false, g⟩)
    (bipolarBody kappa) (fun st => rfl) (fun g => rfl), hs]
  simp only [bipolarBody, SampleFromUniformDistribution, watsonU, watsonV]
  have e1 : g.pos + 2 + 2 * n = g.pos + 2 * (n + 1) := by ring
  have e2 : g.pos + 2 * (n + 1) + 1 + 1 = g.pos + 2 * (n + 2) := by ring
  rw [e1, e2]

/-- The state of the bipolar loop after `n` executions of its body, entered after the
first pair. -/
theorem bipolar_iterate (kappa : ℝ) (g : Generator) (n : ℕ) :
    (bipolarBody kappa)^[n] ⟨watsonU g 0, bipolarS kappa (watsonU g 0), watsonV g 0, false,
        ⟨g.stream, g.pos + 2⟩⟩ =
      ⟨watsonU g n, bipolarS kappa (watsonU g n), watsonV g n,
        decide (n ≠ 0 ∧ watsonV g n < 1.0e-6), ⟨g.stream, g.pos + 2 * (n + 1)⟩⟩ := by
  cases n with
  | zero => simp
  | succ k =>
    rw [bipolarBody_iterate kappa _ g rfl k]
    simp

theorem bipolarCond_iterate (kappa : ℝ) (g : Generator) (n : ℕ) (h0 : watsonV g 0 > 1.0e-6) :
    bipolarCond kappa ⟨watsonU g n, bipolarS kappa (watsonU g n), watsonV g n,
        decide (n ≠ 0 ∧ watsonV g n < 1.0e-6), ⟨g.stream, g.pos + 2 * (n + 1)⟩⟩ ↔
      ¬ bipolarStops kappa g n := by
  unfold bipolarCond bipolarStops
  cases n with
  | zero =>
    simp only [ne_eq, not_true_eq_false, false_and, decide_False, if_true, true_and, not_or,
      not_le, gt_iff_lt]
    exact ⟨fun h => ⟨h0, h⟩, fun h => h.2⟩
  | succ k =>
    simp only [ne_eq, Nat.succ_ne_zero, not_false_eq_true, true_and, decide_eq_false_iff_not,
      if_false, not_or, not_le, gt_iff_lt, not_lt, Nat.add_one_ne_zero]

/-- The bipolar branch returns exactly when the loop stops on one of the allowed pairs;
it stops at the first pair on which it can. -/
theorem watsonBipolar_iff (fuel : ℕ) (kappa : ℝ) (g g' : Generator) (S : ℝ) :
    watsonBipolar fuel kappa g = some (S, g') ↔
      ∃ n, n ≤ fuel ∧ (∀ i, i < n → ¬ bipolarStops kappa g i) ∧ bipolarStops kappa g n ∧
        S = bipolarS kappa (watsonU g n) ∧ g' = ⟨g.stream, g.pos + 2 * (n + 1)⟩ := by
  have hu : (SampleFromUniformDistribution 0 1 g).1 = watsonU g 0 := rfl
  have hv : (SampleFromUniformDistribution 0 1 (SampleFromUniformDistribution 0 1 g).2).1 =
      watsonV g 0 := rfl
  have hg2 : (SampleFromUniformDistribution 0 1 (SampleFromUniformDistribution 0 1 g).2).2 =
      ⟨g.stream, g.pos + 2⟩ := rfl
  unfold watsonBipolar
  simp only [hu, hv, hg2]
  by_cases h0 : watsonV g 0 > 1.0e-6
  · simp only [h0, if_true]
    constructor
    · intro h
      cases hw : whileLoop (bipolarCond kappa) (bipolarBody kappa) fuel
          ⟨watsonU g 0, bipolarS kappa (watsonU g 0), watsonV g 0, false,
            ⟨g.stream, g.pos + 2⟩⟩ with
      | none => rw [hw] at h; cases h
      | some st =>
        rw [hw] at h
        obtain ⟨n, hn, hlt, hc, he⟩ := (whileLoop_eq_some_iff _ _ fuel _ st).1 hw
        rw [bipolar_iterate] at hc he
        rw [bipolarCond_iterate kappa g n h0, not_not] at hc
        refine ⟨n, hn, ?_, hc, ?_, ?_⟩
        · intro i hi
          have := hlt i hi
          rw [bipolar_iterate, bipolarCond_iterate kappa g i h0] at this
          exact this
        · subst he
          exact ((Prod.mk.inj (Option.some.inj h)).1).symm
        · subst he
          exact ((Prod.mk.inj (Option.some.inj h)).2).symm
    · rintro ⟨n, hn, hlt, hacc, hS, hg⟩
      have hw : whileLoop (bipolarCond kappa) (bipolarBody kappa) fuel
          ⟨watsonU g 0, bipolarS kappa (watsonU g 0), watsonV g 0, false,
            ⟨g.stream, g.pos + 2⟩⟩ =
          some ((bipolarBody kappa)^[n] ⟨watsonU g 0, bipolarS kappa (watsonU g 0),
            watsonV g 0, false, ⟨g.stream, g.pos + 2⟩⟩) := by
        rw [whileLoop_eq_some_iff]
        refine ⟨n, hn, ?_, ?_, rfl⟩
        · intro i hi
          rw [bipolar_iterate, bipolarCond_iterate kappa g i h0]
          exact hlt i hi
        · rw [bipolar_iterate, bipolarCond_iterate kappa g n h0, not_not]
          exact hacc
      rw [hw, bipolar_iterate, hS, hg]
  · simp only [h0, if_false]
    have hstop : bipolarStops kappa g 0 := by
      unfold bipolarStops
      left
      simp only [if_true]
      exact not_lt.1 h0
    constructor
    · intro h
      refine ⟨0, Nat.zero_le _, fun i hi => absurd hi (Nat.not_lt_zero i), hstop, ?_, ?_⟩
      · exact ((Prod.mk.inj (Option.some.inj h)).1).symm
      · exact ((Prod.mk.inj (Option.some.inj h)).2).symm
    · rintro ⟨n, hn, hlt, hacc, hS, hg⟩
      cases n with
      | zero => rw [hS, hg]
      | succ k => exact absurd hstop (hlt 0 (Nat.succ_pos k))

/-! ## Norms: canonical point, rotation, normalisation -/

theorem sumSq_nonneg (v : Vec3) : 0 ≤ v 0 * v 0 + v 1 * v 1 + v 2 * v 2 := by
  nlinarith [mul_self_nonneg (v 0), mul_self_nonneg (v 1), mul_self_nonneg (v 2)]

theorem canonicalPoint_sumSq (W theta : ℝ) (hl : -1 ≤ W) (hu : W ≤ 1) :
    canonicalPoint W theta 0 * canonicalPoint W theta 0
      + canonicalPoint W theta 1 * canonicalPoint W theta 1
      + canonicalPoint W theta 2 * canonicalPoint W theta 2 = 1 := by
  have h0 : (0 : ℝ) ≤ 1 - W * W := by nlinarith
  have hs := Real.mul_self_sqrt h0
  have hcs := Real.sin_sq_add_cos_sq theta
  simp only [canonicalPoint, Matrix.cons_val_zero, Matrix.cons_val_one, Matrix.head_cons,
    Matrix.cons_val_two, Matrix.tail_cons]
  generalize Real.sqrt (1 - W * W) = q at hs
  generalize Real.sin theta = s at hcs
  generalize Real.cos theta = c at hcs
  linear_combination (c * c + s * s) * hs + (1 - W * W) * hcs

theorem canonicalPoint_norm (W theta : ℝ) (hl : -1 ≤ W) (hu : W ≤ 1) :
    ComputeNorm (canonicalPoint W theta) = 1 := by
  unfold ComputeNorm
  rw [canonicalPoint_sumSq W theta hl hu, Real.sqrt_one]

theorem applyRotation_sumSq (R : Mat3) (hR : IsOrthogonal R) (v : Vec3) :
    applyRotation R v 0 * applyRotation R v 0 + applyRotation R v 1 * applyRotation R v 1
      + applyRotation R v 2 * applyRotation R v 2 = v 0 * v 0 + v 1 * v 1 + v 2 * v 2 := by
  have h00 := hR 0 0
  have h01 := hR 0 1
  have h02 := hR 0 2
  have h11 := hR 1 1
  have h12 := hR 1 2
  have h22 := hR 2 2
  simp only [if_true, Fin.isValue] at h00 h11 h22
  rw [if_neg (by decide)] at h01 h02 h12
  simp only [applyRotation]
  linear_combination (v 0 * v 0) * h00 + (2 * v 0 * v 1) * h01 + (2 * v 0 * v 2) * h02
    + (v 1 * v 1) * h11 + (2 * v 1 * v 2) * h12 + (v 2 * v 2) * h22

theorem applyRotation_norm (R : Mat3) (hR : IsOrthogonal R) (v : Vec3) :
    ComputeNorm (applyRotation R v) = ComputeNorm v := by
  unfold ComputeNorm
  rw [applyRotation_sumSq R hR v]

theorem Normalize_norm (v : Vec3) (hv : ComputeNorm v ≠ 0) : ComputeNorm (Normalize v) = 1 := by
  have hpos : 0 < ComputeNorm v := lt_of_le_of_ne (Real.sqrt_nonneg _) (Ne.symm hv)
  have hsq : ComputeNorm v * ComputeNorm v = v 0 * v 0 + v 1 * v 1 + v 2 * v 2 :=
    Real.mul_self_sqrt (sumSq_nonneg v)
  have h1 : Normalize v 0 * Normalize v 0 + Normalize v 1 * Normalize v 1
      + Normalize v 2 * Normalize v 2 = 1 := by
    simp only [Normalize]
    field_simp
    linarith
  show Real.sqrt (Normalize v 0 * Normalize v 0 + Normalize v 1 * Normalize v 1
      + Normalize v 2 * Normalize v 2) = 1
  rw [h1, Real.sqrt_one]

/-! ## Bounds on the polar cosines -/

theorem vmfB_pos (kappa : ℝ) : 0 < vmfB kappa := by
  unfold vmfB
  have h1 : Real.sqrt (kappa * kappa) < Real.sqrt (kappa * kappa + 1) :=
    Real.sqrt_lt_sqrt (mul_self_nonneg kappa) (by linarith)
  rw [Real.sqrt_mul_self_eq_abs] at h1
  have h2 := le_abs_self kappa
  linarith

theorem vmfB_lt_one (kappa : ℝ) (hk : 0 < kappa) : vmfB kappa < 1 := by
  unfold vmfB
  have h1 : Real.sqrt (kappa * kappa + 1) < Real.sqrt ((kappa + 1) * (kappa + 1)) :=
    Real.sqrt_lt_sqrt (by nlinarith) (by nlinarith)
  rw [Real.sqrt_mul_self (by linarith)] at h1
  linarith

theorem vmfW_bounds (kappa : ℝ) (hk : 0 < kappa) (g : Generator) (n : ℕ)
    (h0 : 0 ≤ vmfZ g n) (h1 : vmfZ g n ≤ 1) :
    -1 ≤ vmfW kappa g n ∧ vmfW kappa g n ≤ 1 := by
  have hb := vmfB_pos kappa
  have hb1 := vmfB_lt_one kappa hk
  have htmp : 0 < 1 - (1 - vmfB kappa) * vmfZ g n := by nlinarith
  unfold vmfW
  constructor
  · rw [le_div_iff₀ htmp]
    nlinarith
  · rw [div_le_iff₀ htmp]
    nlinarith

theorem vmfStableW_eq (kappa xi : ℝ) (hxi : 0 < xi) (hxi1 : xi < 1) :
    vmfStableW kappa xi = 1 + Real.log (xi + (1 - xi) * Real.exp (-2 * kappa)) / kappa := by
  unfold vmfStableW safe_log
  have he := Real.exp_pos (-2 * kappa)
  have h2 : 0 < 1 - (xi - 1) * Real.exp (-2 * kappa) / xi := by
    have : 0 ≤ (1 - xi) * Real.exp (-2 * kappa) / xi :=
      div_nonneg (mul_nonneg (by linarith) he.le) hxi.le
    have e : (xi - 1) * Real.exp (-2 * kappa) / xi = - ((1 - xi) * Real.exp (-2 * kappa) / xi) := by
      ring
    rw [e]
    linarith
  rw [← Real.log_mul hxi.ne.symm h2.ne.symm]
  congr 3
  field_simp
  ring

theorem vmfStableW_bounds (kappa xi : ℝ) (hk : 0 < kappa) (hxi : 0 < xi) (hxi1 : xi < 1) :
    -1 < vmfStableW kappa xi ∧ vmfStableW kappa xi < 1 := by
  rw [vmfStableW_eq kappa xi hxi hxi1]
  have he := Real.exp_pos (-2 * kappa)
  have he1 : Real.exp (-2 * kappa) < 1 := by
    rw [Real.exp_lt_one_iff]
    linarith
  have hlo : Real.exp (-2 * kappa) < xi + (1 - xi) * Real.exp (-2 * kappa) := by nlinarith
  have hhi : xi + (1 - xi) * Real.exp (-2 * kappa) < 1 := by nlinarith
  have hl1 : -2 * kappa < Real.log (xi + (1 - xi) * Real.exp (-2 * kappa)) := by
    rw [Real.lt_log_iff_exp_lt (by linarith)]
    exact hlo
  have hl2 : Real.log (xi + (1 - xi) * Real.exp (-2 * kappa)) < 0 :=
    Real.log_neg (by linarith) hhi
  constructor
  · have : -2 < Real.log (xi + (1 - xi) * Real.exp (-2 * kappa)) / kappa := by
      rw [lt_div_iff₀ hk]
      linarith
    linarith
  · have : Real.log (xi + (1 - xi) * Real.exp (-2 * kappa)) / kappa < 0 :=
      div_neg_of_neg_of_pos hl2 hk
    linarith

theorem bipolarS_bounds (kappa U : ℝ) (hk : 0 < kappa) (h0 : 0 ≤ U) (h1 : U < 1) :
    0 ≤ bipolarS kappa U ∧ bipolarS kappa U < 1 := by
  unfold bipolarS
  have he := Real.exp_pos (-kappa)
  have he1 : Real.exp (-kappa) < 1 := by
    rw [Real.exp_lt_one_iff]
    linarith
  have hlo : Real.exp (-kappa) ≤ U + (1 - U) * Real.exp (-kappa) := by nlinarith
  have hhi : U + (1 - U) * Real.exp (-kappa) < 1 := by nlinarith
  have hl1 : -kappa ≤ Real.log (U + (1 - U) * Real.exp (-kappa)) := by
    rw [Real.le_log_iff_exp_le (by linarith)]
    exact hlo
  have hl2 : Real.log (U + (1 - U) * Real.exp (-kappa)) < 0 :=
    Real.log_neg (by linarith) hhi
  constructor
  · have : -1 ≤ Real.log (U + (1 - U) * Real.exp (-kappa)) / kappa := by
      rw [le_div_iff₀ hk]
      linarith
    linarith
  · have : Real.log (U + (1 - U) * Real.exp (-kappa)) / kappa < 0 :=
      div_neg_of_neg_of_pos hl2 hk
    linarith

theorem girdleS_bounds (kappa U : ℝ) (hk : kappa ≠ 0) (h0 : 0 ≤ U) (h1 : U < 1) :
    0 ≤ girdleS kappa U ∧ girdleS kappa U < 1 := by
  unfold girdleS
  have hC1 : 0 < Real.sqrt |kappa| := Real.sqrt_pos.2 (abs_pos.2 hk)
  have hC2 : 0 < Real.arctan (Real.sqrt |kappa|) := by
    have := Real.arctan_strictMono hC1
    rwa [Real.arctan_zero] at this
  have hC2' := Real.arctan_lt_pi_div_two (Real.sqrt |kappa|)
  have hx0 : 0 ≤ Real.arctan (Real.sqrt |kappa|) * U := mul_nonneg hC2.le h0
  have hx1 : Real.arctan (Real.sqrt |kappa|) * U < Real.arctan (Real.sqrt |kappa|) := by
    nlinarith
  have ht0 : 0 ≤ Real.tan (Real.arctan (Real.sqrt |kappa|) * U) :=
    Real.tan_nonneg_of_nonneg_of_le_pi_div_two hx0 (by linarith)
  have ht1 : Real.tan (Real.arctan (Real.sqrt |kappa|) * U) < Real.sqrt |kappa| := by
    have := Real.tan_lt_tan_of_lt_of_lt_pi_div_two (by linarith [Real.pi_pos]) hC2' hx1
    rwa [Real.tan_arctan] at this
  constructor
  · exact mul_nonneg (by positivity) ht0
  · have e : (1.0 : ℝ) / Real.sqrt |kappa| * Real.tan (Real.arctan (Real.sqrt |kappa|) * U) =
        Real.tan (Real.arctan (Real.sqrt |kappa|) * U) / Real.sqrt |kappa| := by
      norm_num
      ring
    rw [e, div_lt_one hC1]
    exact ht1

/-! ## The Watson polar cosine and the checks on the norms -/

theorem watsonU_mem (g : Generator) (hg : g.Valid) (n : ℕ) :
    0 ≤ watsonU g n ∧ watsonU g n < 1 := by
  unfold watsonU
  have := hg (g.pos + 2 * n)
  constructor <;> linarith [this.1, this.2]

theorem watsonPolarCosine_bounds (fuel : ℕ) (kappa : ℝ) (g g' : Generator) (S : ℝ)
    (hg : g.Valid) (h : watsonPolarCosine fuel kappa g = some (S, g')) :
    -1 ≤ S ∧ S ≤ 1 := by
  unfold watsonPolarCosine at h
  by_cases h1 : kappa > 1.0e-6
  · rw [if_pos h1] at h
    obtain ⟨n, -, -, -, hS, -⟩ := (watsonBipolar_iff fuel kappa g g' S).1 h
    have hk : 0 < kappa := lt_trans (by norm_num) h1
    have hb := bipolarS_bounds kappa (watsonU g n) hk (watsonU_mem g hg n).1 (watsonU_mem g hg n).2
    rw [hS]
    constructor <;> linarith [hb.1, hb.2]
  · rw [if_neg h1] at h
    by_cases h2 : kappa < -1.0e-6
    · rw [if_pos h2] at h
      obtain ⟨n, -, -, -, hS, -⟩ := (watsonGirdle_iff fuel kappa g g' S).1 h
      have hk : kappa ≠ 0 := by
        intro h0
        rw [h0] at h2
        norm_num at h2
      have hb := girdleS_bounds kappa (watsonU g n) hk (watsonU_mem g hg n).1
        (watsonU_mem g hg n).2
      rw [hS]
      constructor <;> linarith [hb.1, hb.2]
    · rw [if_neg h2] at h
      have hS := (Prod.mk.inj (Option.some.inj h)).1
      rw [← hS]
      exact ⟨Real.neg_one_le_cos _, Real.cos_le_one _⟩

theorem sphericalRadius (m : Vec3) :
    TransformCartesianToSphericalCoordinates m 2 = ComputeNorm m := rfl

/-- The check of line 279 passes when the rotation about an axis keeps the norm. -/
theorem watson_norm_check (lib : GeometryLib)
    (hrot : ∀ v a n, ComputeNorm (lib.RotateAroundAxis v a n) = ComputeNorm v)
    (S phi a : ℝ) (n : Vec3) (hl : -1 ≤ S) (hu : S ≤ 1) :
    ¬ |ComputeNorm (lib.RotateAroundAxis (canonicalPoint S phi) a n) - 1.0| > 1.0e-4 := by
  rw [hrot, canonicalPoint_norm S phi hl hu]
  norm_num

/-- C3: each of the three directional samplers throws exactly when the radius `r`
returned for `meanDirection` by the Cartesian-to-spherical conversion has
`|r - 1| > 1e-6`, and the exception is then the invalid-input one, thrown with the
generator untouched. For the Watson sampler "throws" covers both exceptions when the
rotation about an axis keeps the norm and the draws lie in `[0,1)`; its invalid-input
exception is thrown exactly under that condition whatever the rotation does. The radius
is the Euclidean norm, so a mean direction of norm `0.5` makes all three throw for every
`kappa`, every generator and every bound on the trials. -/
theorem C3_unit_norm_check (lib : GeometryLib) (fuel : ℕ) (kappa : ℝ) (m : Vec3)
    (g : Generator) :
    ((∃ e g', SampleFromVMFDistribution lib fuel kappa m g = some (Except.error e, g')) ↔
        |TransformCartesianToSphericalCoordinates m 2 - 1| > 1.0e-6) ∧
    ((∃ e g', SampleFromVMFDistributionNumericallyStable lib kappa m g = (Except.error e, g')) ↔
        |TransformCartesianToSphericalCoordinates m 2 - 1| > 1.0e-6) ∧
    ((∃ g', SampleFromWatsonDistribution lib fuel kappa m g
          = some (Except.error SampleError.invalidInput, g')) ↔
        |TransformCartesianToSphericalCoordinates m 2 - 1| > 1.0e-6) ∧
    ((∀ v a n, ComputeNorm (lib.RotateAroundAxis v a n) = ComputeNorm v) → g.Valid →
      ((∃ e g', SampleFromWatsonDistribution lib fuel kappa m g = some (Except.error e, g')) ↔
        |TransformCartesianToSphericalCoordinates m 2 - 1| > 1.0e-6)) ∧
    TransformCartesianToSphericalCoordinates m 2 = ComputeNorm m ∧
    (ComputeNorm m = 0.5 →
      SampleFromVMFDistribution lib fuel kappa m g
          = some (Except.error SampleError.invalidInput, g) ∧
      SampleFromVMFDistributionNumericallyStable lib kappa m g
          = (Except.error SampleError.invalidInput, g) ∧
      SampleFromWatsonDistribution lib fuel kappa m g
          = some (Except.error SampleError.invalidInput, g)) := by
  have e1 : (1.0 : ℝ) = 1 := by norm_num
  refine ⟨?_, ?_, ?_, ?_, rfl, ?_⟩
  · unfold SampleFromVMFDistribution
    simp only [e1]
    by_cases hc : |TransformCartesianToSphericalCoordinates m 2 - 1| > 1.0e-6
    · simp only [hc, if_true, iff_true]
      exact ⟨_, _, rfl⟩
    · simp only [hc, if_false, iff_false]
      rintro ⟨e, g', h⟩
      cases hl : vmfRejectionLoop fuel kappa g with
      | none => rw [hl] at h; cases h
      | some p =>
        rw [hl] at h
        have := (Prod.mk.inj (Option.some.inj h)).1
        cases this
  · unfold SampleFromVMFDistributionNumericallyStable
    simp only [e1]
    by_cases hc : |TransformCartesianToSphericalCoordinates m 2 - 1| > 1.0e-6
    · simp only [hc, if_true, iff_true]
      exact ⟨_, _, rfl⟩
    · simp only [hc, if_false, iff_false]
      rintro ⟨e, g', h⟩
      have := (Prod.mk.inj h).1
      cases this
  · unfold SampleFromWatsonDistribution
    simp only [e1]
    by_cases hc : |TransformCartesianToSphericalCoordinates m 2 - 1| > 1.0e-6
    · simp only [hc, if_true, iff_true]
      exact ⟨_, rfl⟩
    · simp only [hc, if_false, iff_false]
      rintro ⟨g', h⟩
      cases hl : watsonPolarCosine fuel kappa g with
      | none => rw [hl] at h; cases h
      | some p =>
        rw [hl] at h
        simp only at h
        split at h
        · have := (Prod.mk.inj (Option.some.inj h)).1
          cases this
        · have := (Prod.mk.inj (Option.some.inj h)).1
          cases this
  · intro hrot hg
    unfold SampleFromWatsonDistribution
    by_cases hc : |TransformCartesianToSphericalCoordinates m 2 - 1| > 1.0e-6
    · simp only [e1, hc, if_true, iff_true]
      exact ⟨_, _, rfl⟩
    · simp only [e1, hc, if_false, iff_false]
      rintro ⟨e, g', h⟩
      cases hl : watsonPolarCosine fuel kappa g with
      | none => rw [hl] at h; cases h
      | some p =>
        obtain ⟨S, g1⟩ := p
        rw [hl] at h
        have hb := watsonPolarCosine_bounds fuel kappa g g1 S hg hl
        have hn := watson_norm_check lib hrot S
          (SampleFromUniformDistribution 0 (2 * Real.pi) g1).1
          (TransformCartesianToSphericalCoordinates m 0)
          (Normalize (ComputeCrossProduct ![0, 0, 1] m)) hb.1 hb.2
        simp only [e1] at hn
        simp only [hn, if_false] at h
        have := (Prod.mk.inj (Option.some.inj h)).1
        cases this
  · intro hm
    have hc : |TransformCartesianToSphericalCoordinates m 2 - 1| > 1.0e-6 := by
      rw [sphericalRadius, hm]
      norm_num [abs_of_neg]
    unfold SampleFromVMFDistribution SampleFromVMFDistributionNumericallyStable
      SampleFromWatsonDistribution
    simp only [e1, hc, if_true, and_self]

/-- C3 at the mean direction `(0, 0, 0.5)`, of norm `0.5`, with the identity rotations. -/
theorem C3_unit_norm_check_witness :
    ((∃ e g', SampleFromWatsonDistribution GeometryLib.pole 1 1 ![0, 0, 0.5]
          (Generator.const (1 / 2)) = some (Except.error e, g')) ↔
        |TransformCartesianToSphericalCoordinates ![0, 0, 0.5] 2 - 1| > 1.0e-6) ∧
    (SampleFromVMFDistribution GeometryLib.pole 1 1 ![0, 0, 0.5] (Generator.const (1 / 2))
          = some (Except.error SampleError.invalidInput, Generator.const (1 / 2)) ∧
      SampleFromVMFDistributionNumericallyStable GeometryLib.pole 1 ![0, 0, 0.5]
          (Generator.const (1 / 2))
          = (Except.error SampleError.invalidInput, Generator.const (1 / 2)) ∧
      SampleFromWatsonDistribution GeometryLib.pole 1 1 ![0, 0, 0.5] (Generator.const (1 / 2))
          = some (Except.error SampleError.invalidInput, Generator.const (1 / 2))) :=
  ⟨(C3_unit_norm_check GeometryLib.pole 1 1 ![0, 0, 0.5] (Generator.const (1 / 2))).2.2.2.1
      (fun _ _ _ => rfl)
      (fun _ => by simp only [Generator.const]; norm_num),
    (C3_unit_norm_check GeometryLib.pole 1 1 ![0, 0, 0.5] (Generator.const (1 / 2))).2.2.2.2.2
      (by
        simp only [ComputeNorm, Matrix.cons_val_zero, Matrix.cons_val_one, Matrix.head_cons,
          Matrix.cons_val_two, Matrix.tail_cons]
        rw [show (0 * 0 + 0 * 0 + 0.5 * 0.5 : ℝ) = 0.5 * 0.5 by norm_num]
        exact Real.sqrt_mul_self (by norm_num))⟩

/-! ## Evaluation of the reference VMF sampler at `kappa = 3/4` on the stream of `1/2` -/

theorem vmf_sqrt_example : Real.sqrt ((3 / 4 : ℝ) * (3 / 4) + 1) = 5 / 4 := by
  rw [show ((3 / 4 : ℝ) * (3 / 4) + 1) = (5 / 4) * (5 / 4) by norm_num]
  exact Real.sqrt_mul_self (by norm_num)

theorem vmfB_example : vmfB (3 / 4) = 1 / 2 := by
  unfold vmfB
  rw [vmf_sqrt_example]
  norm_num

theorem vmfA_example : vmfA (3 / 4) = 3 / 2 := by
  unfold vmfA
  rw [vmf_sqrt_example]
  norm_num

theorem vmfD_example : vmfD (3 / 4) = 2 - 2 * Real.log 2 := by
  unfold vmfD safe_log
  rw [vmfA_example, vmfB_example]
  norm_num

theorem vmfT_example : vmfT (3 / 4) (Generator.const (1 / 2)) 0 = 2 := by
  unfold vmfT vmfZ betaQuantile11
  rw [vmfA_example, vmfB_example]
  simp only [Generator.const]
  norm_num

theorem vmfW_example : vmfW (3 / 4) (Generator.const (1 / 2)) 0 = 1 / 3 := by
  unfold vmfW vmfZ betaQuantile11
  rw [vmfB_example]
  simp only [Generator.const]
  norm_num

theorem vmfU_example (n : ℕ) : vmfU (Generator.const (1 / 2)) n = 1 / 2 := by
  unfold vmfU
  simp only [Generator.const]
  norm_num

theorem vmf_accept_example :
    safe_log (vmfU (Generator.const (1 / 2)) 0)
      ≤ 2 * safe_log (vmfT (3 / 4) (Generator.const (1 / 2)) 0)
        - vmfT (3 / 4) (Generator.const (1 / 2)) 0 + vmfD (3 / 4) := by
  rw [vmfU_example, vmfT_example, vmfD_example]
  unfold safe_log
  have : Real.log (1 / 2) ≤ 0 := Real.log_nonpos (by norm_num) (by norm_num)
  linarith

/-- On that stream the first trial has `T = 2` and is accepted with `W = 1/3`. -/
theorem vmf_loop_example :
    vmfRejectionLoop 1 (3 / 4) (Generator.const (1 / 2)) =
      some (1 / 3, ⟨(Generator.const (1 / 2)).stream, (Generator.const (1 / 2)).pos + 2 * (0 + 1)⟩) := by
  rw [vmfRejectionLoop_iff]
  exact ⟨0, by decide, fun i hi => absurd hi (Nat.not_lt_zero i), vmf_accept_example,
    vmfW_example.symm, rfl⟩

theorem pole_orthogonal (a b : Vec3) :
    IsOrthogonal (GeometryLib.pole.GetRotationMatrixFromVectors a b) := by
  intro j k
  fin_cases j <;> fin_cases k <;> simp [GeometryLib.pole]

theorem norm_pole : ComputeNorm ![0, 0, 1] = 1 := by
  simp [ComputeNorm]

/-! ## C4, C5, C6: the two VMF samplers -/

/-- C4: for `kappa > 0`, a unit mean direction, draws `Z` in `[0,1]` and an orthogonal
rotation matrix, whenever the rejection loop exits with `W`, then `-1 <= W <= 1`, the
canonical-axis sample has norm exactly 1 for every azimuth, and the call returns a vector
of norm 1, the rotated canonical-axis sample. -/
theorem C4_vmf_unit_norm (lib : GeometryLib) (fuel : ℕ) (kappa : ℝ) (m : Vec3)
    (g g1 : Generator) (W : ℝ) (hk : 0 < kappa) (hm : ComputeNorm m = 1)
    (hZ : ∀ n, 0 ≤ vmfZ g n ∧ vmfZ g n ≤ 1)
    (hR : IsOrthogonal (lib.GetRotationMatrixFromVectors ![0, 0, 1] m))
    (hloop : vmfRejectionLoop fuel kappa g = some (W, g1)) :
    -1 ≤ W ∧ W ≤ 1 ∧
    (∀ theta, canonicalPoint W theta 0 * canonicalPoint W theta 0
        + canonicalPoint W theta 1 * canonicalPoint W theta 1
        + canonicalPoint W theta 2 * canonicalPoint W theta 2 = 1 ∧
      ComputeNorm (canonicalPoint W theta) = 1) ∧
    ∃ v g', SampleFromVMFDistribution lib fuel kappa m g = some (Except.ok v, g') ∧
      v = applyRotation (lib.GetRotationMatrixFromVectors ![0, 0, 1] m)
        (canonicalPoint W (SampleFromUniformDistribution 0 (2 * Real.pi) g1).1) ∧
      ComputeNorm v = 1 := by
  obtain ⟨n, -, -, -, hW, -⟩ := (vmfRejectionLoop_iff fuel kappa g g1 W).1 hloop
  have hb := vmfW_bounds kappa hk g n (hZ n).1 (hZ n).2
  rw [← hW] at hb
  refine ⟨hb.1, hb.2, fun theta => ⟨canonicalPoint_sumSq W theta hb.1 hb.2,
    canonicalPoint_norm W theta hb.1 hb.2⟩, ?_⟩
  refine ⟨_, (SampleFromUniformDistribution 0 (2 * Real.pi) g1).2, ?_, rfl, ?_⟩
  · unfold SampleFromVMFDistribution
    have hc : ¬ |TransformCartesianToSphericalCoordinates m 2 - 1.0| > 1.0e-6 := by
      rw [sphericalRadius, hm]
      norm_num
    simp only [hc, if_false, hloop]
  · rw [applyRotation_norm _ hR, canonicalPoint_norm W _ hb.1 hb.2]

/-- C4 at `kappa = 3/4`, mean direction `(0,0,1)`, on the stream of canonical values `1/2`: the first trial is accepted with `W = 1/3`. -/
theorem C4_vmf_unit_norm_witness :
    -1 ≤ (1 / 3 : ℝ) ∧ (1 / 3 : ℝ) ≤ 1 ∧
    (∀ theta, canonicalPoint (1 / 3) theta 0 * canonicalPoint (1 / 3) theta 0
        + canonicalPoint (1 / 3) theta 1 * canonicalPoint (1 / 3) theta 1
        + canonicalPoint (1 / 3) theta 2 * canonicalPoint (1 / 3) theta 2 = 1 ∧
      ComputeNorm (canonicalPoint (1 / 3) theta) = 1) ∧
    ∃ v g', SampleFromVMFDistribution GeometryLib.pole 1 (3 / 4) ![0, 0, 1]
        (Generator.const (1 / 2)) = some (Except.ok v, g') ∧
      v = applyRotation (GeometryLib.pole.GetRotationMatrixFromVectors ![0, 0, 1] ![0, 0, 1])
        (canonicalPoint (1 / 3) (SampleFromUniformDistribution 0 (2 * Real.pi)
          ⟨(Generator.const (1 / 2)).stream, (Generator.const (1 / 2)).pos + 2 * (0 + 1)⟩).1) ∧
      ComputeNorm v = 1 :=
  C4_vmf_unit_norm GeometryLib.pole 1 (3 / 4) ![0, 0, 1] (Generator.const (1 / 2)) _ (1 / 3)
    (by norm_num) norm_pole
    (fun n => by simp only [vmfZ, betaQuantile11, Generator.const]; norm_num)
    (pole_orthogonal _ _) vmf_loop_example

/-- C5: for `kappa > 0` and a draw `0 < xi < 1`, the `W` of line 163 equals
`1 + ln(xi + (1-xi) exp(-2 kappa)) / kappa` and lies strictly between `-1` and `1`; the
canonical-axis sample has norm exactly 1 for every azimuth, and for a unit mean direction
and an orthogonal rotation matrix the call returns a vector of norm 1 after two draws. -/
theorem C5_vmf_stable_unit_norm (lib : GeometryLib) (kappa : ℝ) (m : Vec3) (g : Generator)
    (xi : ℝ) (hk : 0 < kappa) (hxi0 : 0 < xi) (hxi1 : xi < 1) (hm : ComputeNorm m = 1)
    (hR : IsOrthogonal (lib.GetRotationMatrixFromVectors ![0, 0, 1] m))
    (hdraw : (SampleFromUniformDistribution 0 1 g).1 = xi) :
    vmfStableW kappa xi
      = 1 + (Real.log xi + Real.log (1 - (xi - 1) * Real.exp (-2 * kappa) / xi)) / kappa ∧
    vmfStableW kappa xi = 1 + Real.log (xi + (1 - xi) * Real.exp (-2 * kappa)) / kappa ∧
    -1 < vmfStableW kappa xi ∧ vmfStableW kappa xi < 1 ∧
    (∀ theta, canonicalPoint (vmfStableW kappa xi) theta 0 * canonicalPoint (vmfStableW kappa xi) theta 0
        + canonicalPoint (vmfStableW kappa xi) theta 1 * canonicalPoint (vmfStableW kappa xi) theta 1
        + canonicalPoint (vmfStableW kappa xi) theta 2 * canonicalPoint (vmfStableW kappa xi) theta 2 = 1 ∧
      ComputeNorm (canonicalPoint (vmfStableW kappa xi) theta) = 1) ∧
    ∃ v, SampleFromVMFDistributionNumericallyStable lib kappa m g
        = (Except.ok v, ⟨g.stream, g.pos + 2⟩) ∧
      v = applyRotation (lib.GetRotationMatrixFromVectors ![0, 0, 1] m)
        (canonicalPoint (vmfStableW kappa xi)
          (SampleFromUniformDistribution 0 (2 * Real.pi) (SampleFromUniformDistribution 0 1 g).2).1) ∧
      ComputeNorm v = 1 := by
  have hb := vmfStableW_bounds kappa xi hk hxi0 hxi1
  refine ⟨rfl, vmfStableW_eq kappa xi hxi0 hxi1, hb.1, hb.2,
    fun theta => ⟨canonicalPoint_sumSq _ theta hb.1.le hb.2.le,
      canonicalPoint_norm _ theta hb.1.le hb.2.le⟩, ?_⟩
  refine ⟨_, ?_, rfl, ?_⟩
  · unfold SampleFromVMFDistributionNumericallyStable
    have hc : ¬ |TransformCartesianToSphericalCoordinates m 2 - 1.0| > 1.0e-6 := by
      rw [sphericalRadius, hm]
      norm_num
    simp only [hc, if_false, hdraw]
    rfl
  · rw [applyRotation_norm _ hR, canonicalPoint_norm _ _ hb.1.le hb.2.le]

/-- C5 at `kappa = 1`, mean direction `(0,0,1)`, on the stream of canonical values `1/2`. -/
theorem C5_vmf_stable_unit_norm_witness :
    vmfStableW 1 (1 / 2)
      = 1 + (Real.log (1 / 2) + Real.log (1 - (1 / 2 - 1) * Real.exp (-2 * 1) / (1 / 2))) / 1 ∧
    vmfStableW 1 (1 / 2) = 1 + Real.log (1 / 2 + (1 - 1 / 2) * Real.exp (-2 * 1)) / 1 ∧
    -1 < vmfStableW 1 (1 / 2) ∧ vmfStableW 1 (1 / 2) < 1 ∧
    (∀ theta, canonicalPoint (vmfStableW 1 (1 / 2)) theta 0 * canonicalPoint (vmfStableW 1 (1 / 2)) theta 0
        + canonicalPoint (vmfStableW 1 (1 / 2)) theta 1 * canonicalPoint (vmfStableW 1 (1 / 2)) theta 1
        + canonicalPoint (vmfStableW 1 (1 / 2)) theta 2 * canonicalPoint (vmfStableW 1 (1 / 2)) theta 2 = 1 ∧
      ComputeNorm (canonicalPoint (vmfStableW 1 (1 / 2)) theta) = 1) ∧
    ∃ v, SampleFromVMFDistributionNumericallyStable GeometryLib.pole 1 ![0, 0, 1]
        (Generator.const (1 / 2))
        = (Except.ok v, ⟨(Generator.const (1 / 2)).stream, (Generator.const (1 / 2)).pos + 2⟩) ∧
      v = applyRotation (GeometryLib.pole.GetRotationMatrixFromVectors ![0, 0, 1] ![0, 0, 1])
        (canonicalPoint (vmfStableW 1 (1 / 2))
          (SampleFromUniformDistribution 0 (2 * Real.pi)
            (SampleFromUniformDistribution 0 1 (Generator.const (1 / 2))).2).1) ∧
      ComputeNorm v = 1 :=
  C5_vmf_stable_unit_norm GeometryLib.pole 1 ![0, 0, 1] (Generator.const (1 / 2)) (1 / 2)
    (by norm_num) (by norm_num) (by norm_num) norm_pole (pole_orthogonal _ _)
    (by simp only [SampleFromUniformDistribution, Generator.const]; norm_num)

/-- C6: with `t = sqrt(kappa^2+1)`, `b = (2t - 2 kappa)/2`, `a = (1+kappa+t)/2`,
`d = 4ab/(1+b) - 2 ln 2`, and for the trial number `i` the values `Z`, `U` at positions
`2i`, `2i+1` of the draw stream (all `U > 0`), `T = 2ab/(1-(1-b)Z)` and
`W = (1-(1+b)Z)/(1-(1-b)Z)`: the loop returns `W` exactly when `W` is the value of the
first trial `n` with `2 ln T - T + d >= ln U`, every earlier trial having
`2 ln T - T + d < ln U`; `2(n+1)` draws are then consumed, and a call that returns uses
that `W` for its output. -/
theorem C6_vmf_first_accepted (fuel : ℕ) (kappa : ℝ) (g g' : Generator) (W : ℝ)
    (_hU : ∀ n, 0 < vmfU g n) :
    vmfB kappa = (2 * Real.sqrt (kappa ^ 2 + 1) - 2 * kappa) / 2 ∧
    vmfA kappa = (1 + kappa + Real.sqrt (kappa ^ 2 + 1)) / 2 ∧
    vmfD kappa = 4 * vmfA kappa * vmfB kappa / (1 + vmfB kappa) - 2 * Real.log 2 ∧
    (∀ i, vmfZ g i = g.stream (g.pos + 2 * i) ∧ vmfU g i = g.stream (g.pos + 2 * i + 1) ∧
      vmfT kappa g i = 2 * vmfA kappa * vmfB kappa / (1 - (1 - vmfB kappa) * vmfZ g i) ∧
      vmfW kappa g i
        = (1 - (1 + vmfB kappa) * vmfZ g i) / (1 - (1 - vmfB kappa) * vmfZ g i)) ∧
    (vmfRejectionLoop fuel kappa g = some (W, g') ↔
      ∃ n, n < fuel ∧
        (∀ i, i < n → 2 * Real.log (vmfT kappa g i) - vmfT kappa g i + vmfD kappa
          < Real.log (vmfU g i)) ∧
        2 * Real.log (vmfT kappa g n) - vmfT kappa g n + vmfD kappa ≥ Real.log (vmfU g n) ∧
        W = vmfW kappa g n ∧ g' = ⟨g.stream, g.pos + 2 * (n + 1)⟩) ∧
    (∀ (lib : GeometryLib) (m v : Vec3) (g'' : Generator),
      SampleFromVMFDistribution lib fuel kappa m g = some (Except.ok v, g'') →
      ∃ W1 g1, vmfRejectionLoop fuel kappa g = some (W1, g1) ∧
        v = applyRotation (lib.GetRotationMatrixFromVectors ![0, 0, 1] m)
              (canonicalPoint W1 (0 + (2 * Real.pi - 0) * g1.stream g1.pos)) ∧
        g'' = ⟨g1.stream, g1.pos + 1⟩) := by
  refine ⟨?_, ?_, rfl, ?_, vmfRejectionLoop_iff fuel kappa g g' W, ?_⟩
  · unfold vmfB
    rw [pow_two]
    ring
  · unfold vmfA
    rw [pow_two]
  · intro i
    refine ⟨?_, ?_, rfl, rfl⟩
    · unfold vmfZ betaQuantile11
      ring
    · unfold vmfU
      ring
  · intro lib m v g'' hrun
    unfold SampleFromVMFDistribution at hrun
    by_cases hc : |TransformCartesianToSphericalCoordinates m 2 - 1.0| > 1.0e-6
    · simp only [hc, if_true] at hrun
      have := (Prod.mk.inj (Option.some.inj hrun)).1
      cases this
    · simp only [hc, if_false] at hrun
      cases hl : vmfRejectionLoop fuel kappa g with
      | none => rw [hl] at hrun; cases hrun
      | some p =>
        obtain ⟨W1, g1⟩ := p
        rw [hl] at hrun
        have h1 := (Prod.mk.inj (Option.some.inj hrun)).1
        have h2 := (Prod.mk.inj (Option.some.inj hrun)).2
        exact ⟨W1, g1, rfl, (Except.ok.inj h1).symm, h2.symm⟩

/-- C6 at `kappa = 3/4` on the stream of canonical values `1/2`: the trial number 0 is accepted. -/
theorem C6_vmf_first_accepted_witness :
    vmfRejectionLoop 1 (3 / 4) (Generator.const (1 / 2))
      = some (vmfW (3 / 4) (Generator.const (1 / 2)) 0,
          ⟨(Generator.const (1 / 2)).stream, (Generator.const (1 / 2)).pos + 2 * (0 + 1)⟩) :=
  (C6_vmf_first_accepted 1 (3 / 4) (Generator.const (1 / 2)) _ _
      (fun n => by rw [vmfU_example]; norm_num)).2.2.2.2.1.2
    ⟨0, by decide, fun i hi => absurd hi (Nat.not_lt_zero i), vmf_accept_example, rfl, rfl⟩

/-! ## The Watson sampler after the polar cosine is drawn -/

/-- A normal return of the Watson sampler: the unit-norm check passes, the sampling step
finishes with `S`, the check of line 279 passes, and the normalised rotated point is
returned after one more draw. -/
theorem watson_ok_iff (lib : GeometryLib) (fuel : ℕ) (kappa : ℝ) (m : Vec3)
    (g g'' : Generator) (v : Vec3) :
    SampleFromWatsonDistribution lib fuel kappa m g = some (Except.ok v, g'') ↔
      ¬ |TransformCartesianToSphericalCoordinates m 2 - 1| > 1.0e-6 ∧
      ∃ S g1, watsonPolarCosine fuel kappa g = some (S, g1) ∧
        ¬ |ComputeNorm (lib.RotateAroundAxis
              (canonicalPoint S (0 + (2 * Real.pi - 0) * g1.stream g1.pos))
              (TransformCartesianToSphericalCoordinates m 0)
              (Normalize (ComputeCrossProduct ![0, 0, 1] m))) - 1| > 1.0e-4 ∧
        v = Normalize (lib.RotateAroundAxis
              (canonicalPoint S (0 + (2 * Real.pi - 0) * g1.stream g1.pos))
              (TransformCartesianToSphericalCoordinates m 0)
              (Normalize (ComputeCrossProduct ![0, 0, 1] m))) ∧
        g'' = ⟨g1.stream, g1.pos + 1⟩ := by
  have e1 : (1.0 : ℝ) = 1 := by norm_num
  unfold SampleFromWatsonDistribution
  simp only [e1, SampleFromUniformDistribution]
  by_cases hc : |TransformCartesianToSphericalCoordinates m 2 - 1| > 1.0e-6
  · simp only [hc, if_true, not_true_eq_false, false_and, iff_false]
    intro h
    have := (Prod.mk.inj (Option.some.inj h)).1
    cases this
  · simp only [hc, if_false, not_false_eq_true, true_and]
    cases hl : watsonPolarCosine fuel kappa g with
    | none =>
      simp only
      constructor
      · intro h; cases h
      · rintro ⟨S, g1, h, -⟩; cases h
    | some p =>
      obtain ⟨S, g1⟩ := p
      simp only
      constructor
      · intro h
        split at h
        · have := (Prod.mk.inj (Option.some.inj h)).1
          cases this
        · rename_i hn
          have h1 := (Prod.mk.inj (Option.some.inj h)).1
          have h2 := (Prod.mk.inj (Option.some.inj h)).2
          exact ⟨S, g1, rfl, hn, (Except.ok.inj h1).symm, h2.symm⟩
      · rintro ⟨S', g1', h, hn, hv, hg⟩
        obtain ⟨rfl, rfl⟩ := Prod.mk.inj (Option.some.inj h)
        rw [if_neg hn, hv, hg]

/-- With a rotation about an axis that keeps the norm, a unit mean direction and draws in
`[0,1)`, the Watson sampler returns as soon as its sampling step finishes. -/
theorem watson_returns (lib : GeometryLib) (fuel : ℕ) (kappa : ℝ) (m : Vec3)
    (g g1 : Generator) (S : ℝ)
    (hrot : ∀ v a n, ComputeNorm (lib.RotateAroundAxis v a n) = ComputeNorm v)
    (hm : ComputeNorm m = 1) (hg : g.Valid)
    (hS : watsonPolarCosine fuel kappa g = some (S, g1)) :
    SampleFromWatsonDistribution lib fuel kappa m g =
      some (Except.ok (Normalize (lib.RotateAroundAxis
              (canonicalPoint S (0 + (2 * Real.pi - 0) * g1.stream g1.pos))
              (TransformCartesianToSphericalCoordinates m 0)
              (Normalize (ComputeCrossProduct ![0, 0, 1] m)))), ⟨g1.stream, g1.pos + 1⟩) := by
  rw [watson_ok_iff]
  have hb := watsonPolarCosine_bounds fuel kappa g g1 S hg hS
  refine ⟨?_, S, g1, hS, ?_, rfl, rfl⟩
  · rw [sphericalRadius, hm]
    norm_num
  · have := watson_norm_check lib hrot S (0 + (2 * Real.pi - 0) * g1.stream g1.pos)
      (TransformCartesianToSphericalCoordinates m 0)
      (Normalize (ComputeCrossProduct ![0, 0, 1] m)) hb.1 hb.2
    norm_num at this ⊢
    exact this

theorem pole_rotate_norm (v : Vec3) (a : ℝ) (n : Vec3) :
    ComputeNorm (GeometryLib.pole.RotateAroundAxis v a n) = ComputeNorm v := rfl

theorem const_valid (c : ℝ) (h0 : 0 ≤ c) (h1 : c < 1) : (Generator.const c).Valid :=
  fun _ => ⟨h0, h1⟩

/-! ## Evaluation of the Watson sampler on concrete streams -/

/-- Bipolar regime, `kappa = 1`, all canonical values `1e-7`: the guard of line 232 ends
the sampling step on the first pair. -/
theorem watson_bipolar_example :
    watsonPolarCosine 0 1 (Generator.const 1.0e-7) =
      some (bipolarS 1 (watsonU (Generator.const 1.0e-7) 0),
        ⟨(Generator.const 1.0e-7).stream, (Generator.const 1.0e-7).pos + 2 * (0 + 1)⟩) := by
  unfold watsonPolarCosine
  rw [if_pos (by norm_num)]
  rw [watsonBipolar_iff]
  refine ⟨0, le_refl _, fun i hi => absurd hi (Nat.not_lt_zero i), ?_, rfl, rfl⟩
  unfold bipolarStops
  left
  simp only [if_true, watsonV, Generator.const]
  norm_num

/-- Girdle regime, `kappa = -1`, all canonical values `0`: the first pair gives `S = 0`,
`T = 0` and is accepted. -/
theorem watson_girdle_example :
    watsonPolarCosine 0 (-1) (Generator.const 0) =
      some (girdleS (-1) (watsonU (Generator.const 0) 0),
        ⟨(Generator.const 0).stream, (Generator.const 0).pos + 2 * (0 + 1)⟩) := by
  unfold watsonPolarCosine
  rw [if_neg (by norm_num), if_pos (by norm_num)]
  rw [watsonGirdle_iff]
  refine ⟨0, le_refl _, fun i hi => absurd hi (Nat.not_lt_zero i), ?_, rfl, rfl⟩
  have hU : watsonU (Generator.const 0) 0 = 0 := by
    simp [watsonU, Generator.const]
  have hV : watsonV (Generator.const 0) 0 = 0 := by
    simp [watsonV, Generator.const]
  have hT : girdleT (-1) (Generator.const 0) 0 = 0 := by
    simp [girdleT, girdleS, hU]
  rw [hV, hT]
  norm_num

/-- Near-zero regime, `kappa = 0`: one draw, `S` is its cosine. -/
theorem watson_near_zero_example (g : Generator) :
    watsonPolarCosine 0 0 g = some (watsonNearZero g) := by
  unfold watsonPolarCosine
  rw [if_neg (by norm_num), if_neg (by norm_num)]

/-! ## C7: the bipolar regime -/

/-- No multiple of `2^-64` equals `1e-6`: `k * 10^6 = 2^64` has no solution. -/
theorem deliverable_ne_micro (k : ℕ) : (k : ℝ) / 2 ^ 64 ≠ 1.0e-6 := by
  intro h
  have h1 : (k : ℝ) * 1000000 = 18446744073709551616 := by
    have h2 : (k : ℝ) = 1.0e-6 * 2 ^ 64 := by
      rw [← h]
      field_simp
    rw [h2]
    norm_num
  have h3 : k * 1000000 = 18446744073709551616 := by exact_mod_cast h1
  omega

/-- A multiple of `2^-64` is below the real `1e-6` exactly for `k <= 18446744073709`. -/
theorem deliverable_lt_micro (k : ℕ) : (k : ℝ) / 2 ^ 64 < 1.0e-6 ↔ k ≤ 18446744073709 := by
  have hp : (0 : ℝ) < 2 ^ 64 := by positivity
  rw [div_lt_iff₀ hp]
  constructor
  · intro h
    have h1 : (k : ℝ) < 18446744073710 := by
      norm_num at h
      linarith
    have h2 : k < 18446744073710 := by exact_mod_cast h1
    omega
  · intro h
    have h1 : (k : ℝ) ≤ 18446744073709 := by exact_mod_cast h
    norm_num
    linarith

/-- A multiple of `2^-64` is below the `double` nearest to `1e-6`,
`4722366482869645 / 2^72`, exactly for `k <= 18446744073709`. -/
theorem deliverable_lt_micro_double (k : ℕ) :
    (k : ℝ) / 2 ^ 64 < 4722366482869645 / 2 ^ 72 ↔ k ≤ 18446744073709 := by
  have hp : (0 : ℝ) < 2 ^ 64 := by positivity
  rw [div_lt_iff₀ hp]
  constructor
  · intro h
    have h1 : (k : ℝ) < 18446744073710 := by
      norm_num at h
      linarith
    have h2 : k < 18446744073710 := by exact_mod_cast h1
    omega
  · intro h
    have h1 : (k : ℝ) ≤ 18446744073709 := by exact_mod_cast h
    norm_num
    linarith

/-- A multiple of `2^-64` is above the `double` nearest to `1e-6` exactly for
`k >= 18446744073710`; in particular it never equals that `double`. -/
theorem deliverable_gt_micro_double (k : ℕ) :
    4722366482869645 / 2 ^ 72 < (k : ℝ) / 2 ^ 64 ↔ 18446744073710 ≤ k := by
  have hp : (0 : ℝ) < 2 ^ 64 := by positivity
  rw [lt_div_iff₀ hp]
  constructor
  · intro h
    have h1 : (18446744073709 : ℝ) < k := by
      norm_num at h
      linarith
    have h2 : 18446744073709 < k := by exact_mod_cast h1
    omega
  · intro h
    have h1 : (18446744073710 : ℝ) ≤ k := by exact_mod_cast h
    norm_num
    linarith

/-- On the multiples of `2^-64`, the tests `V < 1.0e-6` and `V > 1.0e-6` give the same
answer whether `1.0e-6` is read as the real `1e-6` or as the `double` nearest to it. -/
theorem deliverable_micro_tests (k : ℕ) :
    ((k : ℝ) / 2 ^ 64 < 1.0e-6 ↔ (k : ℝ) / 2 ^ 64 < 4722366482869645 / 2 ^ 72) ∧
      ((k : ℝ) / 2 ^ 64 > 1.0e-6 ↔ (k : ℝ) / 2 ^ 64 > 4722366482869645 / 2 ^ 72) := by
  constructor
  · rw [deliverable_lt_micro, deliverable_lt_micro_double]
  · rw [gt_iff_lt, gt_iff_lt, deliverable_gt_micro_double, lt_iff_le_and_ne, ← not_lt,
      deliverable_lt_micro]
    constructor
    · rintro ⟨h, -⟩
      omega
    · intro h
      exact ⟨by omega, fun e => deliverable_ne_micro k e.symm⟩

/-- No `V` of a deliverable stream is `1e-6`. -/
theorem deliverable_watsonV_ne (g : Generator) (hg : g.Deliverable) (n : ℕ) :
    watsonV g n ≠ 1.0e-6 := by
  obtain ⟨k, -, hk⟩ := hg (g.pos + 2 * n + 1)
  unfold watsonV
  rw [hk]
  have := deliverable_ne_micro k
  intro h
  apply this
  rw [← h]
  ring

theorem const_half_deliverable : (Generator.const (1 / 2)).Deliverable := by
  intro n
  refine ⟨2 ^ 63, by norm_num, ?_⟩
  simp only [Generator.const]
  norm_num

/-- Bipolar regime, `kappa = 1`, all canonical values `1/2`: the first pair enters the
loop of line 234 and is accepted by its condition, `ln(1/2) <= -1/4 <= S (S - 1)`. -/
theorem watson_bipolar_half_example :
    watsonPolarCosine 0 1 (Generator.const (1 / 2)) =
      some (bipolarS 1 (watsonU (Generator.const (1 / 2)) 0),
        ⟨(Generator.const (1 / 2)).stream, (Generator.const (1 / 2)).pos + 2 * (0 + 1)⟩) := by
  unfold watsonPolarCosine
  rw [if_pos (by norm_num)]
  rw [watsonBipolar_iff]
  refine ⟨0, le_refl _, fun i hi => absurd hi (Nat.not_lt_zero i), ?_, rfl, rfl⟩
  unfold bipolarStops
  right
  have hV : watsonV (Generator.const (1 / 2)) 0 = 1 / 2 := by
    simp [watsonV, Generator.const]
  have hlog : Real.log (1 / 2) ≤ -(1 / 4) := by
    rw [Real.log_le_iff_le_exp (by norm_num)]
    have := Real.add_one_le_exp (-(1 / 4) : ℝ)
    linarith
  rw [hV]
  nlinarith [sq_nonneg (bipolarS 1 (watsonU (Generator.const (1 / 2)) 0) - 1 / 2)]

/-- On any real-valued stream: in the bipolar regime, whenever the call returns, the `S`
used for the output is `1 + ln(U + (1-U) exp(-kappa)) / kappa` for a pair `(U, V)` of the
draw stream with `ln V <= kappa S (S-1)`, or `V < 1e-6`, or which is the first pair of the
call and has the real value `V = 1e-6` (the test of line 232 is `V > 1.0e-6`). -/
theorem bipolar_returned_pair (lib : GeometryLib) (fuel : ℕ) (kappa : ℝ) (m : Vec3)
    (g g'' : Generator) (v : Vec3) (hk : kappa > 1.0e-6)
    (hrun : SampleFromWatsonDistribution lib fuel kappa m g = some (Except.ok v, g'')) :
    ∃ n S, watsonPolarCosine fuel kappa g = some (S, ⟨g.stream, g.pos + 2 * (n + 1)⟩) ∧
      v = Normalize (lib.RotateAroundAxis
            (canonicalPoint S (0 + (2 * Real.pi - 0) * g.stream (g.pos + 2 * (n + 1))))
            (TransformCartesianToSphericalCoordinates m 0)
            (Normalize (ComputeCrossProduct ![0, 0, 1] m))) ∧
      watsonU g n = g.stream (g.pos + 2 * n) ∧ watsonV g n = g.stream (g.pos + 2 * n + 1) ∧
      S = 1 + Real.log (watsonU g n + (1 - watsonU g n) * Real.exp (-kappa)) / kappa ∧
      (Real.log (watsonV g n) ≤ kappa * S * (S - 1) ∨ watsonV g n < 1.0e-6 ∨
        (n = 0 ∧ watsonV g n = 1.0e-6)) := by
  obtain ⟨-, S, g1, hS, -, hv, -⟩ := (watson_ok_iff lib fuel kappa m g g'' v).1 hrun
  have hS' := hS
  unfold watsonPolarCosine at hS'
  rw [if_pos hk] at hS'
  obtain ⟨n, -, -, hstop, hSn, hg1⟩ := (watsonBipolar_iff fuel kappa g g1 S).1 hS'
  subst hg1
  refine ⟨n, S, hS, hv, ?_, ?_, hSn, ?_⟩
  · unfold watsonU; ring
  · unfold watsonV; ring
  · unfold bipolarStops at hstop
    rw [← hSn] at hstop
    rcases hstop with h | h
    · by_cases hn : n = 0
      · rw [if_pos hn] at h
        rcases lt_or_eq_of_le h with h' | h'
        · exact Or.inr (Or.inl h')
        · exact Or.inr (Or.inr ⟨hn, h'⟩)
      · rw [if_neg hn] at h
        exact Or.inr (Or.inl h)
    · exact Or.inl h

/-- C7: in the bipolar regime (`kappa > 1e-6`), for every stream of values the engine can
deliver on which the call returns, the `S` used for the output was computed as
`S = 1 + ln(U + (1-U) exp(-kappa)) / kappa` from a pair `(U, V)` of the draw stream that
satisfies `ln V <= kappa S (S-1)` or `V < 1e-6`. -/
theorem C7_bipolar_accepted_pair (lib : GeometryLib) (fuel : ℕ) (kappa : ℝ) (m : Vec3)
    (g g'' : Generator) (v : Vec3) (hk : kappa > 1.0e-6) (hg : g.Deliverable)
    (hrun : SampleFromWatsonDistribution lib fuel kappa m g = some (Except.ok v, g'')) :
    ∃ n S, watsonPolarCosine fuel kappa g = some (S, ⟨g.stream, g.pos + 2 * (n + 1)⟩) ∧
      v = Normalize (lib.RotateAroundAxis
            (canonicalPoint S (0 + (2 * Real.pi - 0) * g.stream (g.pos + 2 * (n + 1))))
            (TransformCartesianToSphericalCoordinates m 0)
            (Normalize (ComputeCrossProduct ![0, 0, 1] m))) ∧
      watsonU g n = g.stream (g.pos + 2 * n) ∧ watsonV g n = g.stream (g.pos + 2 * n + 1) ∧
      S = 1 + Real.log (watsonU g n + (1 - watsonU g n) * Real.exp (-kappa)) / kappa ∧
      (Real.log (watsonV g n) ≤ kappa * S * (S - 1) ∨ watsonV g n < 1.0e-6) := by
  obtain ⟨n, S, hS, hv, hU, hV, hSn, hacc⟩ :=
    bipolar_returned_pair lib fuel kappa m g g'' v hk hrun
  refine ⟨n, S, hS, hv, hU, hV, hSn, ?_⟩
  rcases hacc with h | h | ⟨-, h⟩
  · exact Or.inl h
  · exact Or.inr h
  · exact absurd h (deliverable_watsonV_ne g hg n)

/-- C7 at `kappa = 1`, mean direction `(0,0,1)`, on the stream of canonical values `1/2`. -/
theorem C7_bipolar_accepted_pair_witness :
    ∃ n S, watsonPolarCosine 0 1 (Generator.const (1 / 2))
        = some (S, ⟨(Generator.const (1 / 2)).stream, (Generator.const (1 / 2)).pos + 2 * (n + 1)⟩) ∧
      Normalize (GeometryLib.pole.RotateAroundAxis
            (canonicalPoint (bipolarS 1 (watsonU (Generator.const (1 / 2)) 0))
              (0 + (2 * Real.pi - 0) * (Generator.const (1 / 2)).stream
                ((Generator.const (1 / 2)).pos + 2 * (0 + 1))))
            (TransformCartesianToSphericalCoordinates ![0, 0, 1] 0)
            (Normalize (ComputeCrossProduct ![0, 0, 1] ![0, 0, 1])))
        = Normalize (GeometryLib.pole.RotateAroundAxis
            (canonicalPoint S (0 + (2 * Real.pi - 0) * (Generator.const (1 / 2)).stream
              ((Generator.const (1 / 2)).pos + 2 * (n + 1))))
            (TransformCartesianToSphericalCoordinates ![0, 0, 1] 0)
            (Normalize (ComputeCrossProduct ![0, 0, 1] ![0, 0, 1]))) ∧
      watsonU (Generator.const (1 / 2)) n
        = (Generator.const (1 / 2)).stream ((Generator.const (1 / 2)).pos + 2 * n) ∧
      watsonV (Generator.const (1 / 2)) n
        = (Generator.const (1 / 2)).stream ((Generator.const (1 / 2)).pos + 2 * n + 1) ∧
      S = 1 + Real.log (watsonU (Generator.const (1 / 2)) n
            + (1 - watsonU (Generator.const (1 / 2)) n) * Real.exp (-1)) / 1 ∧
      (Real.log (watsonV (Generator.const (1 / 2)) n) ≤ 1 * S * (S - 1) ∨
        watsonV (Generator.const (1 / 2)) n < 1.0e-6) := by
  have h := C7_bipolar_accepted_pair GeometryLib.pole 0 1 ![0, 0, 1] (Generator.const (1 / 2)) _ _
    (by norm_num) const_half_deliverable
    (watson_returns GeometryLib.pole 0 1 ![0, 0, 1] (Generator.const (1 / 2)) _ _
      pole_rotate_norm norm_pole (const_valid _ (by norm_num) (by norm_num))
      watson_bipolar_half_example)
  exact h

/-- The value `x / (1 + x)` with `x = exp(-50)`, for which `S = 1/2` at `kappa = 100`. -/
theorem bipolarS_half :
    bipolarS 100 (Real.exp (-50) / (1 + Real.exp (-50))) = 1 / 2 := by
  unfold bipolarS
  have hx := Real.exp_pos (-50)
  have h2 : Real.exp (-100) = Real.exp (-50) * Real.exp (-50) := by
    rw [← Real.exp_add]
    norm_num
  have harg : Real.exp (-50) / (1 + Real.exp (-50))
      + (1 - Real.exp (-50) / (1 + Real.exp (-50))) * Real.exp (-100) = Real.exp (-50) := by
    rw [h2]
    field_simp
    ring
  rw [harg, Real.log_exp]
  norm_num

theorem log_micro_gt : Real.log 1.0e-6 > -25 := by
  have h2 : (2 : ℝ) ≤ Real.exp 1 := by
    have := Real.add_one_le_exp (1 : ℝ)
    linarith
  have h25 : Real.exp 25 = Real.exp 1 ^ 25 := by
    rw [← Real.exp_nat_mul]
    norm_num
  have hbig : (2 : ℝ) ^ 25 ≤ Real.exp 25 := by
    rw [h25]
    exact pow_le_pow_left₀ (by norm_num) h2 25
  have hpos : (0 : ℝ) < 1.0e-6 := by norm_num
  rw [gt_iff_lt, Real.lt_log_iff_exp_lt hpos, Real.exp_neg]
  have h3 : (0 : ℝ) < Real.exp 25 := Real.exp_pos 25
  rw [inv_lt_comm₀ h3 hpos]
  have : ((1.0e-6 : ℝ))⁻¹ < 2 ^ 25 := by norm_num
  linarith

/-- The third case of `bipolar_returned_pair` is met by a real-valued stream, one that is
not deliverable: at `kappa = 100`, with first pair `U = exp(-50) / (1 + exp(-50))` and the
real number `V = 1e-6`, the sampling step stops on the first pair with `S = 1/2`, where
neither `ln V <= kappa S (S-1) = -25` nor `V < 1e-6`. -/
theorem bipolar_real_boundary_example :
    watsonPolarCosine 5 100
        (Generator.ofList [Real.exp (-50) / (1 + Real.exp (-50)), 1.0e-6] (1 / 2))
      = some (1 / 2,
          ⟨(Generator.ofList [Real.exp (-50) / (1 + Real.exp (-50)), 1.0e-6] (1 / 2)).stream, 2⟩) ∧
    watsonU (Generator.ofList [Real.exp (-50) / (1 + Real.exp (-50)), 1.0e-6] (1 / 2)) 0
      = Real.exp (-50) / (1 + Real.exp (-50)) ∧
    watsonV (Generator.ofList [Real.exp (-50) / (1 + Real.exp (-50)), 1.0e-6] (1 / 2)) 0
      = 1.0e-6 ∧
    (1 / 2 : ℝ) = 1 + Real.log (Real.exp (-50) / (1 + Real.exp (-50))
        + (1 - Real.exp (-50) / (1 + Real.exp (-50))) * Real.exp (-100)) / 100 ∧
    ¬ (Real.log 1.0e-6 ≤ 100 * (1 / 2 : ℝ) * (1 / 2 - 1) ∨ (1.0e-6 : ℝ) < 1.0e-6) := by
  have hU : watsonU (Generator.ofList [Real.exp (-50) / (1 + Real.exp (-50)), 1.0e-6] (1 / 2)) 0
      = Real.exp (-50) / (1 + Real.exp (-50)) := by
    simp [watsonU, Generator.ofList]
  have hV : watsonV (Generator.ofList [Real.exp (-50) / (1 + Real.exp (-50)), 1.0e-6] (1 / 2)) 0
      = 1.0e-6 := by
    simp [watsonV, Generator.ofList]
  refine ⟨?_, hU, hV, ?_, ?_⟩
  · unfold watsonPolarCosine
    rw [if_pos (by norm_num), watsonBipolar_iff]
    refine ⟨0, Nat.zero_le _, fun i hi => absurd hi (Nat.not_lt_zero i), ?_, ?_, rfl⟩
    · unfold bipolarStops
      left
      rw [if_pos rfl, hV]
    · rw [hU, bipolarS_half]
  · have := bipolarS_half
    unfold bipolarS at this
    exact this.symm
  · rintro (h | h)
    · have := log_micro_gt
      norm_num at h this
      linarith
    · exact lt_irrefl _ h

/-! ## C8: the girdle regime -/

/-- C8: in the girdle regime, with `C1 = sqrt(|kappa|)`, `C2 = atan(C1)` and, for the
trial number `i`, `U`, `V` at positions `2i`, `2i+1` of the draw stream,
`S = tan(C2 U) / C1` and `T = kappa S^2`: the sampling step returns `S` exactly when `S`
is the value of the first trial `n` with `V <= (1 - T) exp(T)`, every earlier trial
having `V > (1 - T) exp(T)`; `2(n+1)` draws are then consumed, and a call that returns
uses that `S` for its output. -/
theorem C8_girdle_first_accepted (fuel : ℕ) (kappa : ℝ) (g g' : Generator) (S : ℝ)
    (hk : kappa < -1.0e-6) :
    (∀ U, girdleS kappa U
        = Real.tan (Real.arctan (Real.sqrt |kappa|) * U) / Real.sqrt |kappa|) ∧
    (∀ i, watsonU g i = g.stream (g.pos + 2 * i) ∧ watsonV g i = g.stream (g.pos + 2 * i + 1) ∧
      girdleT kappa g i = kappa * girdleS kappa (watsonU g i) ^ 2) ∧
    (watsonPolarCosine fuel kappa g = some (S, g') ↔
      ∃ n, n ≤ fuel ∧
        (∀ i, i < n → ¬ watsonV g i ≤ (1 - girdleT kappa g i) * Real.exp (girdleT kappa g i)) ∧
        watsonV g n ≤ (1 - girdleT kappa g n) * Real.exp (girdleT kappa g n) ∧
        S = girdleS kappa (watsonU g n) ∧ g' = ⟨g.stream, g.pos + 2 * (n + 1)⟩) ∧
    (∀ (lib : GeometryLib) (m v : Vec3) (g'' : Generator),
      SampleFromWatsonDistribution lib fuel kappa m g = some (Except.ok v, g'') →
      ∃ S1 g1, watsonPolarCosine fuel kappa g = some (S1, g1) ∧
        v = Normalize (lib.RotateAroundAxis
              (canonicalPoint S1 (0 + (2 * Real.pi - 0) * g1.stream g1.pos))
              (TransformCartesianToSphericalCoordinates m 0)
              (Normalize (ComputeCrossProduct ![0, 0, 1] m)))) := by
  refine ⟨?_, ?_, ?_, ?_⟩
  · intro U
    unfold girdleS
    norm_num
    ring
  · intro i
    refine ⟨?_, ?_, ?_⟩
    · unfold watsonU; ring
    · unfold watsonV; ring
    · unfold girdleT; ring
  · have h1 : ¬ kappa > 1.0e-6 := by
      intro h
      have : (-1.0e-6 : ℝ) < 1.0e-6 := by norm_num
      linarith
    unfold watsonPolarCosine
    rw [if_neg h1, if_pos hk, watsonGirdle_iff]
    simp only [not_le, gt_iff_lt]
  · intro lib m v g'' hrun
    obtain ⟨-, S1, g1, hS, -, hv, -⟩ := (watson_ok_iff lib fuel kappa m g g'' v).1 hrun
    exact ⟨S1, g1, hS, hv⟩

/-- C8 at `kappa = -1` on the stream of canonical values `0`: the first pair is accepted. -/
theorem C8_girdle_first_accepted_witness :
    watsonPolarCosine 0 (-1) (Generator.const 0)
      = some (girdleS (-1) (watsonU (Generator.const 0) 0),
        ⟨(Generator.const 0).stream, (Generator.const 0).pos + 2 * (0 + 1)⟩) ∧
    watsonV (Generator.const 0) 0
      ≤ (1 - girdleT (-1) (Generator.const 0) 0) * Real.exp (girdleT (-1) (Generator.const 0) 0) := by
  have h := (C8_girdle_first_accepted 0 (-1) (Generator.const 0)
      ⟨(Generator.const 0).stream, (Generator.const 0).pos + 2 * (0 + 1)⟩
      (girdleS (-1) (watsonU (Generator.const 0) 0)) (by norm_num)).2.2.1
  obtain ⟨n, hn, -, hacc, -, -⟩ := h.1 watson_girdle_example
  have h0 : n = 0 := Nat.le_zero.1 hn
  subst h0
  exact ⟨watson_girdle_example, hacc⟩

/-! ## C9: the near-zero regime -/

theorem watsonNearZero_cos (u : ℝ) :
    (watsonNearZero ⟨fun _ => u, 0⟩).1 = Real.cos (Real.pi * u) := by
  simp [watsonNearZero, SampleFromUniformDistribution]

/-- The canonical values `u` in `[0,1)` for which the near-zero branch gives `S <= 1/2`
are those of `[1/3, 1)`. -/
theorem nearZero_half_set :
    {u : ℝ | 0 ≤ u ∧ u < 1 ∧ (watsonNearZero ⟨fun _ => u, 0⟩).1 ≤ 1 / 2} = Set.Ico (1 / 3) 1 := by
  ext u
  simp only [Set.mem_setOf_eq, Set.mem_Ico, watsonNearZero_cos]
  have hpi := Real.pi_pos
  constructor
  · rintro ⟨h0, h1, hc⟩
    refine ⟨?_, h1⟩
    rw [← Real.cos_pi_div_three] at hc
    have hmem1 : Real.pi * u ∈ Set.Icc 0 Real.pi := ⟨by positivity, by nlinarith⟩
    have hmem2 : Real.pi / 3 ∈ Set.Icc 0 Real.pi := ⟨by positivity, by linarith⟩
    have := (Real.strictAntiOn_cos.le_iff_le hmem1 hmem2).1 hc
    nlinarith
  · rintro ⟨h0, h1⟩
    refine ⟨by linarith, h1, ?_⟩
    rw [← Real.cos_pi_div_three]
    have hmem1 : Real.pi * u ∈ Set.Icc 0 Real.pi := ⟨by nlinarith, by nlinarith⟩
    have hmem2 : Real.pi / 3 ∈ Set.Icc 0 Real.pi := ⟨by positivity, by linarith⟩
    apply (Real.strictAntiOn_cos.le_iff_le hmem1 hmem2).2
    nlinarith

/-- C9 fails on the code: in the near-zero regime `S = cos(pi u)` for the canonical draw
`u`, the draws of `[0,1)` with `S <= 1/2` are those of `[1/3, 1)`, a set of measure
`2/3`, whereas a uniform marginal on `[-1,1]` requires `(1 + 1/2)/2 = 3/4`. -/
theorem C9_near_zero_not_uniform :
    (∀ g fuel, watsonPolarCosine fuel 0 g
        = some (Real.cos (0 + (Real.pi - 0) * g.stream g.pos), ⟨g.stream, g.pos + 1⟩)) ∧
    {u : ℝ | 0 ≤ u ∧ u < 1 ∧ (watsonNearZero ⟨fun _ => u, 0⟩).1 ≤ 1 / 2} = Set.Ico (1 / 3) 1 ∧
    MeasureTheory.volume
        {u : ℝ | 0 ≤ u ∧ u < 1 ∧ (watsonNearZero ⟨fun _ => u, 0⟩).1 ≤ 1 / 2}
      = ENNReal.ofReal (2 / 3) ∧
    MeasureTheory.volume
        {u : ℝ | 0 ≤ u ∧ u < 1 ∧ (watsonNearZero ⟨fun _ => u, 0⟩).1 ≤ 1 / 2}
      ≠ ENNReal.ofReal ((1 + 1 / 2) / 2) := by
  have hvol : MeasureTheory.volume
      {u : ℝ | 0 ≤ u ∧ u < 1 ∧ (watsonNearZero ⟨fun _ => u, 0⟩).1 ≤ 1 / 2}
      = ENNReal.ofReal (2 / 3) := by
    rw [nearZero_half_set, Real.volume_Ico]
    norm_num
  refine ⟨?_, nearZero_half_set, hvol, ?_⟩
  · intro g fuel
    unfold watsonPolarCosine
    rw [if_neg (by norm_num), if_neg (by norm_num)]
    rfl
  · rw [hvol]
    intro h
    rw [ENNReal.ofReal_eq_ofReal_iff (by norm_num) (by norm_num)] at h
    norm_num at h

/-! ## C10: unit norm of the Watson samples -/

/-- C10: for draws in `[0,1)`, whenever the sampling step finishes with `S` (bipolar,
girdle or near-zero regime), `-1 <= S <= 1` and the canonical-axis point has norm exactly
1 for every azimuth; and whenever the call returns without error, the returned vector has
unit norm. -/
theorem C10_watson_unit_norm (fuel : ℕ) (kappa : ℝ) (g g1 : Generator) (S : ℝ)
    (hg : g.Valid) (hS : watsonPolarCosine fuel kappa g = some (S, g1)) :
    (kappa > 1.0e-6 → watsonBipolar fuel kappa g = some (S, g1)) ∧
    (¬ kappa > 1.0e-6 → kappa < -1.0e-6 → watsonGirdle fuel kappa g = some (S, g1)) ∧
    (¬ kappa > 1.0e-6 → ¬ kappa < -1.0e-6 → watsonNearZero g = (S, g1)) ∧
    -1 ≤ S ∧ S ≤ 1 ∧
    (∀ phi, canonicalPoint S phi 0 * canonicalPoint S phi 0
        + canonicalPoint S phi 1 * canonicalPoint S phi 1
        + canonicalPoint S phi 2 * canonicalPoint S phi 2 = 1 ∧
      ComputeNorm (canonicalPoint S phi) = 1) ∧
    (∀ (lib : GeometryLib) (m v : Vec3) (g'' : Generator),
      SampleFromWatsonDistribution lib fuel kappa m g = some (Except.ok v, g'') →
      ComputeNorm v = 1) := by
  have hb := watsonPolarCosine_bounds fuel kappa g g1 S hg hS
  refine ⟨?_, ?_, ?_, hb.1, hb.2, fun phi => ⟨canonicalPoint_sumSq S phi hb.1 hb.2,
    canonicalPoint_norm S phi hb.1 hb.2⟩, ?_⟩
  · intro h1
    unfold watsonPolarCosine at hS
    rwa [if_pos h1] at hS
  · intro h1 h2
    unfold watsonPolarCosine at hS
    rwa [if_neg h1, if_pos h2] at hS
  · intro h1 h2
    unfold watsonPolarCosine at hS
    rw [if_neg h1, if_neg h2] at hS
    exact Option.some.inj hS
  · intro lib m v g'' hrun
    obtain ⟨-, S1, g2, -, hn, hv, -⟩ := (watson_ok_iff lib fuel kappa m g g'' v).1 hrun
    rw [hv]
    apply Normalize_norm
    intro h0
    rw [h0] at hn
    norm_num at hn

/-- C10 at `kappa = 0`, mean direction `(0,0,1)`, on the stream of canonical values `1/2`. -/
theorem C10_watson_unit_norm_witness :
    (-1 ≤ (watsonNearZero (Generator.const (1 / 2))).1 ∧
      (watsonNearZero (Generator.const (1 / 2))).1 ≤ 1) ∧
    (∃ v g'', SampleFromWatsonDistribution GeometryLib.pole 0 0 ![0, 0, 1]
        (Generator.const (1 / 2)) = some (Except.ok v, g'') ∧ ComputeNorm v = 1) := by
  have hg : (Generator.const (1 / 2)).Valid := const_valid _ (by norm_num) (by norm_num)
  have h := C10_watson_unit_norm 0 0 (Generator.const (1 / 2))
    (watsonNearZero (Generator.const (1 / 2))).2 (watsonNearZero (Generator.const (1 / 2))).1
    hg (watson_near_zero_example _)
  refine ⟨⟨h.2.2.2.1, h.2.2.2.2.1⟩, _, _,
    watson_returns GeometryLib.pole 0 0 ![0, 0, 1] (Generator.const (1 / 2)) _ _
      pole_rotate_norm norm_pole hg (watson_near_zero_example _), ?_⟩
  exact h.2.2.2.2.2.2 GeometryLib.pole ![0, 0, 1] _ _
    (watson_returns GeometryLib.pole 0 0 ![0, 0, 1] (Generator.const (1 / 2)) _ _
      pole_rotate_norm norm_pole hg (watson_near_zero_example _))

/-! ## C11: the check on the norm of the rotated point -/

/-- The Watson sampler throws the numerical-consistency exception exactly when the
unit-norm check passes, the sampling step finishes and the check of line 279 fails. -/
theorem watson_consistency_iff (lib : GeometryLib) (fuel : ℕ) (kappa : ℝ) (m : Vec3)
    (g g'' : Generator) :
    SampleFromWatsonDistribution lib fuel kappa m g
        = some (Except.error SampleError.numericalConsistency, g'') ↔
      ¬ |TransformCartesianToSphericalCoordinates m 2 - 1| > 1.0e-6 ∧
      ∃ S g1, watsonPolarCosine fuel kappa g = some (S, g1) ∧
        |ComputeNorm (lib.RotateAroundAxis
              (canonicalPoint S (0 + (2 * Real.pi - 0) * g1.stream g1.pos))
              (TransformCartesianToSphericalCoordinates m 0)
              (Normalize (ComputeCrossProduct ![0, 0, 1] m))) - 1| > 1.0e-4 ∧
        g'' = ⟨g1.stream, g1.pos + 1⟩ := by
  have e1 : (1.0 : ℝ) = 1 := by norm_num
  unfold SampleFromWatsonDistribution
  simp only [e1, SampleFromUniformDistribution]
  by_cases hc : |TransformCartesianToSphericalCoordinates m 2 - 1| > 1.0e-6
  · simp only [hc, if_true, not_true_eq_false, false_and, iff_false]
    intro h
    have := (Prod.mk.inj (Option.some.inj h)).1
    cases this
  · simp only [hc, if_false, not_false_eq_true, true_and]
    cases hl : watsonPolarCosine fuel kappa g with
    | none =>
      simp only
      constructor
      · intro h; cases h
      · rintro ⟨S, g1, h, -⟩; cases h
    | some p =>
      obtain ⟨S, g1⟩ := p
      simp only
      constructor
      · intro h
        split at h
        · rename_i hn
          have h2 := (Prod.mk.inj (Option.some.inj h)).2
          exact ⟨S, g1, rfl, hn, h2.symm⟩
        · have := (Prod.mk.inj (Option.some.inj h)).1
          cases this
      · rintro ⟨S', g1', h, hn, hg⟩
        obtain ⟨rfl, rfl⟩ := Prod.mk.inj (Option.some.inj h)
        rw [if_pos hn, hg]

/-- C11: the Watson sampler throws the numerical-consistency exception exactly when the
sampling step has finished and the norm `n` of the rotated canonical point has
`|n - 1| > 1e-4`; when `RotateAroundAxis` keeps the Euclidean norm, the mean direction
has norm 1 and the draws lie in `[0,1)`, that exception is never thrown, for every
`kappa` and every bound on the trials, and the call returns as soon as the sampling step
finishes. -/
theorem C11_watson_consistency_check (lib : GeometryLib) (fuel : ℕ) (kappa : ℝ) (m : Vec3)
    (g : Generator) :
    (∀ g'', SampleFromWatsonDistribution lib fuel kappa m g
        = some (Except.error SampleError.numericalConsistency, g'') ↔
      ¬ |TransformCartesianToSphericalCoordinates m 2 - 1| > 1.0e-6 ∧
      ∃ S g1, watsonPolarCosine fuel kappa g = some (S, g1) ∧
        |ComputeNorm (lib.RotateAroundAxis
              (canonicalPoint S (SampleFromUniformDistribution 0 (2 * Real.pi) g1).1)
              (TransformCartesianToSphericalCoordinates m 0)
              (Normalize (ComputeCrossProduct ![0, 0, 1] m))) - 1| > 1.0e-4 ∧
        g'' = (SampleFromUniformDistribution 0 (2 * Real.pi) g1).2) ∧
    ((∀ v a n, ComputeNorm (lib.RotateAroundAxis v a n) = ComputeNorm v) →
      ComputeNorm m = 1 → g.Valid →
      (¬ ∃ g'', SampleFromWatsonDistribution lib fuel kappa m g
          = some (Except.error SampleError.numericalConsistency, g'')) ∧
      (∀ S g1, watsonPolarCosine fuel kappa g = some (S, g1) →
        ∃ v, SampleFromWatsonDistribution lib fuel kappa m g
          = some (Except.ok v, (SampleFromUniformDistribution 0 (2 * Real.pi) g1).2))) := by
  refine ⟨fun g'' => watson_consistency_iff lib fuel kappa m g g'', ?_⟩
  intro hrot hm hg
  refine ⟨?_, ?_⟩
  · rintro ⟨g'', h⟩
    obtain ⟨-, S, g1, hS, hn, -⟩ := (watson_consistency_iff lib fuel kappa m g g'').1 h
    have hb := watsonPolarCosine_bounds fuel kappa g g1 S hg hS
    have := watson_norm_check lib hrot S (0 + (2 * Real.pi - 0) * g1.stream g1.pos)
      (TransformCartesianToSphericalCoordinates m 0)
      (Normalize (ComputeCrossProduct ![0, 0, 1] m)) hb.1 hb.2
    apply this
    norm_num at hn ⊢
    exact hn
  · intro S g1 hS
    exact ⟨_, watson_returns lib fuel kappa m g g1 S hrot hm hg hS⟩

/-- C11 at `kappa = 0`, mean direction `(0,0,1)`, the identity rotation, on the stream of
canonical values `1/2`. -/
theorem C11_watson_consistency_check_witness :
    (¬ ∃ g'', SampleFromWatsonDistribution GeometryLib.pole 0 0 ![0, 0, 1]
        (Generator.const (1 / 2)) = some (Except.error SampleError.numericalConsistency, g'')) ∧
    (∃ v, SampleFromWatsonDistribution GeometryLib.pole 0 0 ![0, 0, 1] (Generator.const (1 / 2))
        = some (Except.ok v, (SampleFromUniformDistribution 0 (2 * Real.pi)
            (watsonNearZero (Generator.const (1 / 2))).2).2)) := by
  have h := (C11_watson_consistency_check GeometryLib.pole 0 0 ![0, 0, 1]
    (Generator.const (1 / 2))).2 pole_rotate_norm norm_pole
    (const_valid _ (by norm_num) (by norm_num))
  exact ⟨h.1, h.2 _ _ (watson_near_zero_example _)⟩

/-! ## C12: the regime dispatch -/

/-- C12: for every real `kappa` exactly one branch is taken: the bipolar loop iff
`kappa > 1e-6`, the girdle loop iff `kappa < -1e-6`, the uniform branch
`S = cos(Uniform(0, pi))` iff `|kappa| <= 1e-6`; `kappa = 1e-6` and `kappa = -1e-6` take
the uniform branch. -/
theorem C12_watson_regimes (fuel : ℕ) (kappa : ℝ) (g : Generator) :
    watsonPolarCosine fuel kappa g
      = (match watsonRegime kappa with
        | WatsonRegime.bipolar => watsonBipolar fuel kappa g
        | WatsonRegime.girdle => watsonGirdle fuel kappa g
        | WatsonRegime.nearZero =>
          some (Real.cos (SampleFromUniformDistribution 0 Real.pi g).1,
            (SampleFromUniformDistribution 0 Real.pi g).2)) ∧
    (watsonRegime kappa = WatsonRegime.bipolar ↔ kappa > 1.0e-6) ∧
    (watsonRegime kappa = WatsonRegime.girdle ↔ kappa < -1.0e-6) ∧
    (watsonRegime kappa = WatsonRegime.nearZero ↔ |kappa| ≤ 1.0e-6) ∧
    watsonRegime 1.0e-6 = WatsonRegime.nearZero ∧
    watsonRegime (-1.0e-6) = WatsonRegime.nearZero := by
  have hb : ∀ k : ℝ, watsonRegime k = WatsonRegime.bipolar ↔ k > 1.0e-6 := by
    intro k
    unfold watsonRegime
    by_cases h1 : k > 1.0e-6
    · simp [h1]
    · by_cases h2 : k < -1.0e-6
      · simp [h1, h2]
      · simp [h1, h2]
  have hg : ∀ k : ℝ, watsonRegime k = WatsonRegime.girdle ↔ k < -1.0e-6 := by
    intro k
    unfold watsonRegime
    by_cases h1 : k > 1.0e-6
    · have : ¬ k < -1.0e-6 := by
        intro h
        have : (-1.0e-6 : ℝ) < 1.0e-6 := by norm_num
        linarith
      simp [h1, this]
    · by_cases h2 : k < -1.0e-6
      · simp [h1, h2]
      · simp [h1, h2]
  have hz : ∀ k : ℝ, watsonRegime k = WatsonRegime.nearZero ↔ |k| ≤ 1.0e-6 := by
    intro k
    unfold watsonRegime
    rw [abs_le]
    by_cases h1 : k > 1.0e-6
    · have : ¬ k ≤ 1.0e-6 := not_le.2 h1
      simp [h1, this]
    · by_cases h2 : k < -1.0e-6
      · have : ¬ -1.0e-6 ≤ k := not_le.2 h2
        simp [h1, h2, this]
      · simp only [h1, h2, if_false, true_iff]
        exact ⟨not_lt.1 h2, not_lt.1 h1⟩
  refine ⟨?_, hb kappa, hg kappa, hz kappa, ?_, ?_⟩
  · unfold watsonPolarCosine watsonRegime
    by_cases h1 : kappa > 1.0e-6
    · simp only [h1, if_true]
    · by_cases h2 : kappa < -1.0e-6
      · simp only [h1, h2, if_true, if_false]
      · simp only [h1, h2, if_false]
        rfl
  · rw [hz]
    norm_num [abs_of_pos]
  · rw [hz]
    norm_num [abs_of_pos]

/-! ## C15: the numerically stable VMF sampler draws twice -/

/-- C15: for every `kappa`, every mean direction of norm 1, every generator and every
rotation matrix, the numerically stable VMF sampler returns after exactly two draws: `xi`
from `[0,1)`, then `theta` from `[0, 2 pi)`; `W` is computed once from `xi`. -/
theorem C15_vmf_stable_two_draws (lib : GeometryLib) (kappa : ℝ) (m : Vec3) (g : Generator)
    (hm : ComputeNorm m = 1) :
    SampleFromVMFDistributionNumericallyStable lib kappa m g
      = (Except.ok (applyRotation (lib.GetRotationMatrixFromVectors ![0, 0, 1] m)
            (canonicalPoint (vmfStableW kappa (0 + (1 - 0) * g.stream g.pos))
              (0 + (2 * Real.pi - 0) * g.stream (g.pos + 1)))),
          ⟨g.stream, g.pos + 2⟩) ∧
    (SampleFromVMFDistributionNumericallyStable lib kappa m g).2.pos = g.pos + 2 := by
  have hc : ¬ |TransformCartesianToSphericalCoordinates m 2 - 1.0| > 1.0e-6 := by
    rw [sphericalRadius, hm]
    norm_num
  have h : SampleFromVMFDistributionNumericallyStable lib kappa m g
      = (Except.ok (applyRotation (lib.GetRotationMatrixFromVectors ![0, 0, 1] m)
            (canonicalPoint (vmfStableW kappa (0 + (1 - 0) * g.stream g.pos))
              (0 + (2 * Real.pi - 0) * g.stream (g.pos + 1)))),
          ⟨g.stream, g.pos + 2⟩) := by
    unfold SampleFromVMFDistributionNumericallyStable
    simp only [hc, if_false, SampleFromUniformDistribution]
  exact ⟨h, by rw [h]⟩

/-- C15 at `kappa = 0`, mean direction `(0,0,1)`, on the stream of canonical values `0`. -/
theorem C15_vmf_stable_two_draws_witness :
    (SampleFromVMFDistributionNumericallyStable GeometryLib.pole 0 ![0, 0, 1]
        (Generator.const 0)).2.pos = (Generator.const 0).pos + 2 :=
  (C15_vmf_stable_two_draws GeometryLib.pole 0 ![0, 0, 1] (Generator.const 0) norm_pole).2

/-! ## C18: the rejection loop of the uniform sampler on the sphere -/

/-- C18: the call returns the point of the trial number `n` exactly when the pair number
`n` (positions `2n`, `2n+1` of the draw stream) is the first with `u^2 + v^2 <= 1`, every
earlier pair having `u^2 + v^2 > 1`; `2(n+1)` draws are then consumed; a pair with
`u^2 + v^2 = 1` is accepted; and the call returns for some bound on the trials if and
only if the stream contains a pair with `u^2 + v^2 <= 1`. -/
theorem C18_sphere_first_accepted (g : Generator) (r : Vec3) :
    (∀ i, spherePair g i
        = (-1 + (1 - -1) * g.stream (g.pos + 2 * i), -1 + (1 - -1) * g.stream (g.pos + 2 * i + 1)) ∧
      sphereSq g i = (spherePair g i).1 ^ 2 + (spherePair g i).2 ^ 2) ∧
    (∀ fuel v g', SampleFromUniformDistributionOn2Sphere fuel g r = some (v, g') ↔
      ∃ n, n < fuel ∧ (∀ i, i < n → sphereSq g i > 1) ∧ sphereSq g n ≤ 1 ∧
        v = ![(spherePair g n).1 * (2 * Real.sqrt (1 - sphereSq g n)),
              (spherePair g n).2 * (2 * Real.sqrt (1 - sphereSq g n)),
              2 * sphereSq g n - 1] ∧
        g' = ⟨g.stream, g.pos + 2 * (n + 1)⟩) ∧
    (sphereSq g 0 = 1 →
      SampleFromUniformDistributionOn2Sphere 1 g r
        = some (![(spherePair g 0).1 * (2 * Real.sqrt (1 - 1)),
              (spherePair g 0).2 * (2 * Real.sqrt (1 - 1)), 2 * 1 - 1],
            ⟨g.stream, g.pos + 2⟩)) ∧
    ((∃ fuel v g', SampleFromUniformDistributionOn2Sphere fuel g r = some (v, g')) ↔
      ∃ n, sphereSq g n ≤ 1) := by
  refine ⟨?_, fun fuel v g' => sphere_run_iff fuel g g' r v, ?_, ?_⟩
  · intro i
    refine ⟨rfl, ?_⟩
    unfold sphereSq
    ring
  · intro h1
    rw [sphere_run_iff]
    refine ⟨0, by decide, fun i hi => absurd hi (Nat.not_lt_zero i), h1.le, ?_, rfl⟩
    rw [h1]
  · constructor
    · rintro ⟨fuel, v, g', h⟩
      obtain ⟨n, -, -, hacc, -⟩ := (sphere_run_iff fuel g g' r v).1 h
      exact ⟨n, hacc⟩
    · intro h
      have hn := Nat.find_spec h
      refine ⟨Nat.find h + 1, _, _, (sphere_run_iff _ g _ r _).2
        ⟨Nat.find h, Nat.lt_succ_self _, ?_, hn, rfl, rfl⟩⟩
      intro i hi
      exact not_le.1 (Nat.find_min h hi)

/-- C18 on the stream `0, 1/2, ...`: the first pair is `(-1, 0)`, with `u^2 + v^2 = 1`,
and it is accepted. -/
theorem C18_sphere_first_accepted_witness :
    SampleFromUniformDistributionOn2Sphere 1 (Generator.ofList [0] (1 / 2)) ![0, 0, 0]
      = some (![(spherePair (Generator.ofList [0] (1 / 2)) 0).1 * (2 * Real.sqrt (1 - 1)),
            (spherePair (Generator.ofList [0] (1 / 2)) 0).2 * (2 * Real.sqrt (1 - 1)), 2 * 1 - 1],
          ⟨(Generator.ofList [0] (1 / 2)).stream, (Generator.ofList [0] (1 / 2)).pos + 2⟩) :=
  (C18_sphere_first_accepted (Generator.ofList [0] (1 / 2)) ![0, 0, 0]).2.2.1
    (by simp [sphereSq, spherePair, Generator.ofList]; norm_num)

/-! ## C13: the polar cosine of the stable VMF sampler increases with `kappa` -/

theorem stableArg_pos (kappa xi : ℝ) (hxi0 : 0 < xi) (hxi1 : xi < 1) :
    0 < xi + (1 - xi) * Real.exp (-2 * kappa) := by
  have := Real.exp_pos (-2 * kappa)
  nlinarith

/-- For `0 < k1 < k2` and `0 < xi < 1`:
`ln(xi + (1-xi) exp(-2 k1)) / k1 < ln(xi + (1-xi) exp(-2 k2)) / k2`. -/
theorem stableLog_strictMono (xi k1 k2 : ℝ) (hxi0 : 0 < xi) (hxi1 : xi < 1) (hk1 : 0 < k1)
    (hk12 : k1 < k2) :
    Real.log (xi + (1 - xi) * Real.exp (-2 * k1)) / k1
      < Real.log (xi + (1 - xi) * Real.exp (-2 * k2)) / k2 := by
  have hk2 : 0 < k2 := lt_trans hk1 hk12
  have ht0 : 0 < k1 / k2 := div_pos hk1 hk2
  have ht1 : k1 / k2 < 1 := (div_lt_one hk2).2 hk12
  have hx : Real.exp (-2 * k2) ≠ 1 := by
    intro h
    have : Real.exp (-2 * k2) < 1 := by
      rw [Real.exp_lt_one_iff]
      linarith
    linarith
  have hconc := (Real.strictConcaveOn_rpow ht0 ht1).2
    (show (1 : ℝ) ∈ Set.Ici 0 from by norm_num)
    (show Real.exp (-2 * k2) ∈ Set.Ici 0 from (Real.exp_pos _).le)
    (Ne.symm hx) hxi0 (show 0 < 1 - xi by linarith) (by ring)
  simp only [smul_eq_mul, Real.one_rpow, mul_one] at hconc
  have hexp : Real.exp (-2 * k2) ^ (k1 / k2) = Real.exp (-2 * k1) := by
    rw [← Real.exp_mul]
    congr 1
    field_simp
    ring
  rw [hexp] at hconc
  have ha1 := stableArg_pos k1 xi hxi0 hxi1
  have ha2 := stableArg_pos k2 xi hxi0 hxi1
  have hlog := Real.log_lt_log ha1 hconc
  rw [Real.log_rpow ha2] at hlog
  rw [div_lt_div_iff₀ hk1 hk2]
  have : Real.log (xi + (1 - xi) * Real.exp (-2 * k1)) * k2
      < k1 / k2 * Real.log (xi + (1 - xi) * Real.exp (-2 * k2)) * k2 :=
    mul_lt_mul_of_pos_right hlog hk2
  have e : k1 / k2 * Real.log (xi + (1 - xi) * Real.exp (-2 * k2)) * k2
      = Real.log (xi + (1 - xi) * Real.exp (-2 * k2)) * k1 := by
    field_simp
    ring
  linarith

/-- The scalar product of the rotated vector with the image of `(0,0,1)` is the third
coordinate of the vector, for an orthogonal matrix. -/
theorem applyRotation_dot_pole (R : Mat3) (hR : IsOrthogonal R) (v : Vec3) :
    applyRotation R v 0 * applyRotation R ![0, 0, 1] 0
      + applyRotation R v 1 * applyRotation R ![0, 0, 1] 1
      + applyRotation R v 2 * applyRotation R ![0, 0, 1] 2 = v 2 := by
  have h02 := hR 0 2
  have h12 := hR 1 2
  have h22 := hR 2 2
  simp only [if_true, Fin.isValue] at h22
  rw [if_neg (by decide)] at h02 h12
  simp only [applyRotation, Matrix.cons_val_zero, Matrix.cons_val_one, Matrix.head_cons,
    Matrix.cons_val_two, Matrix.tail_cons]
  linear_combination (v 0) * h02 + (v 1) * h12 + (v 2) * h22

/-- C13: for a fixed draw `0 < xi < 1` the polar cosine
`W(kappa) = 1 + ln(xi + (1-xi) exp(-2 kappa)) / kappa` of the stable VMF sampler is
strictly increasing on `kappa > 0`; and `W` is the scalar product of the sample with the
mean direction, hence the cosine between these unit vectors, when the rotation matrix is
orthogonal and takes `(0,0,1)` to the mean direction. -/
theorem C13_vmf_stable_monotone (xi k1 k2 : ℝ) (hxi0 : 0 < xi) (hxi1 : xi < 1) (hk1 : 0 < k1)
    (hk12 : k1 < k2) :
    vmfStableW k1 xi = 1 + Real.log (xi + (1 - xi) * Real.exp (-2 * k1)) / k1 ∧
    vmfStableW k2 xi = 1 + Real.log (xi + (1 - xi) * Real.exp (-2 * k2)) / k2 ∧
    vmfStableW k1 xi < vmfStableW k2 xi ∧
    (∀ (R : Mat3) (m : Vec3) (kappa theta : ℝ), IsOrthogonal R → applyRotation R ![0, 0, 1] = m →
      applyRotation R (canonicalPoint (vmfStableW kappa xi) theta) 0 * m 0
        + applyRotation R (canonicalPoint (vmfStableW kappa xi) theta) 1 * m 1
        + applyRotation R (canonicalPoint (vmfStableW kappa xi) theta) 2 * m 2
        = vmfStableW kappa xi) := by
  refine ⟨vmfStableW_eq k1 xi hxi0 hxi1, vmfStableW_eq k2 xi hxi0 hxi1, ?_, ?_⟩
  · rw [vmfStableW_eq k1 xi hxi0 hxi1, vmfStableW_eq k2 xi hxi0 hxi1]
    have := stableLog_strictMono xi k1 k2 hxi0 hxi1 hk1 hk12
    linarith
  · intro R m kappa theta hR hm
    rw [← hm, applyRotation_dot_pole R hR]
    rfl

/-- C13 at `xi = 1/2`, `kappa = 1` and `kappa = 2`. -/
theorem C13_vmf_stable_monotone_witness : vmfStableW 1 (1 / 2) < vmfStableW 2 (1 / 2) :=
  (C13_vmf_stable_monotone (1 / 2) 1 2 (by norm_num) (by norm_num) (by norm_num)
    (by norm_num)).2.2.1

/-! ## C14: concentration of the stable VMF sampler at `kappa = 50` -/

theorem exp_five_gt : (100 : ℝ) < Real.exp 5 := by
  have h1 : Real.exp 5 = Real.exp 1 ^ 5 := by
    rw [← Real.exp_nat_mul]
    norm_num
  rw [h1]
  have h2 : (2.7 : ℝ) < Real.exp 1 := lt_trans (by norm_num) Real.exp_one_gt_d9
  have h3 : (2.7 : ℝ) ^ 5 < Real.exp 1 ^ 5 := pow_lt_pow_left₀ h2 (by norm_num) (by norm_num)
  have h4 : (100 : ℝ) < 2.7 ^ 5 := by norm_num
  linarith

theorem vmfStableW_fifty_gt (xi : ℝ) (h0 : 0.01 ≤ xi) (h1 : xi < 1) :
    vmfStableW 50 xi > 0.9 := by
  have hxi0 : 0 < xi := lt_of_lt_of_le (by norm_num) h0
  rw [vmfStableW_eq 50 xi hxi0 h1]
  have he := Real.exp_pos (-2 * 50)
  have ha : xi ≤ xi + (1 - xi) * Real.exp (-2 * 50) := by nlinarith
  have h5 : Real.exp (-5) < 0.01 := by
    rw [Real.exp_neg, inv_lt_comm₀ (Real.exp_pos 5) (by norm_num)]
    have := exp_five_gt
    norm_num
    linarith
  have hlog : -5 < Real.log (xi + (1 - xi) * Real.exp (-2 * 50)) := by
    rw [Real.lt_log_iff_exp_lt (stableArg_pos 50 xi hxi0 h1)]
    linarith
  have h50 : (-0.1 : ℝ) * 50 = -5 := by norm_num
  have : -0.1 < Real.log (xi + (1 - xi) * Real.exp (-2 * 50)) / 50 := by
    rw [lt_div_iff₀ (by norm_num), h50]
    exact hlog
  have e9 : (0.9 : ℝ) = 1 + -0.1 := by norm_num
  rw [gt_iff_lt, e9]
  linarith

theorem vmfStableW_zero (kappa : ℝ) : vmfStableW kappa 0 = 1 := by
  simp [vmfStableW, safe_log]

theorem vmfStableW_one (kappa : ℝ) : vmfStableW kappa 1 = 1 := by
  simp [vmfStableW, safe_log]

theorem vmfStableW_fifty_ge (xi : ℝ) (h0 : 0 ≤ xi) (h1 : xi ≤ 1) :
    -1 ≤ vmfStableW 50 xi ∧ vmfStableW 50 xi ≤ 1 := by
  rcases eq_or_lt_of_le h0 with h | h
  · rw [← h, vmfStableW_zero]
    norm_num
  · rcases eq_or_lt_of_le h1 with h' | h'
    · rw [h', vmfStableW_one]
      norm_num
    · have := vmfStableW_bounds 50 xi (by norm_num) h h'
      exact ⟨this.1.le, this.2.le⟩

theorem vmfStableW_measurable (kappa : ℝ) : Measurable (fun xi => vmfStableW kappa xi) := by
  unfold vmfStableW safe_log
  have h1 : Measurable (fun xi : ℝ => Real.log xi) := Real.measurable_log
  have h2 : Measurable (fun xi : ℝ => 1 - (xi - 1) * Real.exp (-2 * kappa) / xi) := by
    fun_prop
  exact measurable_const.add ((h1.add (Real.measurable_log.comp h2)).div_const kappa)

theorem vmfStableW_intervalIntegrable (a b : ℝ) (ha : 0 ≤ a) (hab : a ≤ b) (hb : b ≤ 1) :
    IntervalIntegrable (fun xi => vmfStableW 50 xi) MeasureTheory.volume a b := by
  rw [intervalIntegrable_iff_integrableOn_Ioc_of_le hab]
  apply MeasureTheory.Measure.integrableOn_of_bounded (M := 1)
  · simp
  · exact (vmfStableW_measurable 50).aestronglyMeasurable
  · rw [MeasureTheory.ae_restrict_iff' measurableSet_Ioc]
    apply Filter.Eventually.of_forall
    intro x hx
    have hb' := vmfStableW_fifty_ge x (by linarith [hx.1]) (by linarith [hx.2])
    rw [Real.norm_eq_abs, abs_le]
    exact hb'

/-- C14: at `kappa = 50`, every draw `0.01 <= xi < 1` gives `W > 0.9` and every draw
`0 < xi < 1` gives `W > -1`; the draws of `(0,1)` with `W > 0.9` have measure at least
`0.99`, and the mean of `W` over a uniform `xi` exceeds `0.85`. -/
theorem C14_vmf_stable_concentration :
    (∀ xi : ℝ, 0.01 ≤ xi → xi < 1 → vmfStableW 50 xi > 0.9) ∧
    (∀ xi : ℝ, 0 < xi → xi < 1 → vmfStableW 50 xi > -1) ∧
    MeasureTheory.volume {xi : ℝ | 0 < xi ∧ xi < 1 ∧ vmfStableW 50 xi > 0.9}
      ≥ ENNReal.ofReal 0.99 ∧
    ∫ xi in (0 : ℝ)..1, vmfStableW 50 xi > 0.85 := by
  refine ⟨vmfStableW_fifty_gt, fun xi h0 h1 => (vmfStableW_bounds 50 xi (by norm_num) h0 h1).1,
    ?_, ?_⟩
  · have hsub : Set.Ico (0.01 : ℝ) 1 ⊆ {xi : ℝ | 0 < xi ∧ xi < 1 ∧ vmfStableW 50 xi > 0.9} := by
      intro xi hxi
      exact ⟨lt_of_lt_of_le (by norm_num) hxi.1, hxi.2, vmfStableW_fifty_gt xi hxi.1 hxi.2⟩
    have := MeasureTheory.measure_mono (μ := MeasureTheory.volume) hsub
    rw [Real.volume_Ico] at this
    have e : (1 : ℝ) - 0.01 = 0.99 := by norm_num
    rw [e] at this
    exact this
  · have hi1 := vmfStableW_intervalIntegrable 0 0.01 (le_refl _) (by norm_num) (by norm_num)
    have hi2 := vmfStableW_intervalIntegrable 0.01 1 (by norm_num) (by norm_num) (le_refl _)
    rw [← intervalIntegral.integral_add_adjacent_intervals hi1 hi2]
    have hlow : ∫ _xi in (0 : ℝ)..0.01, (-1 : ℝ) ≤ ∫ xi in (0 : ℝ)..0.01, vmfStableW 50 xi := by
      apply intervalIntegral.integral_mono_on (by norm_num) intervalIntegrable_const hi1
      intro x hx
      exact (vmfStableW_fifty_ge x hx.1 (by linarith [hx.2])).1
    have hhigh : ∫ _xi in (0.01 : ℝ)..1, (0.9 : ℝ) ≤ ∫ xi in (0.01 : ℝ)..1, vmfStableW 50 xi := by
      apply intervalIntegral.integral_mono_on (by norm_num) intervalIntegrable_const hi2
      intro x hx
      rcases eq_or_lt_of_le hx.2 with h | h
      · rw [h, vmfStableW_one]
        norm_num
      · exact (vmfStableW_fifty_gt x hx.1 h).le
    rw [intervalIntegral.integral_const] at hlow hhigh
    simp only [smul_eq_mul] at hlow hhigh
    norm_num at hlow hhigh ⊢
    linarith

/-- C14 at the draw `xi = 1/2`. -/
theorem C14_vmf_stable_concentration_witness : vmfStableW 50 (1 / 2) > 0.9 :=
  C14_vmf_stable_concentration.1 (1 / 2) (by norm_num) (by norm_num)

/-! ## C20: the guard on a near-zero `V` in the bipolar regime -/

theorem exp_fiftyfive_quarter_le : Real.exp (55 / 4) ≤ 10 ^ 6 := by
  have h1 : Real.exp 55 = Real.exp 1 ^ 55 := by
    rw [← Real.exp_nat_mul]
    norm_num
  have h2 : Real.exp 55 = Real.exp (55 / 4) ^ 4 := by
    rw [← Real.exp_nat_mul]
    norm_num
  have h3 : Real.exp 1 ^ 55 ≤ (2.7182818286 : ℝ) ^ 55 :=
    pow_le_pow_left₀ (Real.exp_pos 1).le Real.exp_one_lt_d9.le 55
  have h4 : (2.7182818286 : ℝ) ^ 55 ≤ (10 ^ 6) ^ 4 := by norm_num
  have h5 : Real.exp (55 / 4) ^ 4 ≤ ((10 : ℝ) ^ 6) ^ 4 := by
    rw [← h2, h1]
    exact le_trans h3 h4
  by_contra hc
  have hlt : ((10 : ℝ) ^ 6) ^ 4 < Real.exp (55 / 4) ^ 4 :=
    pow_lt_pow_left₀ (not_le.1 hc) (by norm_num) (by norm_num)
  linarith

theorem log_micro_le : Real.log 1.0e-6 ≤ -(55 / 4) := by
  have hpos : (0 : ℝ) < 1.0e-6 := by norm_num
  rw [Real.log_le_iff_le_exp hpos, Real.exp_neg]
  have h := exp_fiftyfive_quarter_le
  have h3 : (0 : ℝ) < Real.exp (55 / 4) := Real.exp_pos _
  rw [le_inv_comm₀ hpos h3]
  have : ((1.0e-6 : ℝ))⁻¹ = 10 ^ 6 := by norm_num
  rw [this]
  exact h

theorem bipolar_exponent_ge (kappa S : ℝ) (hk : 0 < kappa) :
    -(kappa / 4) ≤ kappa * S * (S - 1) := by
  nlinarith [mul_nonneg hk.le (sq_nonneg (S - 1 / 2))]

theorem exp_neg_twentyfive_lt : Real.exp (-25) < 1.0e-7 := by
  have h2 : (2 : ℝ) ≤ Real.exp 1 := by
    have := Real.add_one_le_exp (1 : ℝ)
    linarith
  have h25 : Real.exp 25 = Real.exp 1 ^ 25 := by
    rw [← Real.exp_nat_mul]
    norm_num
  have hbig : (2 : ℝ) ^ 25 ≤ Real.exp 25 := by
    rw [h25]
    exact pow_le_pow_left₀ (by norm_num) h2 25
  have hpos : (0 : ℝ) < 1.0e-7 := by norm_num
  rw [Real.exp_neg, inv_lt_comm₀ (Real.exp_pos 25) hpos]
  have : ((1.0e-7 : ℝ))⁻¹ < 2 ^ 25 := by norm_num
  linarith

/-- C20: in the bipolar regime with `1e-6 < kappa <= 55`, every pair `(U, V)` on which
the sampling step stops satisfies `V <= exp(kappa S (S-1))` with
`S = 1 + ln(U + (1-U) exp(-kappa)) / kappa`, because
`kappa S (S-1) >= -kappa/4 >= ln(1e-6)`; and at `kappa = 100 > 56` there is a stream of
draws in `[0,1)` whose first pair has `V < 1e-6`, on which the step stops although
`V > exp(kappa S (S-1))`. -/
theorem C20_bipolar_guard (fuel : ℕ) :
    (∀ (kappa : ℝ) (g g' : Generator) (S : ℝ), 1.0e-6 < kappa → kappa ≤ 55 →
      watsonPolarCosine fuel kappa g = some (S, g') →
      ∃ n, g' = ⟨g.stream, g.pos + 2 * (n + 1)⟩ ∧
        S = 1 + Real.log (watsonU g n + (1 - watsonU g n) * Real.exp (-kappa)) / kappa ∧
        watsonV g n ≤ Real.exp (kappa * S * (S - 1))) ∧
    (∀ kappa S : ℝ, 1.0e-6 < kappa → kappa ≤ 55 →
      kappa * S * (S - 1) ≥ -(kappa / 4) ∧ -(kappa / 4) ≥ Real.log 1.0e-6) ∧
    (∃ (kappa : ℝ) (g g' : Generator) (S : ℝ), kappa > 56 ∧ g.Valid ∧
      watsonPolarCosine fuel kappa g = some (S, g') ∧ g' = ⟨g.stream, g.pos + 2⟩ ∧
      S = 1 + Real.log (watsonU g 0 + (1 - watsonU g 0) * Real.exp (-kappa)) / kappa ∧
      watsonV g 0 < 1.0e-6 ∧ watsonV g 0 > Real.exp (kappa * S * (S - 1))) := by
  refine ⟨?_, ?_, ?_⟩
  · intro kappa g g' S hk1 hk2 hS
    have hk : 0 < kappa := lt_trans (by norm_num) hk1
    unfold watsonPolarCosine at hS
    rw [if_pos hk1] at hS
    obtain ⟨n, -, -, hstop, hSn, hg'⟩ := (watsonBipolar_iff fuel kappa g g' S).1 hS
    refine ⟨n, hg', hSn, ?_⟩
    have hguard : watsonV g n ≤ 1.0e-6 → watsonV g n ≤ Real.exp (kappa * S * (S - 1)) := by
      intro hV
      have h1 : (1.0e-6 : ℝ) ≤ Real.exp (-(55 / 4)) := by
        rw [← Real.log_le_iff_le_exp (by norm_num)]
        exact log_micro_le
      have h2 : Real.exp (-(55 / 4)) ≤ Real.exp (kappa * S * (S - 1)) := by
        apply Real.exp_le_exp.2
        have := bipolar_exponent_ge kappa S hk
        linarith
      linarith
    unfold bipolarStops at hstop
    rw [← show S = bipolarS kappa (watsonU g n) from hSn] at hstop
    rcases hstop with h | h
    · by_cases hn : n = 0
      · rw [if_pos hn] at h
        exact hguard h
      · rw [if_neg hn] at h
        exact hguard h.le
    · by_cases hV : 0 < watsonV g n
      · exact (Real.log_le_iff_le_exp hV).1 h
      · exact le_trans (not_lt.1 hV) (Real.exp_pos _).le
  · intro kappa S hk1 hk2
    have hk : 0 < kappa := lt_trans (by norm_num) hk1
    refine ⟨bipolar_exponent_ge kappa S hk, ?_⟩
    have := log_micro_le
    linarith
  · have hx := Real.exp_pos (-50)
    have hU : watsonU (Generator.ofList [Real.exp (-50) / (1 + Real.exp (-50)), 1.0e-7] (1 / 2)) 0
        = Real.exp (-50) / (1 + Real.exp (-50)) := by
      simp [watsonU, Generator.ofList]
    have hV : watsonV (Generator.ofList [Real.exp (-50) / (1 + Real.exp (-50)), 1.0e-7] (1 / 2)) 0
        = 1.0e-7 := by
      simp [watsonV, Generator.ofList]
    refine ⟨100, Generator.ofList [Real.exp (-50) / (1 + Real.exp (-50)), 1.0e-7] (1 / 2),
      _, 1 / 2, by norm_num, ?_, ?_, rfl, ?_, ?_, ?_⟩
    · intro n
      have hU0 : 0 ≤ Real.exp (-50) / (1 + Real.exp (-50)) := by positivity
      have hU1 : Real.exp (-50) / (1 + Real.exp (-50)) < 1 := by
        rw [div_lt_one (by linarith)]
        linarith
      show 0 ≤ [Real.exp (-50) / (1 + Real.exp (-50)), 1.0e-7].getD n (1 / 2) ∧
        [Real.exp (-50) / (1 + Real.exp (-50)), 1.0e-7].getD n (1 / 2) < 1
      rcases n with _ | _ | n
      · exact ⟨hU0, hU1⟩
      · simp only [List.getD_cons_succ, List.getD_cons_zero]
        norm_num
      · simp only [List.getD_cons_succ, List.getD_nil]
        norm_num
    · unfold watsonPolarCosine
      rw [if_pos (by norm_num), watsonBipolar_iff]
      refine ⟨0, Nat.zero_le _, fun i hi => absurd hi (Nat.not_lt_zero i), ?_, ?_, rfl⟩
      · unfold bipolarStops
        left
        rw [if_pos rfl, hV]
        norm_num
      · rw [hU, bipolarS_half]
    · rw [hU]
      have := bipolarS_half
      unfold bipolarS at this
      exact this.symm
    · rw [hV]
      norm_num
    · rw [hV]
      have e : (100 : ℝ) * (1 / 2) * (1 / 2 - 1) = -25 := by norm_num
      rw [e]
      exact exp_neg_twentyfive_lt

/-- C20 at `kappa = 1` on the stream of canonical values `1e-7`: the guard of line 232
stops the step on the first pair, and `V <= exp(kappa S (S-1))` holds. -/
theorem C20_bipolar_guard_witness :
    ∃ n, (⟨(Generator.const 1.0e-7).stream, (Generator.const 1.0e-7).pos + 2 * (0 + 1)⟩ : Generator)
        = ⟨(Generator.const 1.0e-7).stream, (Generator.const 1.0e-7).pos + 2 * (n + 1)⟩ ∧
      bipolarS 1 (watsonU (Generator.const 1.0e-7) 0)
        = 1 + Real.log (watsonU (Generator.const 1.0e-7) n
            + (1 - watsonU (Generator.const 1.0e-7) n) * Real.exp (-1)) / 1 ∧
      watsonV (Generator.const 1.0e-7) n
        ≤ Real.exp (1 * bipolarS 1 (watsonU (Generator.const 1.0e-7) 0)
            * (bipolarS 1 (watsonU (Generator.const 1.0e-7) 0) - 1)) := by
  have h := (C20_bipolar_guard 0).1 1 (Generator.const 1.0e-7) _ _ (by norm_num) (by norm_num)
    watson_bipolar_example
  exact h

/-! ## The loops of the multivariate Gaussian sampler -/

theorem normalValue_eq (lib : NumericLib) (g : Generator) (j : ℕ) :
    normalValue lib g j = (lib.standardNormal (normalGenerator lib g j)).1 := by
  simp only [normalValue, SampleFromGaussianDistribution]
  norm_num

theorem normalGenerator_succ (lib : NumericLib) (g : Generator) (j : ℕ) :
    normalGenerator lib g (j + 1) = (lib.standardNormal (normalGenerator lib g j)).2 := by
  unfold normalGenerator
  rw [Function.iterate_succ_apply']

/-- After `n` draws `tmpVec[i]` holds `z_i` for `i < n` and the generator has produced `n`
normal values. -/
theorem gaussianDraws_eq (lib : NumericLib) (n : ℕ) (r : VecN) (g : Generator) :
    gaussianDraws lib n r g
      = (fun i => if i < n then normalValue lib g i else r i, normalGenerator lib g n) := by
  induction n with
  | zero =>
    simp [gaussianDraws, forLoop, normalGenerator]
  | succ k ih =>
    unfold gaussianDraws at ih ⊢
    rw [forLoop, ih]
    simp only
    refine Prod.ext ?_ ?_
    · funext i
      simp only
      by_cases hik : i = k
      · subst hik
        simp [Function.update_same, normalValue]
      · rw [Function.update_noteq hik]
        by_cases hlt : i < k
        · have : i < k + 1 := by omega
          simp [hlt, this]
        · have : ¬ i < k + 1 := by omega
          simp [hlt, this]
    · simp only [SampleFromGaussianDistribution]
      rw [normalGenerator_succ]

theorem gaussianInner_eq (i n : ℕ) (M : ℕ → ℕ → ℝ) (t : VecN) (rv : VecN) :
    forLoop (fun j (rv2 : VecN) => Function.update rv2 i (rv2 i + M i j * t j)) n rv
      = Function.update rv i (rv i + ∑ j ∈ Finset.range n, M i j * t j) := by
  induction n with
  | zero => simp [forLoop]
  | succ k ih =>
    rw [forLoop, ih]
    simp only [Function.update_same, Function.update_idem, Finset.sum_range_succ]
    rw [add_assoc]

/-- After the double loop `resVec[i]` holds `mean[i] + sum_j stdMatrix(i,j) tmpVec[j]` for
`i < n`. -/
theorem gaussianCombine_eq (n : ℕ) (mean : VecN) (M : ℕ → ℕ → ℝ) (t r : VecN) :
    gaussianCombine n mean M t r
      = fun i => if i < n then mean i + ∑ j ∈ Finset.range n, M i j * t j else r i := by
  unfold gaussianCombine
  have key : ∀ k, forLoop (fun i (rv : VecN) =>
      forLoop (fun j (rv2 : VecN) => Function.update rv2 i (rv2 i + M i j * t j))
        n (Function.update rv i (mean i))) k r
      = fun i => if i < k then mean i + ∑ j ∈ Finset.range n, M i j * t j else r i := by
    intro k
    induction k with
    | zero => simp [forLoop]
    | succ k ih =>
      rw [forLoop, ih, gaussianInner_eq]
      funext i
      by_cases hik : i = k
      · subst hik
        simp [Function.update_same]
      · rw [Function.update_noteq hik, Function.update_noteq hik]
        by_cases hlt : i < k
        · have : i < k + 1 := by omega
          simp [hlt, this]
        · have : ¬ i < k + 1 := by omega
          simp [hlt, this]
  exact key n

/-- The result of the Gaussian sampler in terms of `stdMatrix` and of the normal draws. -/
theorem gaussian_run_eq (lib : NumericLib) (mean : VecN) (mat : VnlMatrix) (r : VecN)
    (g : Generator) (isMatCovariance : Bool) :
    SampleFromMultivariateGaussianDistribution lib mean mat r g isMatCovariance
      = (fun i => if i < mat.rows then
            mean i + ∑ j ∈ Finset.range mat.rows,
              gaussianStdMatrix lib mat isMatCovariance i j * normalValue lib g j
          else r i,
        normalGenerator lib g mat.rows) := by
  unfold SampleFromMultivariateGaussianDistribution
  simp only [gaussianDraws_eq, gaussianCombine_eq]
  refine Prod.ext ?_ rfl
  funext i
  simp only
  by_cases hi : i < mat.rows
  · simp only [hi, if_true]
    congr 1
    apply Finset.sum_congr rfl
    intro j hj
    rw [if_pos (Finset.mem_range.1 hj)]
  · simp only [hi, if_false]

/-! ## C16: the standard-deviation mode -/

/-- C16: with `isMatCovariance = false` and `n = mat.rows()`, the sampler draws the `n`
normal values `z_0, ..., z_(n-1)` in index order, each from the generator left by the
previous draw, and returns `resVec[i] = mean[i] + sum_j mat(i,j) z_j` for every `i < n`
with the generator left by the last draw; the zero matrix returns the mean and the
identity matrix returns `mean + z`. -/
theorem C16_gaussian_linear (lib : NumericLib) (mean : VecN) (mat : VnlMatrix) (resVec : VecN)
    (g : Generator) :
    normalGenerator lib g 0 = g ∧
    (∀ j, normalValue lib g j = (lib.standardNormal (normalGenerator lib g j)).1 ∧
      normalGenerator lib g (j + 1) = (lib.standardNormal (normalGenerator lib g j)).2) ∧
    (SampleFromMultivariateGaussianDistribution lib mean mat resVec g false).2
      = normalGenerator lib g mat.rows ∧
    (∀ i, i < mat.rows →
      (SampleFromMultivariateGaussianDistribution lib mean mat resVec g false).1 i
        = mean i + ∑ j ∈ Finset.range mat.rows, mat.entry i j * normalValue lib g j) ∧
    ((∀ i j, i < mat.rows → j < mat.rows → mat.entry i j = 0) →
      ∀ i, i < mat.rows →
        (SampleFromMultivariateGaussianDistribution lib mean mat resVec g false).1 i = mean i) ∧
    ((∀ i j, i < mat.rows → j < mat.rows → mat.entry i j = if i = j then 1 else 0) →
      ∀ i, i < mat.rows →
        (SampleFromMultivariateGaussianDistribution lib mean mat resVec g false).1 i
          = mean i + normalValue lib g i) := by
  have hrun : ∀ i, i < mat.rows →
      (SampleFromMultivariateGaussianDistribution lib mean mat resVec g false).1 i
        = mean i + ∑ j ∈ Finset.range mat.rows, mat.entry i j * normalValue lib g j := by
    intro i hi
    rw [gaussian_run_eq]
    simp only [hi, if_true]
    rfl
  refine ⟨rfl, fun j => ⟨normalValue_eq lib g j, normalGenerator_succ lib g j⟩, ?_, hrun, ?_, ?_⟩
  · rw [gaussian_run_eq]
  · intro hz i hi
    rw [hrun i hi]
    have : ∑ j ∈ Finset.range mat.rows, mat.entry i j * normalValue lib g j = 0 := by
      apply Finset.sum_eq_zero
      intro j hj
      rw [hz i j hi (Finset.mem_range.1 hj), zero_mul]
    rw [this, add_zero]
  · intro hid i hi
    rw [hrun i hi]
    congr 1
    have : ∑ j ∈ Finset.range mat.rows, mat.entry i j * normalValue lib g j
        = ∑ j ∈ Finset.range mat.rows, if i = j then normalValue lib g j else 0 := by
      apply Finset.sum_congr rfl
      intro j hj
      rw [hid i j hi (Finset.mem_range.1 hj)]
      by_cases hij : i = j
      · simp [hij]
      · simp [hij]
    rw [this, Finset.sum_ite_eq]
    simp [hi]

/-- C16 on the 2 x 2 identity matrix, the mean `(5, 7)` and normal values `z_0 = z_1 = 3`:
the result is `(5 + z_0, 7 + z_1)`. -/
theorem C16_gaussian_linear_witness :
    (SampleFromMultivariateGaussianDistribution NumericLib.unit (fun i => if i = 0 then 5 else 7)
        ⟨2, fun i j => if i = j then 1 else 0⟩ (fun _ => 0) (Generator.const 3) false).1 0
      = (if (0 : ℕ) = 0 then (5 : ℝ) else 7) + normalValue NumericLib.unit (Generator.const 3) 0 ∧
    (SampleFromMultivariateGaussianDistribution NumericLib.unit (fun i => if i = 0 then 5 else 7)
        ⟨2, fun i j => if i = j then 1 else 0⟩ (fun _ => 0) (Generator.const 3) false).1 1
      = (if (1 : ℕ) = 0 then (5 : ℝ) else 7) + normalValue NumericLib.unit (Generator.const 3) 1 ∧
    normalValue NumericLib.unit (Generator.const 3) 0 = 3 ∧
    normalValue NumericLib.unit (Generator.const 3) 1 = 3 := by
  have h := (C16_gaussian_linear NumericLib.unit (fun i => if i = 0 then 5 else 7)
      ⟨2, fun i j => if i = j then 1 else 0⟩ (fun _ => 0) (Generator.const 3)).2.2.2.2.2
    (fun _ _ _ _ => rfl)
  refine ⟨h 0 (by decide), h 1 (by decide), ?_, ?_⟩
  · rw [normalValue_eq]
    rfl
  · rw [normalValue_eq]
    rfl

/-! ## The covariance mode of the multivariate Gaussian sampler -/

theorem sqrtLoop_eq (n : ℕ) (ev : VecN) :
    forLoop (fun i (ev : VecN) => Function.update ev i (Real.sqrt (ev i))) n ev
      = fun i => if i < n then Real.sqrt (ev i) else ev i := by
  induction n with
  | zero => simp [forLoop]
  | succ k ih =>
    rw [forLoop, ih]
    funext i
    by_cases hik : i = k
    · subst hik
      simp [Function.update_same]
    · rw [Function.update_noteq hik]
      by_cases hlt : i < k
      · have : i < k + 1 := by omega
        simp [hlt, this]
      · have : ¬ i < k + 1 := by omega
        simp [hlt, this]

/-- In covariance mode `stdMatrix` is recomposed from the square roots of the eigenvalues
and from the eigenvectors. -/
theorem gaussianStdMatrix_cov (lib : NumericLib) (mat : VnlMatrix) (i j : ℕ) :
    gaussianStdMatrix lib mat true i j
      = ∑ k ∈ Finset.range mat.rows,
          Real.sqrt ((lib.ComputeEigenValuesAndVectors mat).1 k)
            * (lib.ComputeEigenValuesAndVectors mat).2 k i
            * (lib.ComputeEigenValuesAndVectors mat).2 k j := by
  unfold gaussianStdMatrix
  simp only [if_true, sqrtLoop_eq, RecomposeTensor]
  apply Finset.sum_congr rfl
  intro k hk
  rw [if_pos (Finset.mem_range.1 hk)]

/-- For orthonormal rows `V k`, the matrix `sum_k s_k V_k^T V_k` times its transpose is
`sum_k s_k^2 V_k^T V_k`. -/
theorem recompose_mul_transpose (n : ℕ) (s : VecN) (V : ℕ → ℕ → ℝ)
    (hrow : ∀ k l, k < n → l < n →
      ∑ i ∈ Finset.range n, V k i * V l i = if k = l then 1 else 0) (i j : ℕ) :
    ∑ l ∈ Finset.range n, (∑ k ∈ Finset.range n, s k * V k i * V k l)
        * (∑ k ∈ Finset.range n, s k * V k j * V k l)
      = ∑ k ∈ Finset.range n, s k * s k * V k i * V k j := by
  have h1 : ∀ l, (∑ k ∈ Finset.range n, s k * V k i * V k l)
        * (∑ k ∈ Finset.range n, s k * V k j * V k l)
      = ∑ k ∈ Finset.range n, ∑ k' ∈ Finset.range n,
          (s k * V k i * (s k' * V k' j)) * (V k l * V k' l) := by
    intro l
    rw [Finset.sum_mul_sum]
    apply Finset.sum_congr rfl
    intro k _
    apply Finset.sum_congr rfl
    intro k' _
    ring
  simp only [h1]
  rw [Finset.sum_comm]
  apply Finset.sum_congr rfl
  intro k hk
  rw [Finset.sum_comm]
  have h2 : ∀ k', k' ∈ Finset.range n →
      ∑ l ∈ Finset.range n, s k * V k i * (s k' * V k' j) * (V k l * V k' l)
        = if k = k' then s k * V k i * (s k' * V k' j) else 0 := by
    intro k' hk'
    rw [← Finset.mul_sum, hrow k k' (Finset.mem_range.1 hk) (Finset.mem_range.1 hk')]
    by_cases hkk : k = k'
    · simp [hkk]
    · simp [hkk]
  rw [Finset.sum_congr rfl h2, Finset.sum_ite_eq, if_pos hk]
  ring

/-- An orthonormal eigendecomposition of the identity matrix has unit eigenvalues. -/
theorem eigenvalues_of_identity (n : ℕ) (L : VecN) (V : ℕ → ℕ → ℝ)
    (hrow : ∀ k l, k < n → l < n →
      ∑ i ∈ Finset.range n, V k i * V l i = if k = l then 1 else 0)
    (hC : ∀ i j, i < n → j < n →
      (if i = j then (1 : ℝ) else 0) = ∑ k ∈ Finset.range n, L k * V k i * V k j)
    (k0 : ℕ) (hk0 : k0 < n) : L k0 = 1 := by
  have hA : ∑ i ∈ Finset.range n, ∑ j ∈ Finset.range n,
      V k0 i * V k0 j * (if i = j then (1 : ℝ) else 0) = 1 := by
    have : ∀ i, i ∈ Finset.range n → ∑ j ∈ Finset.range n,
        V k0 i * V k0 j * (if i = j then (1 : ℝ) else 0) = V k0 i * V k0 i := by
      intro i hi
      have h3 : ∀ j, j ∈ Finset.range n → V k0 i * V k0 j * (if i = j then (1 : ℝ) else 0)
          = if i = j then V k0 i * V k0 j else 0 := by
        intro j _
        by_cases hij : i = j
        · simp [hij]
        · simp [hij]
      rw [Finset.sum_congr rfl h3, Finset.sum_ite_eq, if_pos hi]
    rw [Finset.sum_congr rfl this, hrow k0 k0 hk0 hk0, if_pos rfl]
  have hB : ∑ i ∈ Finset.range n, ∑ j ∈ Finset.range n,
      V k0 i * V k0 j * (if i = j then (1 : ℝ) else 0) = L k0 := by
    have h4 : ∀ i, i ∈ Finset.range n → ∀ j, j ∈ Finset.range n →
        V k0 i * V k0 j * (if i = j then (1 : ℝ) else 0)
          = ∑ k ∈ Finset.range n, L k * (V k0 i * V k i) * (V k0 j * V k j) := by
      intro i hi j hj
      rw [hC i j (Finset.mem_range.1 hi) (Finset.mem_range.1 hj), Finset.mul_sum]
      apply Finset.sum_congr rfl
      intro k _
      ring
    rw [Finset.sum_congr rfl (fun i hi => Finset.sum_congr rfl (h4 i hi))]
    have h5 : ∀ i, ∑ j ∈ Finset.range n, ∑ k ∈ Finset.range n,
          L k * (V k0 i * V k i) * (V k0 j * V k j)
        = ∑ k ∈ Finset.range n, L k * (V k0 i * V k i)
            * (∑ j ∈ Finset.range n, V k0 j * V k j) := by
      intro i
      rw [Finset.sum_comm]
      apply Finset.sum_congr rfl
      intro k _
      rw [Finset.mul_sum]
    simp only [h5]
    rw [Finset.sum_comm]
    have h6 : ∀ k, k ∈ Finset.range n →
        ∑ i ∈ Finset.range n, L k * (V k0 i * V k i) * (∑ j ∈ Finset.range n, V k0 j * V k j)
          = if k0 = k then L k else 0 := by
      intro k hk
      rw [← Finset.sum_mul, ← Finset.mul_sum, hrow k0 k hk0 (Finset.mem_range.1 hk)]
      by_cases hkk : k0 = k
      · simp [hkk]
      · simp [hkk]
    rw [Finset.sum_congr rfl h6, Finset.sum_ite_eq, if_pos (Finset.mem_range.2 hk0)]
  rw [← hB, hA]

/-! ## C17: the covariance mode -/

/-- The covariance of `mean + M z` when the normal values have zero mean and identity
second moments: `E[out_i] = mean_i` and
`E[(out_i - mean_i)(out_j - mean_j)] = sum_l M(i,l) M(j,l)`. -/
theorem gaussian_moments {Ω : Type} [MeasurableSpace Ω] (μ : MeasureTheory.Measure Ω)
    [MeasureTheory.IsProbabilityMeasure μ] (n : ℕ) (mean : VecN) (M : ℕ → ℕ → ℝ)
    (z : ℕ → Ω → ℝ)
    (hz : ∀ k, k < n → MeasureTheory.Integrable (z k) μ ∧ ∫ ω, z k ω ∂μ = 0)
    (hzz : ∀ k l, k < n → l < n → MeasureTheory.Integrable (fun ω => z k ω * z l ω) μ ∧
      ∫ ω, z k ω * z l ω ∂μ = if k = l then 1 else 0) (i j : ℕ) :
    ∫ ω, (mean i + ∑ k ∈ Finset.range n, M i k * z k ω) ∂μ = mean i ∧
    ∫ ω, ((mean i + ∑ k ∈ Finset.range n, M i k * z k ω) - mean i)
        * ((mean j + ∑ k ∈ Finset.range n, M j k * z k ω) - mean j) ∂μ
      = ∑ l ∈ Finset.range n, M i l * M j l := by
  constructor
  · have hint : MeasureTheory.Integrable (fun ω => ∑ k ∈ Finset.range n, M i k * z k ω) μ :=
      MeasureTheory.integrable_finset_sum _
        (fun k hk => (hz k (Finset.mem_range.1 hk)).1.const_mul (M i k))
    rw [MeasureTheory.integral_add (MeasureTheory.integrable_const _) hint,
      MeasureTheory.integral_finset_sum _
        (fun k hk => (hz k (Finset.mem_range.1 hk)).1.const_mul (M i k))]
    have : ∀ k, k ∈ Finset.range n → ∫ ω, M i k * z k ω ∂μ = 0 := by
      intro k hk
      rw [MeasureTheory.integral_mul_left, (hz k (Finset.mem_range.1 hk)).2, mul_zero]
    rw [Finset.sum_congr rfl this]
    simp
  · have hprod : ∀ ω, ((mean i + ∑ k ∈ Finset.range n, M i k * z k ω) - mean i)
          * ((mean j + ∑ k ∈ Finset.range n, M j k * z k ω) - mean j)
        = ∑ k ∈ Finset.range n, ∑ l ∈ Finset.range n, (M i k * M j l) * (z k ω * z l ω) := by
      intro ω
      rw [add_sub_cancel_left, add_sub_cancel_left, Finset.sum_mul_sum]
      apply Finset.sum_congr rfl
      intro k _
      apply Finset.sum_congr rfl
      intro l _
      ring
    simp only [hprod]
    have hint2 : ∀ k, k ∈ Finset.range n → ∀ l, l ∈ Finset.range n →
        MeasureTheory.Integrable (fun ω => (M i k * M j l) * (z k ω * z l ω)) μ :=
      fun k hk l hl =>
        (hzz k l (Finset.mem_range.1 hk) (Finset.mem_range.1 hl)).1.const_mul _
    rw [MeasureTheory.integral_finset_sum _
      (fun k hk => MeasureTheory.integrable_finset_sum _ (hint2 k hk))]
    apply Finset.sum_congr rfl
    intro k hk
    rw [MeasureTheory.integral_finset_sum _ (hint2 k hk)]
    have : ∀ l, l ∈ Finset.range n → ∫ ω, (M i k * M j l) * (z k ω * z l ω) ∂μ
        = if k = l then M i k * M j l else 0 := by
      intro l hl
      rw [MeasureTheory.integral_mul_left,
        (hzz k l (Finset.mem_range.1 hk) (Finset.mem_range.1 hl)).2]
      by_cases hkl : k = l
      · simp [hkl]
      · simp [hkl]
    rw [Finset.sum_congr rfl this, Finset.sum_ite_eq, if_pos hk]

/-- C17: in covariance mode, when the eigen-analysis returns an orthonormal
eigendecomposition of the matrix `C` with eigenvalues `>= 0` (`C` symmetric positive
semi-definite), the matrix `M` applied to the normal draws is recomposed from the square
roots of the eigenvalues, is symmetric and satisfies `M M^T = C`; the output is
`mean + M z`, whose mean is `mean` and whose covariance is `C` when the normal values have
zero mean and identity second moments; for `C` the identity, `M` is the identity and,
with a zero mean, the output is `z`. -/
theorem C17_gaussian_covariance (lib : NumericLib) (mean : VecN) (mat : VnlMatrix)
    (resVec : VecN)
    (hpsd : ∀ k, k < mat.rows → 0 ≤ (lib.ComputeEigenValuesAndVectors mat).1 k)
    (hrow : ∀ k l, k < mat.rows → l < mat.rows →
      ∑ i ∈ Finset.range mat.rows, (lib.ComputeEigenValuesAndVectors mat).2 k i
        * (lib.ComputeEigenValuesAndVectors mat).2 l i = if k = l then 1 else 0)
    (hcol : ∀ i j, i < mat.rows → j < mat.rows →
      ∑ k ∈ Finset.range mat.rows, (lib.ComputeEigenValuesAndVectors mat).2 k i
        * (lib.ComputeEigenValuesAndVectors mat).2 k j = if i = j then 1 else 0)
    (hC : ∀ i j, i < mat.rows → j < mat.rows →
      mat.entry i j = ∑ k ∈ Finset.range mat.rows, (lib.ComputeEigenValuesAndVectors mat).1 k
        * (lib.ComputeEigenValuesAndVectors mat).2 k i
        * (lib.ComputeEigenValuesAndVectors mat).2 k j) :
    (∀ i j, gaussianStdMatrix lib mat true i j
      = ∑ k ∈ Finset.range mat.rows, Real.sqrt ((lib.ComputeEigenValuesAndVectors mat).1 k)
          * (lib.ComputeEigenValuesAndVectors mat).2 k i
          * (lib.ComputeEigenValuesAndVectors mat).2 k j) ∧
    (∀ i j, gaussianStdMatrix lib mat true i j = gaussianStdMatrix lib mat true j i) ∧
    (∀ i j, i < mat.rows → j < mat.rows →
      ∑ l ∈ Finset.range mat.rows,
        gaussianStdMatrix lib mat true i l * gaussianStdMatrix lib mat true j l
        = mat.entry i j) ∧
    (∀ g i, i < mat.rows →
      (SampleFromMultivariateGaussianDistribution lib mean mat resVec g true).1 i
        = mean i + ∑ j ∈ Finset.range mat.rows,
            gaussianStdMatrix lib mat true i j * normalValue lib g j) ∧
    (∀ (Ω : Type) [MeasurableSpace Ω] (μ : MeasureTheory.Measure Ω)
      [MeasureTheory.IsProbabilityMeasure μ] (G : Ω → Generator),
      (∀ k, k < mat.rows → MeasureTheory.Integrable (fun ω => normalValue lib (G ω) k) μ ∧
        ∫ ω, normalValue lib (G ω) k ∂μ = 0) →
      (∀ k l, k < mat.rows → l < mat.rows →
        MeasureTheory.Integrable
          (fun ω => normalValue lib (G ω) k * normalValue lib (G ω) l) μ ∧
        ∫ ω, normalValue lib (G ω) k * normalValue lib (G ω) l ∂μ = if k = l then 1 else 0) →
      ∀ i j, i < mat.rows → j < mat.rows →
        ∫ ω, (SampleFromMultivariateGaussianDistribution lib mean mat resVec (G ω) true).1 i ∂μ
          = mean i ∧
        ∫ ω, ((SampleFromMultivariateGaussianDistribution lib mean mat resVec (G ω) true).1 i
              - mean i)
            * ((SampleFromMultivariateGaussianDistribution lib mean mat resVec (G ω) true).1 j
              - mean j) ∂μ
          = mat.entry i j) ∧
    ((∀ i j, i < mat.rows → j < mat.rows → mat.entry i j = if i = j then 1 else 0) →
      (∀ i j, i < mat.rows → j < mat.rows →
        gaussianStdMatrix lib mat true i j = if i = j then 1 else 0) ∧
      ((∀ i, i < mat.rows → mean i = 0) → ∀ g i, i < mat.rows →
        (SampleFromMultivariateGaussianDistribution lib mean mat resVec g true).1 i
          = normalValue lib g i)) := by
  have hM := gaussianStdMatrix_cov lib mat
  have hout : ∀ g i, i < mat.rows →
      (SampleFromMultivariateGaussianDistribution lib mean mat resVec g true).1 i
        = mean i + ∑ j ∈ Finset.range mat.rows,
            gaussianStdMatrix lib mat true i j * normalValue lib g j := by
    intro g i hi
    rw [gaussian_run_eq]
    simp only [hi, if_true]
  have hMMt : ∀ i j, i < mat.rows → j < mat.rows →
      ∑ l ∈ Finset.range mat.rows,
        gaussianStdMatrix lib mat true i l * gaussianStdMatrix lib mat true j l
        = mat.entry i j := by
    intro i j hi hj
    simp only [hM]
    rw [recompose_mul_transpose mat.rows _ _ hrow i j, hC i j hi hj]
    apply Finset.sum_congr rfl
    intro k hk
    rw [Real.mul_self_sqrt (hpsd k (Finset.mem_range.1 hk))]
  refine ⟨hM, ?_, hMMt, hout, ?_, ?_⟩
  · intro i j
    rw [hM, hM]
    apply Finset.sum_congr rfl
    intro k _
    ring
  · intro Ω _ μ _ G hz hzz i j hi hj
    have hmom := gaussian_moments μ mat.rows mean (gaussianStdMatrix lib mat true)
      (fun k ω => normalValue lib (G ω) k) hz hzz i j
    have e1 : ∀ ω, (SampleFromMultivariateGaussianDistribution lib mean mat resVec (G ω) true).1 i
        = mean i + ∑ k ∈ Finset.range mat.rows,
            gaussianStdMatrix lib mat true i k * normalValue lib (G ω) k :=
      fun ω => hout (G ω) i hi
    have e2 : ∀ ω, (SampleFromMultivariateGaussianDistribution lib mean mat resVec (G ω) true).1 j
        = mean j + ∑ k ∈ Finset.range mat.rows,
            gaussianStdMatrix lib mat true j k * normalValue lib (G ω) k :=
      fun ω => hout (G ω) j hj
    simp only [e1, e2]
    exact ⟨hmom.1, by rw [hmom.2, hMMt i j hi hj]⟩
  · intro hid
    have hL : ∀ k, k < mat.rows → (lib.ComputeEigenValuesAndVectors mat).1 k = 1 := by
      intro k hk
      apply eigenvalues_of_identity mat.rows _ _ hrow _ k hk
      intro i j hi hj
      rw [← hid i j hi hj, hC i j hi hj]
    have hMid : ∀ i j, i < mat.rows → j < mat.rows →
        gaussianStdMatrix lib mat true i j = if i = j then 1 else 0 := by
      intro i j hi hj
      rw [hM, ← hcol i j hi hj]
      apply Finset.sum_congr rfl
      intro k hk
      rw [hL k (Finset.mem_range.1 hk), Real.sqrt_one, one_mul]
    refine ⟨hMid, ?_⟩
    intro hmean g i hi
    rw [hout g i hi, hmean i hi, zero_add]
    have : ∑ j ∈ Finset.range mat.rows, gaussianStdMatrix lib mat true i j * normalValue lib g j
        = ∑ j ∈ Finset.range mat.rows, if i = j then normalValue lib g j else 0 := by
      apply Finset.sum_congr rfl
      intro j hj
      rw [hMid i j hi (Finset.mem_range.1 hj)]
      by_cases hij : i = j
      · simp [hij]
      · simp [hij]
    rw [this, Finset.sum_ite_eq]
    simp [hi]

theorem unit_orthonormal (k l : ℕ) (hk : k < 1) (hl : l < 1) :
    ∑ i ∈ Finset.range (identityMatrix 1).rows,
      (NumericLib.unit.ComputeEigenValuesAndVectors (identityMatrix 1)).2 k i
        * (NumericLib.unit.ComputeEigenValuesAndVectors (identityMatrix 1)).2 l i
      = if k = l then 1 else 0 := by
  have h0 : k = 0 := by omega
  have h1 : l = 0 := by omega
  subst h0 h1
  simp [identityMatrix, NumericLib.unit]

theorem unit_orthonormal_columns (i j : ℕ) (hi : i < 1) (hj : j < 1) :
    ∑ k ∈ Finset.range (identityMatrix 1).rows,
      (NumericLib.unit.ComputeEigenValuesAndVectors (identityMatrix 1)).2 k i
        * (NumericLib.unit.ComputeEigenValuesAndVectors (identityMatrix 1)).2 k j
      = if i = j then 1 else 0 := by
  have h0 : i = 0 := by omega
  have h1 : j = 0 := by omega
  subst h0 h1
  simp [identityMatrix, NumericLib.unit]

theorem unit_decomposition (i j : ℕ) (hi : i < 1) (hj : j < 1) :
    (identityMatrix 1).entry i j
      = ∑ k ∈ Finset.range (identityMatrix 1).rows,
          (NumericLib.unit.ComputeEigenValuesAndVectors (identityMatrix 1)).1 k
            * (NumericLib.unit.ComputeEigenValuesAndVectors (identityMatrix 1)).2 k i
            * (NumericLib.unit.ComputeEigenValuesAndVectors (identityMatrix 1)).2 k j := by
  have h0 : i = 0 := by omega
  have h1 : j = 0 := by omega
  subst h0 h1
  simp [identityMatrix, NumericLib.unit]

theorem sign_normalValue (b : Bool) :
    normalValue NumericLib.unit (signGenerator b) 0 = if b then 1 else -1 := by
  rw [normalValue_eq]
  rfl

theorem sign_first_moment :
    ∫ b, normalValue NumericLib.unit (signGenerator b) 0
      ∂(PMF.uniformOfFintype Bool).toMeasure = 0 := by
  simp only [sign_normalValue]
  rw [PMF.integral_eq_sum]
  simp [PMF.uniformOfFintype_apply]

theorem sign_second_moment :
    ∫ b, normalValue NumericLib.unit (signGenerator b) 0
        * normalValue NumericLib.unit (signGenerator b) 0
      ∂(PMF.uniformOfFintype Bool).toMeasure = 1 := by
  simp only [sign_normalValue]
  rw [PMF.integral_eq_sum]
  simp [PMF.uniformOfFintype_apply]
  norm_num

/-- C17 on the 1 x 1 identity covariance with zero mean, the eigen-analysis returning the
unit eigenvalue and eigenvector, and a normal value `+1` or `-1` with equal
probabilities. -/
theorem C17_gaussian_covariance_witness :
    (∑ l ∈ Finset.range (identityMatrix 1).rows,
        gaussianStdMatrix NumericLib.unit (identityMatrix 1) true 0 l
          * gaussianStdMatrix NumericLib.unit (identityMatrix 1) true 0 l
      = (identityMatrix 1).entry 0 0) ∧
    (SampleFromMultivariateGaussianDistribution NumericLib.unit (fun _ => 0) (identityMatrix 1)
        (fun _ => 0) (Generator.const 3) true).1 0
      = normalValue NumericLib.unit (Generator.const 3) 0 ∧
    (∫ b, (SampleFromMultivariateGaussianDistribution NumericLib.unit (fun _ => 0)
          (identityMatrix 1) (fun _ => 0) (signGenerator b) true).1 0
        ∂(PMF.uniformOfFintype Bool).toMeasure = (fun _ => (0 : ℝ)) 0 ∧
      ∫ b, ((SampleFromMultivariateGaussianDistribution NumericLib.unit (fun _ => 0)
            (identityMatrix 1) (fun _ => 0) (signGenerator b) true).1 0 - (fun _ => (0 : ℝ)) 0)
          * ((SampleFromMultivariateGaussianDistribution NumericLib.unit (fun _ => 0)
            (identityMatrix 1) (fun _ => 0) (signGenerator b) true).1 0 - (fun _ => (0 : ℝ)) 0)
        ∂(PMF.uniformOfFintype Bool).toMeasure = (identityMatrix 1).entry 0 0) := by
  have h := C17_gaussian_covariance NumericLib.unit (fun _ => 0) (identityMatrix 1) (fun _ => 0)
    (fun _ _ => zero_le_one) unit_orthonormal unit_orthonormal_columns unit_decomposition
  refine ⟨h.2.2.1 0 0 (by decide) (by decide),
    (h.2.2.2.2.2 (fun _ _ _ _ => rfl)).2 (fun _ _ => rfl) (Generator.const 3) 0 (by decide), ?_⟩
  refine h.2.2.2.2.1 Bool (PMF.uniformOfFintype Bool).toMeasure signGenerator ?_ ?_ 0 0
    (by decide) (by decide)
  · intro k hk
    have h0 : k = 0 := by
      have : k < 1 := hk
      omega
    subst h0
    exact ⟨MeasureTheory.Integrable.of_finite, sign_first_moment⟩
  · intro k l hk hl
    have h0 : k = 0 := by
      have : k < 1 := hk
      omega
    have h1 : l = 0 := by
      have : l < 1 := hl
      omega
    subst h0 h1
    exact ⟨MeasureTheory.Integrable.of_finite, by rw [sign_second_moment]; simp⟩

/-! ## Determinism: runs from the same state of the generator -/

theorem SameDraws.refl (g : Generator) : g.SameDraws g := fun _ => rfl

theorem SameDraws.symm {g1 g2 : Generator} (h : g1.SameDraws g2) : g2.SameDraws g1 :=
  fun k => (h k).symm

theorem uniform_same (a b : ℝ) (g1 g2 : Generator) (h : g1.SameDraws g2) :
    (SampleFromUniformDistribution a b g1).1 = (SampleFromUniformDistribution a b g2).1 ∧
      (SampleFromUniformDistribution a b g1).2.SameDraws
        (SampleFromUniformDistribution a b g2).2 := by
  constructor
  · have := h 0
    simp only [Nat.add_zero] at this
    simp only [SampleFromUniformDistribution, this]
  · intro k
    have := h (1 + k)
    simp only [SampleFromUniformDistribution]
    rw [Nat.add_assoc, Nat.add_assoc]
    exact this

/-- Two loops started on related states, whose conditions agree and whose bodies keep
the relation, end on related states or both reach the bound. -/
theorem whileLoop_rel {σ : Type} (R : σ → σ → Prop) (cond : σ → Prop) [DecidablePred cond]
    (body : σ → σ) (hc : ∀ s1 s2, R s1 s2 → (cond s1 ↔ cond s2))
    (hb : ∀ s1 s2, R s1 s2 → R (body s1) (body s2)) :
    ∀ (fuel : ℕ) (s1 s2 : σ), R s1 s2 →
      optionRel R (whileLoop cond body fuel s1) (whileLoop cond body fuel s2) := by
  intro fuel
  induction fuel with
  | zero =>
    intro s1 s2 h
    unfold whileLoop
    by_cases h1 : cond s1
    · have h2 : cond s2 := (hc s1 s2 h).1 h1
      simp only [h1, h2, if_true]
      trivial
    · have h2 : ¬ cond s2 := fun hh => h1 ((hc s1 s2 h).2 hh)
      simp only [h1, h2, if_false]
      exact h
  | succ k ih =>
    intro s1 s2 h
    unfold whileLoop
    by_cases h1 : cond s1
    · have h2 : cond s2 := (hc s1 s2 h).1 h1
      simp only [h1, h2, if_true]
      exact ih _ _ (hb s1 s2 h)
    · have h2 : ¬ cond s2 := fun hh => h1 ((hc s1 s2 h).2 hh)
      simp only [h1, h2, if_false]
      exact h

theorem sphere_same (fuel : ℕ) (g1 g2 : Generator) (r : Vec3) (h : g1.SameDraws g2) :
    SameOutcome (SampleFromUniformDistributionOn2Sphere fuel g1 r)
      (SampleFromUniformDistributionOn2Sphere fuel g2 r) := by
  have hrel := whileLoop_rel
    (fun s1 s2 : SphereState => s1.resVec = s2.resVec ∧ s1.sqSum = s2.sqSum ∧
      s1.generator.SameDraws s2.generator)
    (fun st : SphereState => st.sqSum > 1) sphereBody
    (fun s1 s2 hs => by simp only [hs.2.1])
    (fun s1 s2 hs => by
      have d0 := uniform_same (-1) 1 _ _ hs.2.2
      have d1 := uniform_same (-1) 1 _ _ d0.2
      simp only [sphereBody, d0.1, d1.1, hs.1]
      exact ⟨trivial, trivial, d1.2⟩)
    fuel ⟨r, 2, g1⟩ ⟨r, 2, g2⟩ ⟨rfl, rfl, h⟩
  unfold SameOutcome SampleFromUniformDistributionOn2Sphere
  cases h1 : whileLoop (fun st : SphereState => st.sqSum > 1) sphereBody fuel ⟨r, 2, g1⟩ <;>
    cases h2 : whileLoop (fun st : SphereState => st.sqSum > 1) sphereBody fuel ⟨r, 2, g2⟩ <;>
    rw [h1, h2] at hrel <;> simp only [optionRel] at hrel ⊢
  · exact ⟨by rw [hrel.1, hrel.2.1], hrel.2.2⟩

theorem vmfLoop_same (fuel : ℕ) (kappa : ℝ) (g1 g2 : Generator) (h : g1.SameDraws g2) :
    SameOutcome (vmfRejectionLoop fuel kappa g1) (vmfRejectionLoop fuel kappa g2) := by
  have hrel := whileLoop_rel
    (fun s1 s2 : VMFState => s1.T = s2.T ∧ s1.U = s2.U ∧ s1.W = s2.W ∧
      s1.generator.SameDraws s2.generator)
    (vmfCond kappa) (vmfBody kappa)
    (fun s1 s2 hs => by simp only [vmfCond, hs.1, hs.2.1])
    (fun s1 s2 hs => by
      have d0 := uniform_same 0 1 _ _ hs.2.2.2
      have d1 := uniform_same 0 1 _ _ d0.2
      simp only [vmfBody, d0.1, d1.1]
      exact ⟨trivial, trivial, trivial, d1.2⟩)
    fuel ⟨1, Real.exp (vmfD kappa), 0, g1⟩ ⟨1, Real.exp (vmfD kappa), 0, g2⟩ ⟨rfl, rfl, rfl, h⟩
  unfold SameOutcome vmfRejectionLoop
  cases h1 : whileLoop (vmfCond kappa) (vmfBody kappa) fuel ⟨1, Real.exp (vmfD kappa), 0, g1⟩ <;>
    cases h2 : whileLoop (vmfCond kappa) (vmfBody kappa) fuel
      ⟨1, Real.exp (vmfD kappa), 0, g2⟩ <;>
    rw [h1, h2] at hrel <;> simp only [optionRel] at hrel ⊢
  · exact ⟨hrel.2.2.1, hrel.2.2.2⟩

theorem bipolar_same (fuel : ℕ) (kappa : ℝ) (g1 g2 : Generator) (h : g1.SameDraws g2) :
    SameOutcome (watsonBipolar fuel kappa g1) (watsonBipolar fuel kappa g2) := by
  have d0 := uniform_same 0 1 _ _ h
  have d1 := uniform_same 0 1 _ _ d0.2
  unfold SameOutcome watsonBipolar
  simp only [d0.1, d1.1]
  by_cases hV : (SampleFromUniformDistribution 0 1 (SampleFromUniformDistribution 0 1 g2).2).1
      > 1.0e-6
  · simp only [hV, if_true]
    have hrel := whileLoop_rel
      (fun s1 s2 : BipolarState => s1.U = s2.U ∧ s1.S = s2.S ∧ s1.V = s2.V ∧
        s1.broke = s2.broke ∧ s1.generator.SameDraws s2.generator)
      (bipolarCond kappa) (bipolarBody kappa)
      (fun s1 s2 hs => by simp only [bipolarCond, hs.2.1, hs.2.2.1, hs.2.2.2.1])
      (fun s1 s2 hs => by
        have e0 := uniform_same 0 1 _ _ hs.2.2.2.2
        have e1 := uniform_same 0 1 _ _ e0.2
        simp only [bipolarBody, e0.1, e1.1]
        exact ⟨trivial, trivial, trivial, trivial, e1.2⟩)
      fuel
      ⟨(SampleFromUniformDistribution 0 1 g2).1,
        bipolarS kappa (SampleFromUniformDistribution 0 1 g2).1,
        (SampleFromUniformDistribution 0 1 (SampleFromUniformDistribution 0 1 g2).2).1, false,
        (SampleFromUniformDistribution 0 1 (SampleFromUniformDistribution 0 1 g1).2).2⟩
      ⟨(SampleFromUniformDistribution 0 1 g2).1,
        bipolarS kappa (SampleFromUniformDistribution 0 1 g2).1,
        (SampleFromUniformDistribution 0 1 (SampleFromUniformDistribution 0 1 g2).2).1, false,
        (SampleFromUniformDistribution 0 1 (SampleFromUniformDistribution 0 1 g2).2).2⟩
      ⟨rfl, rfl, rfl, rfl, d1.2⟩
    revert hrel
    generalize whileLoop (bipolarCond kappa) (bipolarBody kappa) fuel _ = o1
    generalize whileLoop (bipolarCond kappa) (bipolarBody kappa) fuel _ = o2
    intro hrel
    cases o1 <;> cases o2 <;> simp only [optionRel] at hrel ⊢
    · exact ⟨hrel.2.1, hrel.2.2.2.2⟩
  · simp only [hV, if_false, optionRel]
    exact ⟨trivial, d1.2⟩

theorem girdle_same (fuel : ℕ) (kappa : ℝ) (g1 g2 : Generator) (h : g1.SameDraws g2) :
    SameOutcome (watsonGirdle fuel kappa g1) (watsonGirdle fuel kappa g2) := by
  have hdraw : ∀ a b : Generator, a.SameDraws b →
      (girdleDraw kappa a).U = (girdleDraw kappa b).U ∧
      (girdleDraw kappa a).V = (girdleDraw kappa b).V ∧
      (girdleDraw kappa a).S = (girdleDraw kappa b).S ∧
      (girdleDraw kappa a).T = (girdleDraw kappa b).T ∧
      (girdleDraw kappa a).generator.SameDraws (girdleDraw kappa b).generator := by
    intro a b hab
    have e0 := uniform_same 0 1 _ _ hab
    have e1 := uniform_same 0 1 _ _ e0.2
    simp only [girdleDraw, e0.1, e1.1]
    exact ⟨trivial, trivial, trivial, trivial, e1.2⟩
  have hrel := whileLoop_rel
    (fun s1 s2 : GirdleState => s1.U = s2.U ∧ s1.V = s2.V ∧ s1.S = s2.S ∧ s1.T = s2.T ∧
      s1.generator.SameDraws s2.generator)
    girdleCond (fun st => girdleDraw kappa st.generator)
    (fun s1 s2 hs => by simp only [girdleCond, hs.2.1, hs.2.2.2.1])
    (fun s1 s2 hs => hdraw _ _ hs.2.2.2.2)
    fuel (girdleDraw kappa g1) (girdleDraw kappa g2) (hdraw g1 g2 h)
  unfold SameOutcome watsonGirdle
  revert hrel
  generalize whileLoop girdleCond (fun st => girdleDraw kappa st.generator) fuel
    (girdleDraw kappa g1) = o1
  generalize whileLoop girdleCond (fun st => girdleDraw kappa st.generator) fuel
    (girdleDraw kappa g2) = o2
  intro hrel
  cases o1 <;> cases o2 <;> simp only [optionRel] at hrel ⊢
  · exact ⟨hrel.2.2.1, hrel.2.2.2.2⟩

theorem polar_same (fuel : ℕ) (kappa : ℝ) (g1 g2 : Generator) (h : g1.SameDraws g2) :
    SameOutcome (watsonPolarCosine fuel kappa g1) (watsonPolarCosine fuel kappa g2) := by
  unfold watsonPolarCosine
  by_cases h1 : kappa > 1.0e-6
  · simp only [h1, if_true]
    exact bipolar_same fuel kappa g1 g2 h
  · by_cases h2 : kappa < -1.0e-6
    · simp only [h1, h2, if_true, if_false]
      exact girdle_same fuel kappa g1 g2 h
    · simp only [h1, h2, if_false]
      have d := uniform_same 0 Real.pi _ _ h
      simp only [SameOutcome, optionRel, watsonNearZero, d.1]
      exact ⟨trivial, d.2⟩

theorem vmf_same (lib : GeometryLib) (fuel : ℕ) (kappa : ℝ) (m : Vec3) (g1 g2 : Generator)
    (h : g1.SameDraws g2) :
    SameOutcome (SampleFromVMFDistribution lib fuel kappa m g1)
      (SampleFromVMFDistribution lib fuel kappa m g2) := by
  have hloop := vmfLoop_same fuel kappa g1 g2 h
  unfold SampleFromVMFDistribution
  by_cases hc : |TransformCartesianToSphericalCoordinates m 2 - 1.0| > 1.0e-6
  · simp only [hc, if_true, SameOutcome, optionRel]
    exact ⟨trivial, h⟩
  · simp only [hc, if_false]
    revert hloop
    generalize vmfRejectionLoop fuel kappa g1 = o1
    generalize vmfRejectionLoop fuel kappa g2 = o2
    intro hloop
    cases o1 <;> cases o2 <;> simp only [SameOutcome, optionRel] at hloop ⊢
    · have d := uniform_same 0 (2 * Real.pi) _ _ hloop.2
      rw [hloop.1, d.1]
      exact ⟨rfl, d.2⟩

theorem vmfStable_same (lib : GeometryLib) (kappa : ℝ) (m : Vec3) (g1 g2 : Generator)
    (h : g1.SameDraws g2) :
    (SampleFromVMFDistributionNumericallyStable lib kappa m g1).1
        = (SampleFromVMFDistributionNumericallyStable lib kappa m g2).1 ∧
      (SampleFromVMFDistributionNumericallyStable lib kappa m g1).2.SameDraws
        (SampleFromVMFDistributionNumericallyStable lib kappa m g2).2 := by
  unfold SampleFromVMFDistributionNumericallyStable
  by_cases hc : |TransformCartesianToSphericalCoordinates m 2 - 1.0| > 1.0e-6
  · simp only [hc, if_true]
    exact ⟨trivial, h⟩
  · simp only [hc, if_false]
    have d0 := uniform_same 0 1 _ _ h
    have d1 := uniform_same 0 (2 * Real.pi) _ _ d0.2
    rw [d0.1, d1.1]
    exact ⟨rfl, d1.2⟩

theorem watson_same (lib : GeometryLib) (fuel : ℕ) (kappa : ℝ) (m : Vec3) (g1 g2 : Generator)
    (h : g1.SameDraws g2) :
    SameOutcome (SampleFromWatsonDistribution lib fuel kappa m g1)
      (SampleFromWatsonDistribution lib fuel kappa m g2) := by
  have hloop := polar_same fuel kappa g1 g2 h
  unfold SampleFromWatsonDistribution
  by_cases hc : |TransformCartesianToSphericalCoordinates m 2 - 1.0| > 1.0e-6
  · simp only [hc, if_true, SameOutcome, optionRel]
    exact ⟨trivial, h⟩
  · simp only [hc, if_false]
    revert hloop
    generalize watsonPolarCosine fuel kappa g1 = o1
    generalize watsonPolarCosine fuel kappa g2 = o2
    intro hloop
    cases o1 with
    | none =>
      cases o2 with
      | none => trivial
      | some q => exact absurd hloop (by simp only [SameOutcome, optionRel, not_false_eq_true])
    | some p =>
      cases o2 with
      | none => exact absurd hloop (by simp only [SameOutcome, optionRel, not_false_eq_true])
      | some q =>
        obtain ⟨S1, ga⟩ := p
        obtain ⟨S2, gb⟩ := q
        simp only [SameOutcome, optionRel] at hloop
        obtain ⟨hS, hg⟩ := hloop
        subst hS
        have d := uniform_same 0 (2 * Real.pi) _ _ hg
        simp only [d.1]
        by_cases hn : |ComputeNorm (lib.RotateAroundAxis
            (canonicalPoint S1 (SampleFromUniformDistribution 0 (2 * Real.pi) gb).1)
            (TransformCartesianToSphericalCoordinates m 0)
            (Normalize (ComputeCrossProduct ![0, 0, 1] m))) - 1.0| > 1.0e-4
        · simp only [hn, if_true, SameOutcome, optionRel]
          exact ⟨trivial, d.2⟩
        · simp only [hn, if_false, SameOutcome, optionRel]
          exact ⟨trivial, d.2⟩

theorem normal_same (lib : NumericLib)
    (hlib : ∀ a b : Generator, a.SameDraws b →
      (lib.standardNormal a).1 = (lib.standardNormal b).1 ∧
        (lib.standardNormal a).2.SameDraws (lib.standardNormal b).2)
    (g1 g2 : Generator) (h : g1.SameDraws g2) (j : ℕ) :
    (normalGenerator lib g1 j).SameDraws (normalGenerator lib g2 j) ∧
      normalValue lib g1 j = normalValue lib g2 j := by
  have hg : ∀ j, (normalGenerator lib g1 j).SameDraws (normalGenerator lib g2 j) := by
    intro j
    induction j with
    | zero => exact h
    | succ k ih =>
      rw [normalGenerator_succ, normalGenerator_succ]
      exact (hlib _ _ ih).2
  refine ⟨hg j, ?_⟩
  rw [normalValue_eq, normalValue_eq]
  exact (hlib _ _ (hg j)).1

theorem gaussian_same (lib : NumericLib)
    (hlib : ∀ a b : Generator, a.SameDraws b →
      (lib.standardNormal a).1 = (lib.standardNormal b).1 ∧
        (lib.standardNormal a).2.SameDraws (lib.standardNormal b).2)
    (mean : VecN) (mat : VnlMatrix) (r : VecN) (flag : Bool) (g1 g2 : Generator)
    (h : g1.SameDraws g2) :
    (SampleFromMultivariateGaussianDistribution lib mean mat r g1 flag).1
        = (SampleFromMultivariateGaussianDistribution lib mean mat r g2 flag).1 ∧
      (SampleFromMultivariateGaussianDistribution lib mean mat r g1 flag).2.SameDraws
        (SampleFromMultivariateGaussianDistribution lib mean mat r g2 flag).2 := by
  rw [gaussian_run_eq, gaussian_run_eq]
  refine ⟨?_, (normal_same lib hlib g1 g2 h mat.rows).1⟩
  funext i
  simp only
  by_cases hi : i < mat.rows
  · simp only [hi, if_true]
    congr 1
    apply Finset.sum_congr rfl
    intro j _
    rw [(normal_same lib hlib g1 g2 h j).2]
  · simp only [hi, if_false]

/-! ## C19: determinism -/

/-- C19: each sampler is a function of its inputs and of the state of the generator, that
is of the values the generator hands out from its current position on: two runs with the
same inputs, started on generators in the same state, both reach the bound on the trials,
or return the same output (the same vector, or the same exception) and leave the
generators in the same state. For the Gaussian sampler the normal distribution of the
standard library is assumed to be such a function itself. -/
theorem C19_determinism (g1 g2 : Generator) (h : g1.SameDraws g2) :
    (∀ (fuel : ℕ) (r : Vec3),
      SameOutcome (SampleFromUniformDistributionOn2Sphere fuel g1 r)
        (SampleFromUniformDistributionOn2Sphere fuel g2 r)) ∧
    (∀ (lib : NumericLib) (mean : VecN) (mat : VnlMatrix) (r : VecN) (flag : Bool),
      (∀ a b : Generator, a.SameDraws b →
        (lib.standardNormal a).1 = (lib.standardNormal b).1 ∧
          (lib.standardNormal a).2.SameDraws (lib.standardNormal b).2) →
      (SampleFromMultivariateGaussianDistribution lib mean mat r g1 flag).1
          = (SampleFromMultivariateGaussianDistribution lib mean mat r g2 flag).1 ∧
        (SampleFromMultivariateGaussianDistribution lib mean mat r g1 flag).2.SameDraws
          (SampleFromMultivariateGaussianDistribution lib mean mat r g2 flag).2) ∧
    (∀ (lib : GeometryLib) (fuel : ℕ) (kappa : ℝ) (m : Vec3),
      SameOutcome (SampleFromVMFDistribution lib fuel kappa m g1)
        (SampleFromVMFDistribution lib fuel kappa m g2)) ∧
    (∀ (lib : GeometryLib) (kappa : ℝ) (m : Vec3),
      (SampleFromVMFDistributionNumericallyStable lib kappa m g1).1
          = (SampleFromVMFDistributionNumericallyStable lib kappa m g2).1 ∧
        (SampleFromVMFDistributionNumericallyStable lib kappa m g1).2.SameDraws
          (SampleFromVMFDistributionNumericallyStable lib kappa m g2).2) ∧
    (∀ (lib : GeometryLib) (fuel : ℕ) (kappa : ℝ) (m : Vec3),
      SameOutcome (SampleFromWatsonDistribution lib fuel kappa m g1)
        (SampleFromWatsonDistribution lib fuel kappa m g2)) :=
  ⟨fun fuel r => sphere_same fuel g1 g2 r h,
    fun lib mean mat r flag hlib => gaussian_same lib hlib mean mat r flag g1 g2 h,
    fun lib fuel kappa m => vmf_same lib fuel kappa m g1 g2 h,
    fun lib kappa m => vmfStable_same lib kappa m g1 g2 h,
    fun lib fuel kappa m => watson_same lib fuel kappa m g1 g2 h⟩

theorem unit_normal_same (a b : Generator) (h : a.SameDraws b) :
    (NumericLib.unit.standardNormal a).1 = (NumericLib.unit.standardNormal b).1 ∧
      (NumericLib.unit.standardNormal a).2.SameDraws (NumericLib.unit.standardNormal b).2 :=
  uniform_same 0 1 a b h |>.imp
    (fun h1 => by simpa [SampleFromUniformDistribution, NumericLib.unit] using h1)
    (fun h2 => h2)

/-- C19 on two generators with the same values `1/2` ahead, one fresh and one having
consumed five values: the uniform sampler on the sphere, the Gaussian sampler and the
Watson sampler end alike on both. -/
theorem C19_determinism_witness :
    SameOutcome
        (SampleFromUniformDistributionOn2Sphere 1 (Generator.const (1 / 2)) ![0, 0, 0])
        (SampleFromUniformDistributionOn2Sphere 1 ⟨fun _ => 1 / 2, 5⟩ ![0, 0, 0]) ∧
    (SampleFromMultivariateGaussianDistribution NumericLib.unit (fun _ => 0) (identityMatrix 1)
          (fun _ => 0) (Generator.const (1 / 2)) false).1
        = (SampleFromMultivariateGaussianDistribution NumericLib.unit (fun _ => 0)
          (identityMatrix 1) (fun _ => 0) ⟨fun _ => 1 / 2, 5⟩ false).1 ∧
    SameOutcome
        (SampleFromWatsonDistribution GeometryLib.pole 0 0 ![0, 0, 1] (Generator.const (1 / 2)))
        (SampleFromWatsonDistribution GeometryLib.pole 0 0 ![0, 0, 1] ⟨fun _ => 1 / 2, 5⟩) := by
  have h := C19_determinism (Generator.const (1 / 2)) ⟨fun _ => 1 / 2, 5⟩ (fun _ => rfl)
  exact ⟨h.1 1 ![0, 0, 0],
    (h.2.1 NumericLib.unit (fun _ => 0) (identityMatrix 1) (fun _ => 0) false
      unit_normal_same).1,
    h.2.2.2.2 GeometryLib.pole 0 0 ![0, 0, 1]⟩

/-! ## C21: the Watson polar cosine in the bipolar and girdle regimes -/

theorem watsonPolarCosine_nonneg (fuel : ℕ) (kappa : ℝ) (g g' : Generator) (S : ℝ)
    (hk : kappa > 1.0e-6 ∨ kappa < -1.0e-6) (hg : g.Valid)
    (h : watsonPolarCosine fuel kappa g = some (S, g')) : 0 ≤ S ∧ S < 1 := by
  unfold watsonPolarCosine at h
  by_cases h1 : kappa > 1.0e-6
  · rw [if_pos h1] at h
    obtain ⟨n, -, -, -, hS, -⟩ := (watsonBipolar_iff fuel kappa g g' S).1 h
    rw [hS]
    exact bipolarS_bounds kappa (watsonU g n) (lt_trans (by norm_num) h1)
      (watsonU_mem g hg n).1 (watsonU_mem g hg n).2
  · have h2 : kappa < -1.0e-6 := hk.resolve_left h1
    rw [if_neg h1, if_pos h2] at h
    obtain ⟨n, -, -, -, hS, -⟩ := (watsonGirdle_iff fuel kappa g g' S).1 h
    have hk0 : kappa ≠ 0 := by
      intro h0
      rw [h0] at h2
      norm_num at h2
    rw [hS]
    exact girdleS_bounds kappa (watsonU g n) hk0 (watsonU_mem g hg n).1 (watsonU_mem g hg n).2

/-- C21: in the bipolar regime (`kappa > 1e-6`) and in the girdle regime
(`kappa < -1e-6`), every draw `U` of `[0,1)` gives `0 <= S < 1`; the polar cosine on which
the sampling step finishes satisfies `0 <= S < 1`, the canonical-axis point has a third
coordinate `>= 0`, and when `S > 0` no run in the same regime produces the opposite
canonical-axis point. -/
theorem C21_watson_upper_hemisphere (fuel : ℕ) (kappa : ℝ) (g g' : Generator) (S : ℝ)
    (hk : kappa > 1.0e-6 ∨ kappa < -1.0e-6) (hg : g.Valid)
    (hS : watsonPolarCosine fuel kappa g = some (S, g')) :
    (∀ U, 0 ≤ U → U < 1 →
      (kappa > 1.0e-6 → 0 ≤ bipolarS kappa U ∧ bipolarS kappa U < 1) ∧
      (kappa < -1.0e-6 → 0 ≤ girdleS kappa U ∧ girdleS kappa U < 1)) ∧
    0 ≤ S ∧ S < 1 ∧
    (∀ phi, 0 ≤ canonicalPoint S phi 2) ∧
    (0 < S → ∀ (fuel2 : ℕ) (g2 g2' : Generator) (S2 phi phi2 : ℝ), g2.Valid →
      watsonPolarCosine fuel2 kappa g2 = some (S2, g2') →
      canonicalPoint S2 phi2 ≠ fun i => - canonicalPoint S phi i) := by
  have hb := watsonPolarCosine_nonneg fuel kappa g g' S hk hg hS
  refine ⟨?_, hb.1, hb.2, fun phi => hb.1, ?_⟩
  · intro U h0 h1
    refine ⟨fun hk1 => bipolarS_bounds kappa U (lt_trans (by norm_num) hk1) h0 h1, fun hk2 => ?_⟩
    have hk0 : kappa ≠ 0 := by
      intro h
      rw [h] at hk2
      norm_num at hk2
    exact girdleS_bounds kappa U hk0 h0 h1
  · intro hpos fuel2 g2 g2' S2 phi phi2 hg2 hS2 heq
    have hb2 := watsonPolarCosine_nonneg fuel2 kappa g2 g2' S2 hk hg2 hS2
    have h3 := congrFun heq 2
    have e1 : canonicalPoint S2 phi2 2 = S2 := rfl
    have e2 : canonicalPoint S phi 2 = S := rfl
    rw [e1, e2] at h3
    linarith [hb2.1]

/-- C21 at `kappa = 1` on the stream of canonical values `1e-7`. -/
theorem C21_watson_upper_hemisphere_witness :
    0 ≤ bipolarS 1 (watsonU (Generator.const 1.0e-7) 0) ∧
      bipolarS 1 (watsonU (Generator.const 1.0e-7) 0) < 1 := by
  have h := C21_watson_upper_hemisphere 0 1 (Generator.const 1.0e-7) _ _ (Or.inl (by norm_num))
    (const_valid _ (by norm_num) (by norm_num)) watson_bipolar_example
  exact ⟨h.2.1, h.2.2.1⟩

/-! ## C22: the rejection constants of the reference VMF sampler -/

theorem vmf_two_a_b (kappa : ℝ) : 2 * vmfA kappa * vmfB kappa = 1 + vmfB kappa := by
  have hs : Real.sqrt (kappa * kappa + 1) * Real.sqrt (kappa * kappa + 1) = kappa * kappa + 1 :=
    Real.mul_self_sqrt (by nlinarith [mul_self_nonneg kappa])
  unfold vmfA vmfB
  linear_combination hs

theorem vmfD_const (kappa : ℝ) : vmfD kappa = 2 - 2 * Real.log 2 := by
  have hb := vmfB_pos kappa
  have h1 : 4 * vmfA kappa * vmfB kappa / (1 + vmfB kappa) = 2 := by
    rw [div_eq_iff (by linarith)]
    linear_combination 2 * vmf_two_a_b kappa
  unfold vmfD safe_log
  rw [h1]

/-- For every `T > 0`: `2 ln T - T + 2 - 2 ln 2 <= 0`, with equality only at `T = 2`. -/
theorem vmf_acceptance_nonpos (T : ℝ) (hT : 0 < T) :
    2 * Real.log T - T + (2 - 2 * Real.log 2) ≤ 0 ∧
      (2 * Real.log T - T + (2 - 2 * Real.log 2) = 0 ↔ T = 2) := by
  have hx : 0 < T / 2 := by positivity
  have hlog : Real.log (T / 2) = Real.log T - Real.log 2 :=
    Real.log_div hT.ne.symm (by norm_num)
  constructor
  · have := Real.log_le_sub_one_of_pos hx
    rw [hlog] at this
    linarith
  · constructor
    · intro h
      by_contra hne
      have hne2 : T / 2 ≠ 1 := by
        intro h1
        apply hne
        linarith
      have := Real.log_lt_sub_one_of_pos hx hne2
      rw [hlog] at this
      linarith
    · intro h
      rw [h]
      ring

/-- C22: for every real `kappa`, `2ab = 1 + b`, so `d = 2 - 2 ln 2` whatever `kappa`,
`T = (1+b) / (1 - (1-b) Z)` at every trial, and `2 ln T - T + d <= 0` for every `T > 0`,
with equality only at `T = 2`. -/
theorem C22_vmf_constants (kappa : ℝ) :
    2 * vmfA kappa * vmfB kappa = 1 + vmfB kappa ∧
    vmfD kappa = 2 - 2 * Real.log 2 ∧
    (∀ (g : Generator) (n : ℕ),
      vmfT kappa g n = (1 + vmfB kappa) / (1 - (1 - vmfB kappa) * vmfZ g n)) ∧
    (∀ T : ℝ, 0 < T →
      2 * safe_log T - T + vmfD kappa ≤ 0 ∧ (2 * safe_log T - T + vmfD kappa = 0 ↔ T = 2)) := by
  refine ⟨vmf_two_a_b kappa, vmfD_const kappa, ?_, ?_⟩
  · intro g n
    unfold vmfT
    rw [vmf_two_a_b]
  · intro T hT
    rw [vmfD_const]
    exact vmf_acceptance_nonpos T hT

/-- C22 at `kappa = 3/4` and `T = 2`, where the acceptance quantity is `0`. -/
theorem C22_vmf_constants_witness :
    2 * safe_log 2 - 2 + vmfD (3 / 4) ≤ 0 ∧ (2 * safe_log 2 - 2 + vmfD (3 / 4) = 0 ↔ (2 : ℝ) = 2) :=
  (C22_vmf_constants (3 / 4)).2.2.2 2 (by norm_num)

/-! ## C23: the rejection loop of the reference VMF sampler is entered -/

/-- C23: for every `kappa` the initial values `T = 1`, `U = exp(d)` satisfy the condition
of line 123 (`d - 1 < d`), so the loop does not return without running its body; a
returned `W` is the value `(1 - (1+b) Z) / (1 - (1-b) Z)` computed from the draw `Z` of
some trial, after at least two draws. -/
theorem C23_vmf_loop_entered (fuel : ℕ) (kappa : ℝ) (g : Generator) :
    2 * safe_log 1 - 1 + vmfD kappa < safe_log (Real.exp (vmfD kappa)) ∧
    vmfCond kappa ⟨1, Real.exp (vmfD kappa), 0, g⟩ ∧
    vmfRejectionLoop 0 kappa g = none ∧
    (∀ W g', vmfRejectionLoop fuel kappa g = some (W, g') →
      ∃ n, n < fuel ∧ W = vmfW kappa g n ∧
        W = (1 - (1 + vmfB kappa) * vmfZ g n) / (1 - (1 - vmfB kappa) * vmfZ g n) ∧
        vmfZ g n = g.stream (g.pos + 2 * n) ∧
        g' = ⟨g.stream, g.pos + 2 * (n + 1)⟩ ∧ g.pos + 2 ≤ g'.pos) := by
  refine ⟨vmfCond_initial kappa g, vmfCond_initial kappa g, ?_, ?_⟩
  · unfold vmfRejectionLoop whileLoop
    rw [if_pos (vmfCond_initial kappa g)]
  · intro W g' h
    obtain ⟨n, hn, -, -, hW, hg'⟩ := (vmfRejectionLoop_iff fuel kappa g g' W).1 h
    refine ⟨n, hn, hW, hW, ?_, hg', ?_⟩
    · unfold vmfZ betaQuantile11
      ring
    · rw [hg']
      show g.pos + 2 ≤ g.pos + 2 * (n + 1)
      omega

/-- C23 at `kappa = 3/4` on the stream of canonical values `1/2`: the returned `W = 1/3`
is the value of the trial number 0. -/
theorem C23_vmf_loop_entered_witness :
    ∃ n, n < 1 ∧ (1 / 3 : ℝ) = vmfW (3 / 4) (Generator.const (1 / 2)) n ∧
      (1 / 3 : ℝ) = (1 - (1 + vmfB (3 / 4)) * vmfZ (Generator.const (1 / 2)) n)
        / (1 - (1 - vmfB (3 / 4)) * vmfZ (Generator.const (1 / 2)) n) ∧
      vmfZ (Generator.const (1 / 2)) n
        = (Generator.const (1 / 2)).stream ((Generator.const (1 / 2)).pos + 2 * n) ∧
      (⟨(Generator.const (1 / 2)).stream, (Generator.const (1 / 2)).pos + 2 * (0 + 1)⟩ : Generator)
        = ⟨(Generator.const (1 / 2)).stream, (Generator.const (1 / 2)).pos + 2 * (n + 1)⟩ ∧
      (Generator.const (1 / 2)).pos + 2
        ≤ (⟨(Generator.const (1 / 2)).stream,
            (Generator.const (1 / 2)).pos + 2 * (0 + 1)⟩ : Generator).pos := by
  have h := (C23_vmf_loop_entered 1 (3 / 4) (Generator.const (1 / 2))).2.2.2 _ _
    vmf_loop_example
  exact h

/-! ## C24: the unit-norm check precedes every draw -/

/-- C24: in the three directional samplers the check on the norm of `meanDirection` is
made before any draw: a call that throws the invalid-input exception leaves the generator
as it received it; for the two VMF samplers this is their only exception. -/
theorem C24_error_atomicity (lib : GeometryLib) (fuel : ℕ) (kappa : ℝ) (m : Vec3)
    (g : Generator) :
    (∀ e g', SampleFromVMFDistribution lib fuel kappa m g = some (Except.error e, g') →
      e = SampleError.invalidInput ∧ g' = g) ∧
    (∀ e g', SampleFromVMFDistributionNumericallyStable lib kappa m g = (Except.error e, g') →
      e = SampleError.invalidInput ∧ g' = g) ∧
    (∀ g', SampleFromWatsonDistribution lib fuel kappa m g
        = some (Except.error SampleError.invalidInput, g') → g' = g) ∧
    (|TransformCartesianToSphericalCoordinates m 2 - 1| > 1.0e-6 →
      SampleFromVMFDistribution lib fuel kappa m g
          = some (Except.error SampleError.invalidInput, g) ∧
      SampleFromVMFDistributionNumericallyStable lib kappa m g
          = (Except.error SampleError.invalidInput, g) ∧
      SampleFromWatsonDistribution lib fuel kappa m g
          = some (Except.error SampleError.invalidInput, g)) := by
  have e1 : (1.0 : ℝ) = 1 := by norm_num
  refine ⟨?_, ?_, ?_, ?_⟩
  · intro e g' h
    unfold SampleFromVMFDistribution at h
    simp only [e1] at h
    by_cases hc : |TransformCartesianToSphericalCoordinates m 2 - 1| > 1.0e-6
    · simp only [hc, if_true] at h
      have h1 := (Prod.mk.inj (Option.some.inj h)).1
      have h2 := (Prod.mk.inj (Option.some.inj h)).2
      exact ⟨(Except.error.inj h1).symm, h2.symm⟩
    · simp only [hc, if_false] at h
      cases hl : vmfRejectionLoop fuel kappa g with
      | none => rw [hl] at h; cases h
      | some p =>
        rw [hl] at h
        have := (Prod.mk.inj (Option.some.inj h)).1
        cases this
  · intro e g' h
    unfold SampleFromVMFDistributionNumericallyStable at h
    simp only [e1] at h
    by_cases hc : |TransformCartesianToSphericalCoordinates m 2 - 1| > 1.0e-6
    · simp only [hc, if_true] at h
      have h1 := (Prod.mk.inj h).1
      have h2 := (Prod.mk.inj h).2
      exact ⟨(Except.error.inj h1).symm, h2.symm⟩
    · simp only [hc, if_false] at h
      have := (Prod.mk.inj h).1
      cases this
  · intro g' h
    unfold SampleFromWatsonDistribution at h
    simp only [e1] at h
    by_cases hc : |TransformCartesianToSphericalCoordinates m 2 - 1| > 1.0e-6
    · simp only [hc, if_true] at h
      exact ((Prod.mk.inj (Option.some.inj h)).2).symm
    · simp only [hc, if_false] at h
      cases hl : watsonPolarCosine fuel kappa g with
      | none => rw [hl] at h; cases h
      | some p =>
        rw [hl] at h
        simp only at h
        split at h
        · have := (Prod.mk.inj (Option.some.inj h)).1
          cases this
        · have := (Prod.mk.inj (Option.some.inj h)).1
          cases this
  · intro hc
    unfold SampleFromVMFDistribution SampleFromVMFDistributionNumericallyStable
      SampleFromWatsonDistribution
    simp only [e1, hc, if_true, and_self]

/-- C24 at the mean direction `(0, 0, 0.5)` on a generator that has consumed 7 values: the
three samplers throw and return it at position 7. -/
theorem C24_error_atomicity_witness :
    SampleFromVMFDistribution GeometryLib.pole 1 1 ![0, 0, 0.5] ⟨fun _ => 1 / 2, 7⟩
        = some (Except.error SampleError.invalidInput, ⟨fun _ => 1 / 2, 7⟩) ∧
    SampleFromVMFDistributionNumericallyStable GeometryLib.pole 1 ![0, 0, 0.5] ⟨fun _ => 1 / 2, 7⟩
        = (Except.error SampleError.invalidInput, ⟨fun _ => 1 / 2, 7⟩) ∧
    SampleFromWatsonDistribution GeometryLib.pole 1 1 ![0, 0, 0.5] ⟨fun _ => 1 / 2, 7⟩
        = some (Except.error SampleError.invalidInput, ⟨fun _ => 1 / 2, 7⟩) :=
  (C24_error_atomicity GeometryLib.pole 1 1 ![0, 0, 0.5] ⟨fun _ => 1 / 2, 7⟩).2.2.2
    (by
      rw [sphericalRadius]
      have : ComputeNorm ![0, 0, 0.5] = 0.5 := by
        simp only [ComputeNorm, Matrix.cons_val_zero, Matrix.cons_val_one, Matrix.head_cons,
          Matrix.cons_val_two, Matrix.tail_cons]
        rw [show (0 * 0 + 0 * 0 + 0.5 * 0.5 : ℝ) = 0.5 * 0.5 by norm_num]
        exact Real.sqrt_mul_self (by norm_num)
      rw [this]
      norm_num [abs_of_neg])

/-! ## C25, C26, C27: the bounded parameters -/

theorem computeBoundedValue_fst (x s lb ub : ℝ) :
    (mcm_utilities.ComputeBoundedValue x s lb ub).1 = (ub - lb) * (Real.sin x + 1) / 2 + lb := by
  simp only [mcm_utilities.ComputeBoundedValue]
  norm_num

theorem computeBoundedValue_snd (x s lb ub : ℝ) :
    (mcm_utilities.ComputeBoundedValue x s lb ub).2 = if Real.cos x ≥ 0 then 1 else -1 := by
  simp only [mcm_utilities.ComputeBoundedValue]
  norm_num

theorem unboundValue_eq (x lb ub : ℝ) (h : lb < ub) :
    mcm_utilities.UnboundValue x lb ub
      = Real.arcsin (2 * (max lb (min x ub) - lb) / (ub - lb) - 1) := by
  have hc : (if (if x < lb then lb else x) > ub then ub else (if x < lb then lb else x))
      = max lb (min x ub) := by
    by_cases h1 : x < lb
    · have h2 : ¬ lb > ub := not_lt.2 h.le
      rw [if_pos h1, if_neg h2, min_eq_left (by linarith), max_eq_left h1.le]
    · rw [if_neg h1]
      by_cases h2 : x > ub
      · rw [if_pos h2, min_eq_right h2.le, max_eq_right h.le]
      · rw [if_neg h2, min_eq_left (not_lt.1 h2), max_eq_right (not_lt.1 h1)]
  simp only [mcm_utilities.UnboundValue, hc]
  norm_num

theorem computeBoundedValue_range (x s lb ub : ℝ) (h : lb ≤ ub) :
    lb ≤ (mcm_utilities.ComputeBoundedValue x s lb ub).1 ∧
      (mcm_utilities.ComputeBoundedValue x s lb ub).1 ≤ ub := by
  rw [computeBoundedValue_fst]
  have h1 := Real.neg_one_le_sin x
  have h2 := Real.sin_le_one x
  have h3 : 0 ≤ ub - lb := by linarith
  constructor
  · nlinarith [mul_nonneg h3 (show 0 ≤ Real.sin x + 1 by linarith)]
  · nlinarith [mul_nonneg h3 (show 0 ≤ 1 - Real.sin x by linarith)]

/-- C25: for `lowerBound < upperBound` and every real `x`,
`ComputeBoundedValue(UnboundValue(x, ...), inputSign, ...)` returns `x` clamped to
`[lowerBound, upperBound]`, which is `x` itself when `lowerBound <= x <= upperBound`, and
sets `inputSign` to `+1`. -/
theorem C25_bounded_round_trip (x inputSign lb ub : ℝ) (h : lb < ub) :
    mcm_utilities.ComputeBoundedValue (mcm_utilities.UnboundValue x lb ub) inputSign lb ub
      = (max lb (min x ub), 1) ∧
    (lb ≤ x → x ≤ ub →
      mcm_utilities.ComputeBoundedValue (mcm_utilities.UnboundValue x lb ub) inputSign lb ub
        = (x, 1)) := by
  have hd : 0 < ub - lb := by linarith
  have hlo : lb ≤ max lb (min x ub) := le_max_left _ _
  have hhi : max lb (min x ub) ≤ ub := max_le h.le (min_le_right _ _)
  have ht1 : -1 ≤ 2 * (max lb (min x ub) - lb) / (ub - lb) - 1 := by
    have : 0 ≤ 2 * (max lb (min x ub) - lb) / (ub - lb) := by
      apply div_nonneg _ hd.le
      linarith
    linarith
  have ht2 : 2 * (max lb (min x ub) - lb) / (ub - lb) - 1 ≤ 1 := by
    have : 2 * (max lb (min x ub) - lb) / (ub - lb) ≤ 2 := by
      rw [div_le_iff₀ hd]
      linarith
    linarith
  have hmain : mcm_utilities.ComputeBoundedValue (mcm_utilities.UnboundValue x lb ub)
      inputSign lb ub = (max lb (min x ub), 1) := by
    refine Prod.ext ?_ ?_
    · rw [computeBoundedValue_fst, unboundValue_eq x lb ub h, Real.sin_arcsin ht1 ht2]
      show (ub - lb) * (2 * (max lb (min x ub) - lb) / (ub - lb) - 1 + 1) / 2 + lb
        = max lb (min x ub)
      field_simp
    · rw [computeBoundedValue_snd, unboundValue_eq x lb ub h]
      exact if_pos (Real.cos_arcsin_nonneg _)
  refine ⟨hmain, ?_⟩
  intro h1 h2
  rw [hmain, min_eq_left h2, max_eq_right h1]

/-- C25 on `[0, 1]`: `x = 1/2` comes back unchanged and `x = 2` comes back as `1`. -/
theorem C25_bounded_round_trip_witness :
    mcm_utilities.ComputeBoundedValue (mcm_utilities.UnboundValue (1 / 2) 0 1) (-1) 0 1
        = (1 / 2, 1) ∧
    mcm_utilities.ComputeBoundedValue (mcm_utilities.UnboundValue 2 0 1) (-1) 0 1
        = (max 0 (min 2 1), 1) :=
  ⟨(C25_bounded_round_trip (1 / 2) (-1) 0 1 (by norm_num)).2 (by norm_num) (by norm_num),
    (C25_bounded_round_trip 2 (-1) 0 1 (by norm_num)).1⟩

/-- C26: for `lowerBound <= upperBound` and every real `x`, with `y` and `inputSign` the
value and the sign produced by `ComputeBoundedValue(x, ...)`,
`BoundedDerivativeAddOn(y, inputSign, ...)` equals `(upperBound - lowerBound)/2 * cos(x)`,
which is the derivative of `ComputeBoundedValue` with respect to `x`. -/
theorem C26_bounded_derivative (x inputSign lb ub : ℝ) (h : lb ≤ ub) :
    mcm_utilities.BoundedDerivativeAddOn
        (mcm_utilities.ComputeBoundedValue x inputSign lb ub).1
        (mcm_utilities.ComputeBoundedValue x inputSign lb ub).2 lb ub
      = (ub - lb) / 2 * Real.cos x ∧
    HasDerivAt (fun t => (mcm_utilities.ComputeBoundedValue t inputSign lb ub).1)
      ((ub - lb) / 2 * Real.cos x) x := by
  constructor
  · have hr := computeBoundedValue_range x inputSign lb ub h
    have hd : 0 ≤ ub - lb := by linarith
    have hcs := Real.sin_sq_add_cos_sq x
    simp only [mcm_utilities.BoundedDerivativeAddOn]
    rw [if_neg (not_lt.2 hr.1), if_neg (not_lt.2 hr.2), computeBoundedValue_snd,
      computeBoundedValue_fst]
    by_cases hc : Real.cos x ≥ 0
    · rw [if_pos hc, one_mul]
      have hsq : ((ub - lb) * (Real.sin x + 1) / 2 + lb - lb)
          * (ub - ((ub - lb) * (Real.sin x + 1) / 2 + lb))
          = ((ub - lb) / 2 * Real.cos x) * ((ub - lb) / 2 * Real.cos x) := by
        linear_combination (-((ub - lb) * (ub - lb) / 4)) * hcs
      rw [hsq, Real.sqrt_mul_self (mul_nonneg (by linarith) hc)]
    · rw [if_neg hc]
      have hneg : 0 ≤ -Real.cos x := by linarith [not_le.1 hc]
      have hsq : ((ub - lb) * (Real.sin x + 1) / 2 + lb - lb)
          * (ub - ((ub - lb) * (Real.sin x + 1) / 2 + lb))
          = ((ub - lb) / 2 * -Real.cos x) * ((ub - lb) / 2 * -Real.cos x) := by
        linear_combination (-((ub - lb) * (ub - lb) / 4)) * hcs
      rw [hsq, Real.sqrt_mul_self (mul_nonneg (by linarith) hneg)]
      ring
  · have hf : (fun t => (mcm_utilities.ComputeBoundedValue t inputSign lb ub).1)
        = fun t => (ub - lb) * (Real.sin t + 1) / 2 + lb := by
      funext t
      exact computeBoundedValue_fst t inputSign lb ub
    rw [hf]
    have h1 := ((((Real.hasDerivAt_sin x).add_const 1).const_mul (ub - lb)).div_const 2).add_const
      lb
    convert h1 using 1
    ring

/-- C26 on `[0, 2]` at `x = 0`: the value is `1`, the sign `+1`, and the add-on is
`1 = (2 - 0)/2 * cos 0`. -/
theorem C26_bounded_derivative_witness :
    mcm_utilities.BoundedDerivativeAddOn
        (mcm_utilities.ComputeBoundedValue 0 (-1) 0 2).1
        (mcm_utilities.ComputeBoundedValue 0 (-1) 0 2).2 0 2
      = (2 - 0) / 2 * Real.cos 0 :=
  (C26_bounded_derivative 0 (-1) 0 2 (by norm_num)).1

/-- C27: for `lowerBound <= upperBound` and every real `x`, the value returned by
`ComputeBoundedValue` lies in `[lowerBound, upperBound]`, and the `inputSign` it writes
is `+1` when `cos(x) >= 0` and `-1` otherwise, whatever its incoming value. -/
theorem C27_bounded_range (x inputSign lb ub : ℝ) (h : lb ≤ ub) :
    lb ≤ (mcm_utilities.ComputeBoundedValue x inputSign lb ub).1 ∧
    (mcm_utilities.ComputeBoundedValue x inputSign lb ub).1 ≤ ub ∧
    (Real.cos x ≥ 0 → (mcm_utilities.ComputeBoundedValue x inputSign lb ub).2 = 1) ∧
    (¬ Real.cos x ≥ 0 → (mcm_utilities.ComputeBoundedValue x inputSign lb ub).2 = -1) ∧
    ((mcm_utilities.ComputeBoundedValue x inputSign lb ub).2 = 1 ∨
      (mcm_utilities.ComputeBoundedValue x inputSign lb ub).2 = -1) := by
  have hr := computeBoundedValue_range x inputSign lb ub h
  have hs := computeBoundedValue_snd x inputSign lb ub
  refine ⟨hr.1, hr.2, ?_, ?_, ?_⟩
  · intro hc
    rw [hs, if_pos hc]
  · intro hc
    rw [hs, if_neg hc]
  · by_cases hc : Real.cos x ≥ 0
    · left
      rw [hs, if_pos hc]
    · right
      rw [hs, if_neg hc]

/-- C27 on `[0, 2]`: at `x = 0` the sign written is `+1`, at `x = pi` it is `-1`, and
both values lie in `[0, 2]`. -/
theorem C27_bounded_range_witness :
    (0 ≤ (mcm_utilities.ComputeBoundedValue 0 5 0 2).1 ∧
      (mcm_utilities.ComputeBoundedValue 0 5 0 2).1 ≤ 2 ∧
      (mcm_utilities.ComputeBoundedValue 0 5 0 2).2 = 1) ∧
    (0 ≤ (mcm_utilities.ComputeBoundedValue Real.pi 5 0 2).1 ∧
      (mcm_utilities.ComputeBoundedValue Real.pi 5 0 2).1 ≤ 2 ∧
      (mcm_utilities.ComputeBoundedValue Real.pi 5 0 2).2 = -1) := by
  have h0 := C27_bounded_range 0 5 0 2 (by norm_num)
  have hp := C27_bounded_range Real.pi 5 0 2 (by norm_num)
  refine ⟨⟨h0.1, h0.2.1, h0.2.2.1 ?_⟩, ⟨hp.1, hp.2.1, hp.2.2.2.1 ?_⟩⟩
  · rw [Real.cos_zero]
    norm_num
  · rw [Real.cos_pi]
    norm_num

end anima
